import Mathlib

/-!
# Verification of the inventory document model

Shallow embedding of the `bernikr/inventory` repository: the identifier
codec (`common/base.py`, `datamatrix.py`), the `Item` tree model with
`flatten` and `update_parents`, the resolver `search_item` and the `move`
mutation (`inv.py`), and the markdown-document parser and renderer
(`common/parser.py`).

Strings are modelled as lists of characters (`Str`); 128-bit identifiers
as natural numbers below `2 ^ 128`.  Fallible Python code (functions that
raise) is modelled with `Option` / `Except`.
-/

namespace Inventory

abbrev Str := List Char

/-! ## Identifier codec

`parse_uuid` (common/base.py lines 18-29), the canonical rendering
`str(uuid)` used by the renderer and resolver, and the unpadded URL-safe
base64 rendering produced in `datamatrix.py` line 26. -/

/-- Big-endian digits of `n` in base `b`, padded/truncated to exactly `k`
digits (the low `k` digits of `n`). -/
def toDigitsBE (b : Nat) : Nat → Nat → List Nat
  | 0, _ => []
  | k + 1, n => toDigitsBE b k (n / b) ++ [n % b]

/-- Value of a big-endian digit list in base `b`. -/
def ofDigitsBE (b : Nat) (ds : List Nat) : Nat :=
  ds.foldl (fun a d => a * b + d) 0

/-- Lowercase hexadecimal digit character, as produced by Python's
`str(uuid.UUID)`. -/
def hexChar (d : Nat) : Char :=
  if d < 10 then Char.ofNat (48 + d) else Char.ofNat (87 + d)

/-- Value of a hexadecimal digit character; Python's `int(_, 16)` accepts
both cases. -/
def hexVal (c : Char) : Option Nat :=
  if 48 ≤ c.toNat ∧ c.toNat ≤ 57 then some (c.toNat - 48)
  else if 97 ≤ c.toNat ∧ c.toNat ≤ 102 then some (c.toNat - 87)
  else if 65 ≤ c.toNat ∧ c.toNat ≤ 70 then some (c.toNat - 55)
  else none

/-- The 32 hex digits of a 128-bit identifier. -/
def uuidHex (n : Nat) : Str := (toDigitsBE 16 32 n).map hexChar

/-- Insert the canonical 8-4-4-4-12 hyphens. -/
def hyphenate (h : Str) : Str :=
  h.take 8 ++ '-' :: (h.drop 8).take 4 ++ '-' :: (h.drop 12).take 4
    ++ '-' :: (h.drop 16).take 4 ++ '-' :: h.drop 20

/-- Python `str(uuid)`: the 36-character canonical lowercase form. -/
def str_uuid (n : Nat) : Str := hyphenate (uuidHex n)

/-- Models Python `uuid.UUID(ref)` on the 36-character inputs reaching it
here: hyphens are removed and the remaining characters must be exactly 32
hex digits.  (The stdlib's further leniencies - `urn:` prefixes, braces,
underscores, surrounding whitespace and a sign accepted by `int(_, 16)` -
are not modelled; no claim depends on inputs using them.) -/
def uuid_from_hex (s : Str) : Option Nat :=
  let h := s.filter (· ≠ '-')
  if h.length = 32 then (h.mapM hexVal).map (ofDigitsBE 16) else none

/-- Value of a URL-safe base64 alphabet character. -/
def b64Val (c : Char) : Option Nat :=
  if 65 ≤ c.toNat ∧ c.toNat ≤ 90 then some (c.toNat - 65)
  else if 97 ≤ c.toNat ∧ c.toNat ≤ 122 then some (c.toNat - 71)
  else if 48 ≤ c.toNat ∧ c.toNat ≤ 57 then some (c.toNat + 4)
  else if c = '-' then some 62
  else if c = '_' then some 63
  else none

/-- URL-safe base64 alphabet character for a value below 64. -/
def b64Char (d : Nat) : Char :=
  if d < 26 then Char.ofNat (65 + d)
  else if d < 52 then Char.ofNat (71 + d)
  else if d < 62 then Char.ofNat (d - 4)
  else if d = 62 then '-'
  else '_'

/-- Models `uuid.UUID(bytes=base64.urlsafe_b64decode(ref + "=="))` on a
22-character input: the 22 sextets carry 132 bits of which the low 4 are
dropped.  A character outside the urlsafe alphabet is discarded by
`b64decode`, which then yields a byte count other than 16 and a
`ValueError` from `uuid.UUID`, so such inputs are rejected. -/
def uuid_from_b64 (s : Str) : Option Nat :=
  (s.mapM b64Val).map (fun ds => ofDigitsBE 64 ds / 16)

/-- The 22-character unpadded URL-safe base64 encoding of the 16
identifier bytes, as produced in `datamatrix.py`
(`base64.urlsafe_b64encode(uuid.bytes)` with `=` stripped). -/
def uuid_b64 (n : Nat) : Str := (toDigitsBE 64 22 (n * 16)).map b64Char

/-- Python `str.removeprefix`: strip one occurrence of a prefix. -/
def dropPrefixStr (p s : Str) : Str :=
  if p.isPrefixOf s then s.drop p.length else s

/-- `parse_uuid` (common/base.py lines 18-29): strip an optional `uuid:`
prefix, then accept a 36-character canonical form or a 22-character
base64 form; any other length raises `ValueError`. -/
def parse_uuid (s : Str) : Option Nat :=
  let r := dropPrefixStr "uuid:".data s
  if r.length = 36 then uuid_from_hex r
  else if r.length = 22 then uuid_from_b64 r
  else none

/-! ## Tree model

`Item` (common/base.py lines 9-15) without its derived `parent` field:
the claims about parsing, rendering and resolution compare trees in
`(name, identifier, hoisted, child order)`, and `parent` is modelled
separately in the heap embedding used for `move` / `update_parents`. -/

inductive Item where
  | mk (name : Str) (uuid : Option Nat) (children : List Item) (hoisted : Bool)

def Item.name : Item → Str
  | .mk n _ _ _ => n

def Item.uuid : Item → Option Nat
  | .mk _ u _ _ => u

def Item.children : Item → List Item
  | .mk _ _ c _ => c

def Item.hoisted : Item → Bool
  | .mk _ _ _ h => h

mutual

/-- Structural equality of items, mirroring Python's dataclass `__eq__`
restricted to siblings of a consistent tree: the `parent` fields of
siblings are the identical object, so their comparison short-circuits
and only `(name, uuid, children, hoisted)` decide the result. -/
def itemBEq : Item → Item → Bool
  | .mk n1 u1 c1 h1, .mk n2 u2 c2 h2 =>
    n1 == n2 && u1 == u2 && h1 == h2 && itemsBEq c1 c2

def itemsBEq : List Item → List Item → Bool
  | [], [] => true
  | a :: as, b :: bs => itemBEq a b && itemsBEq as bs
  | _, _ => false

end

instance : BEq Item := ⟨itemBEq⟩

mutual

/-- Number of nodes in an item's subtree. -/
def itemSize : Item → Nat
  | .mk _ _ cs _ => 1 + itemsSize cs

/-- Number of nodes in a forest. -/
def itemsSize : List Item → Nat
  | [] => 0
  | a :: as => itemSize a + itemsSize as

end

theorem itemsSize_eq_sum (cs : List Item) : itemsSize cs = (cs.map itemSize).sum := by
  induction cs with
  | nil => rfl
  | cons a as ih => simp [itemsSize, ih]

theorem childrenSize_lt (e : Item) : (e.children.map itemSize).sum < itemSize e := by
  cases e with
  | mk n u cs h =>
    simp only [Item.children, itemSize, ← itemsSize_eq_sum]
    omega

/-- Sum of the sizes of the items in a queue, the termination measure of
the `flatten` loop. -/
def qMeasure (q : List Item) : Nat := (q.map itemSize).sum

theorem qMeasure_getLast? {q : List Item} {l : Item} (h : q.getLast? = some l) :
    qMeasure q = qMeasure q.dropLast + itemSize l := by
  induction q with
  | nil => simp at h
  | cons a as ih =>
    cases as with
    | nil =>
      simp only [List.getLast?_singleton, Option.some.injEq] at h
      simp [qMeasure, h]
    | cons b bs =>
      rw [List.getLast?_cons_cons] at h
      have := ih h
      have hd : (a :: b :: bs).dropLast = a :: (b :: bs).dropLast := rfl
      simp only [qMeasure, List.map_cons, List.sum_cons, hd] at *
      omega

theorem qMeasure_step_bfs (e : Item) (q' : List Item) :
    qMeasure (q' ++ e.children) < qMeasure (e :: q') := by
  have h3 := childrenSize_lt e
  simp only [qMeasure, List.map_cons, List.sum_cons, List.map_append,
    List.sum_append]
  omega

theorem qMeasure_step_dfs {q : List Item} {l : Item} (hl : q.getLast? = some l) :
    qMeasure (q.dropLast ++ l.children.reverse) < qMeasure q := by
  have h2 := qMeasure_getLast? hl
  have h3 := childrenSize_lt l
  simp only [qMeasure, List.map_append, List.sum_append, List.map_reverse,
    List.sum_reverse] at *
  omega

/-- The `while q` loop of `flatten` (common/base.py lines 42-50).  The
deque is a list whose head is its left end. -/
def flattenGo (df : Bool) (q : List Item) : List Item :=
  match q with
  | [] => []
  | e :: q' =>
    if df then
      match hl : (e :: q').getLast? with
      | some l => l :: flattenGo df ((e :: q').dropLast ++ l.children.reverse)
      | none => []
    else
      e :: flattenGo df (q' ++ e.children)
termination_by qMeasure q
decreasing_by
  · exact qMeasure_step_dfs hl
  · exact qMeasure_step_bfs _ _

/-- `flatten` (common/base.py lines 42-50): breadth-first when
`depth_first` is false, depth-first pre-order otherwise. -/
def flatten (tree : Item) (depth_first : Bool) : List Item :=
  flattenGo depth_first [tree]

/-! ## Resolver

`search_item` (inv.py lines 174-191). -/

/-- The two failure modes of `search_item`: `notFound` models the
`StopIteration` escaping from `next()` when an exact identifier matches
no item, `ambiguous` the final `ValueError` reporting both candidate
counts. -/
inductive SearchErr where
  | notFound
  | ambiguous (nu nn : Nat)
deriving DecidableEq

/-- Python `str.lower`, restricted to ASCII (queries and names exercised
by the claims are ASCII). -/
def lowerStr (s : Str) : Str := s.map Char.toLower

/-- Python `a.startswith(b)`. -/
def pyStartsWith (a b : Str) : Bool := b.isPrefixOf a

/-- Python `str(i.uuid)` where `i.uuid` may be `None`. -/
def strUuidOpt : Option Nat → Str
  | none => "None".data
  | some n => str_uuid n

/-- `search_item` (inv.py lines 174-191). -/
def search_item (s : Str) (tree : Item) : Except SearchErr Item :=
  match parse_uuid s with
  | some id =>
    match (flatten tree false).find? (fun i => i.uuid == some id) with
    | some i => .ok i
    | none => .error .notFound
  | none =>
    let uuid_candidates :=
      (flatten tree false).filter (fun i => pyStartsWith (strUuidOpt i.uuid) (lowerStr s))
    match hu : uuid_candidates with
    | [i] => .ok i
    | _ =>
      let name_candidates :=
        (flatten tree false).filter (fun i => pyStartsWith (lowerStr i.name) (lowerStr s))
      match hn : name_candidates with
      | [i] => if s.length > 4 then .ok i else
          .error (.ambiguous uuid_candidates.length name_candidates.length)
      | _ => .error (.ambiguous uuid_candidates.length name_candidates.length)

/-! ## Codec lemmas -/

theorem toDigitsBE_length (b : Nat) : ∀ k n, (toDigitsBE b k n).length = k := by
  intro k
  induction k with
  | zero => intro n; rfl
  | succ k ih => intro n; simp [toDigitsBE, ih]

theorem toDigitsBE_lt (b : Nat) (hb : 0 < b) :
    ∀ k n, ∀ d ∈ toDigitsBE b k n, d < b := by
  intro k
  induction k with
  | zero => intro n d hd; simp [toDigitsBE] at hd
  | succ k ih =>
    intro n d hd
    simp only [toDigitsBE, List.mem_append, List.mem_singleton] at hd
    rcases hd with hd | hd
    · exact ih _ _ hd
    · subst hd; exact Nat.mod_lt _ hb

theorem ofDigitsBE_append_single (b : Nat) (l : List Nat) (d : Nat) :
    ofDigitsBE b (l ++ [d]) = ofDigitsBE b l * b + d := by
  simp [ofDigitsBE, List.foldl_append]

theorem ofDigitsBE_toDigitsBE (b : Nat) (hb : 0 < b) :
    ∀ k n, ofDigitsBE b (toDigitsBE b k n) = n % b ^ k := by
  intro k
  induction k with
  | zero => intro n; simp [toDigitsBE, ofDigitsBE, Nat.mod_one]
  | succ k ih =>
    intro n
    rw [toDigitsBE, ofDigitsBE_append_single, ih]
    have h : b ^ (k + 1) = b * b ^ k := by ring
    rw [h, Nat.mod_mul]
    ring

theorem hexVal_hexChar {d : Nat} (hd : d < 16) : hexVal (hexChar d) = some d := by
  interval_cases d <;> decide

theorem hexChar_ne_hyphen {d : Nat} (hd : d < 16) : hexChar d ≠ '-' := by
  interval_cases d <;> decide

theorem hexChar_ne_colon {d : Nat} (hd : d < 16) : hexChar d ≠ ':' := by
  interval_cases d <;> decide

theorem b64Val_b64Char {d : Nat} (hd : d < 64) : b64Val (b64Char d) = some d := by
  interval_cases d <;> decide

theorem b64Char_ne_colon {d : Nat} (hd : d < 64) : b64Char d ≠ ':' := by
  interval_cases d <;> decide

theorem mem_hyphenate {c : Char} {l : Str} (h : c ∈ hyphenate l) :
    c = '-' ∨ c ∈ l := by
  by_cases hc : c = '-'
  · left; exact hc
  · right
    simp only [hyphenate, List.mem_append, List.mem_cons, hc, false_or] at h
    rcases h with (((h | h) | h) | h) | h
    · exact List.take_subset _ _ h
    · exact List.drop_subset _ _ (List.take_subset _ _ h)
    · exact List.drop_subset _ _ (List.take_subset _ _ h)
    · exact List.drop_subset _ _ (List.take_subset _ _ h)
    · exact List.drop_subset _ _ h

theorem mem_uuidHex {c : Char} {n : Nat} (h : c ∈ uuidHex n) :
    ∃ d, d < 16 ∧ c = hexChar d := by
  simp only [uuidHex, List.mem_map] at h
  obtain ⟨d, hd, rfl⟩ := h
  exact ⟨d, toDigitsBE_lt 16 (by norm_num) 32 n d hd, rfl⟩

theorem str_uuid_ne_colon {c : Char} {n : Nat} (h : c ∈ str_uuid n) : c ≠ ':' := by
  rcases mem_hyphenate h with h | h
  · subst h; decide
  · obtain ⟨d, hd, rfl⟩ := mem_uuidHex h
    exact hexChar_ne_colon hd

/-- A string containing no colon is unchanged by stripping the `uuid:`
prefix. -/
theorem dropPrefixStr_of_no_colon {l : Str} (h : ∀ c ∈ l, c ≠ ':') :
    dropPrefixStr "uuid:".data l = l := by
  unfold dropPrefixStr
  rw [if_neg]
  intro hp
  rw [List.isPrefixOf_iff_prefix] at hp
  exact h ':' (hp.subset (by decide)) rfl

theorem dropPrefixStr_append (x : Str) :
    dropPrefixStr "uuid:".data ("uuid:".data ++ x) = x := by
  unfold dropPrefixStr
  rw [if_pos, List.drop_left]
  rw [List.isPrefixOf_iff_prefix]
  exact ⟨x, rfl⟩

theorem uuidHex_length (n : Nat) : (uuidHex n).length = 32 := by
  simp [uuidHex, toDigitsBE_length]

theorem str_uuid_length (n : Nat) : (str_uuid n).length = 36 := by
  have h := uuidHex_length n
  simp only [str_uuid, hyphenate, List.length_append, List.length_cons,
    List.length_take, List.length_drop]
  omega

theorem uuid_b64_length (n : Nat) : (uuid_b64 n).length = 22 := by
  simp [uuid_b64, toDigitsBE_length]

theorem filter_hyphenate {l : Str} (h : ∀ c ∈ l, c ≠ '-') :
    (hyphenate l).filter (· ≠ '-') = l := by
  have hsub : ∀ (s : Str), s ⊆ l → s.filter (· ≠ '-') = s := by
    intro s hsl
    rw [List.filter_eq_self]
    intro a ha
    simpa using h a (hsl ha)
  rw [hyphenate, List.filter_append, List.filter_cons_of_neg (by decide),
    List.filter_append, List.filter_cons_of_neg (by decide),
    List.filter_append, List.filter_cons_of_neg (by decide),
    List.filter_append, List.filter_cons_of_neg (by decide)]
  rw [hsub _ (List.take_subset _ _),
    hsub _ (fun c hc => List.drop_subset _ _ (List.take_subset _ _ hc)),
    hsub _ (fun c hc => List.drop_subset _ _ (List.take_subset _ _ hc)),
    hsub _ (fun c hc => List.drop_subset _ _ (List.take_subset _ _ hc)),
    hsub _ (List.drop_subset _ _)]
  have e2 : (l.drop 8).take 4 ++ l.drop 12 = l.drop 8 := by
    have := List.take_append_drop 4 (l.drop 8)
    rwa [List.drop_drop] at this
  have e3 : (l.drop 12).take 4 ++ l.drop 16 = l.drop 12 := by
    have := List.take_append_drop 4 (l.drop 12)
    rwa [List.drop_drop] at this
  have e4 : (l.drop 16).take 4 ++ l.drop 20 = l.drop 16 := by
    have := List.take_append_drop 4 (l.drop 16)
    rwa [List.drop_drop] at this
  simp only [List.append_assoc]
  rw [e4, e3, e2, List.take_append_drop]

theorem mapM_hexVal {ds : List Nat} (h : ∀ d ∈ ds, d < 16) :
    (ds.map hexChar).mapM hexVal = some ds := by
  induction ds with
  | nil => rfl
  | cons d ds ih =>
    simp only [List.map_cons, List.mapM_cons]
    rw [hexVal_hexChar (h d (by simp)), ih (fun x hx => h x (by simp [hx]))]
    rfl

theorem mapM_b64Val {ds : List Nat} (h : ∀ d ∈ ds, d < 64) :
    (ds.map b64Char).mapM b64Val = some ds := by
  induction ds with
  | nil => rfl
  | cons d ds ih =>
    simp only [List.map_cons, List.mapM_cons]
    rw [b64Val_b64Char (h d (by simp)), ih (fun x hx => h x (by simp [hx]))]
    rfl

theorem uuid_from_hex_str_uuid {n : Nat} (hn : n < 2 ^ 128) :
    uuid_from_hex (str_uuid n) = some n := by
  have hmem : ∀ c ∈ uuidHex n, c ≠ '-' := by
    intro c hc
    obtain ⟨d, hd, rfl⟩ := mem_uuidHex hc
    exact hexChar_ne_hyphen hd
  unfold uuid_from_hex str_uuid
  simp only [filter_hyphenate hmem, uuidHex_length, if_pos]
  unfold uuidHex
  rw [mapM_hexVal (toDigitsBE_lt 16 (by norm_num) 32 n)]
  simp only [Option.map_some']
  rw [ofDigitsBE_toDigitsBE 16 (by norm_num)]
  congr 1
  have : (16 : Nat) ^ 32 = 2 ^ 128 := by norm_num
  rw [this]
  exact Nat.mod_eq_of_lt hn

theorem uuid_from_b64_uuid_b64 {n : Nat} (hn : n < 2 ^ 128) :
    uuid_from_b64 (uuid_b64 n) = some n := by
  unfold uuid_from_b64 uuid_b64
  rw [mapM_b64Val (toDigitsBE_lt 64 (by norm_num) 22 (n * 16))]
  simp only [Option.map_some', Option.some.injEq]
  rw [ofDigitsBE_toDigitsBE 64 (by norm_num)]
  have h1 : (64 : Nat) ^ 22 = 2 ^ 132 := by norm_num
  have h2 : n * 16 < 2 ^ 132 := by
    have : (2 : Nat) ^ 132 = 2 ^ 128 * 16 := by norm_num
    rw [this]
    exact (Nat.mul_lt_mul_right (by norm_num)).mpr hn
  rw [h1, Nat.mod_eq_of_lt h2]
  omega

/-- **C7.**  Codec round trip: for every 128-bit value, decoding the
36-character canonical form (with or without the `uuid:` prefix) and the
22-character unpadded URL-safe base64 form recovers the value, and every
input whose prefix-stripped length is neither 36 nor 22 is rejected
(`parse_uuid` raises `ValueError`, the `InvalidIdentifier` of the spec's
taxonomy). -/
theorem codec_round_trip (n : Nat) (hn : n < 2 ^ 128) :
    parse_uuid (str_uuid n) = some n
    ∧ parse_uuid ("uuid:".data ++ str_uuid n) = some n
    ∧ parse_uuid (uuid_b64 n) = some n
    ∧ parse_uuid ("uuid:".data ++ uuid_b64 n) = some n
    ∧ ∀ s : Str, (dropPrefixStr "uuid:".data s).length ≠ 36 →
        (dropPrefixStr "uuid:".data s).length ≠ 22 → parse_uuid s = none := by
  have hb64c : ∀ c ∈ uuid_b64 n, c ≠ ':' := by
    intro c hcm
    simp only [uuid_b64, List.mem_map] at hcm
    obtain ⟨d, hd, rfl⟩ := hcm
    exact b64Char_ne_colon (toDigitsBE_lt 64 (by norm_num) 22 (n * 16) d hd)
  refine ⟨?_, ?_, ?_, ?_, ?_⟩
  · simp only [parse_uuid]
    rw [dropPrefixStr_of_no_colon (fun c hc => str_uuid_ne_colon hc), str_uuid_length]
    norm_num
    exact uuid_from_hex_str_uuid hn
  · simp only [parse_uuid]
    rw [dropPrefixStr_append, str_uuid_length]
    norm_num
    exact uuid_from_hex_str_uuid hn
  · simp only [parse_uuid]
    rw [dropPrefixStr_of_no_colon hb64c, uuid_b64_length]
    norm_num
    exact uuid_from_b64_uuid_b64 hn
  · simp only [parse_uuid]
    rw [dropPrefixStr_append, uuid_b64_length]
    norm_num
    exact uuid_from_b64_uuid_b64 hn
  · intro s h36 h22
    simp only [parse_uuid]
    rw [if_neg h36, if_neg h22]

/-! ## Resolver theorems -/

theorem find?_of_filter_singleton {α : Type} {p : α → Bool} :
    ∀ {l : List α} {a : α}, l.filter p = [a] → l.find? p = some a := by
  intro l
  induction l with
  | nil => intro a h; simp at h
  | cons x xs ih =>
    intro a h
    cases hp : p x
    · simp only [List.filter_cons, hp, Bool.false_eq_true, if_false] at h
      simp only [List.find?_cons, hp]
      exact ih h
    · simp only [List.filter_cons, hp, if_true] at h
      obtain ⟨rfl, -⟩ := List.cons_eq_cons.mp h
      simp only [List.find?_cons, hp]

/-- **C4.**  Exact-identifier resolution: when the query decodes as an
identifier, `search_item` returns the unique item carrying it (the first
match of the breadth-first traversal, unique by assumption), and fails
with `notFound` (a `StopIteration` in the source) when no item carries
it. -/
theorem resolve_exact_identifier (q : Str) (t : Item) (id : Nat)
    (hdec : parse_uuid q = some id) :
    (∀ A, (flatten t false).filter (fun i => i.uuid == some id) = [A] →
        search_item q t = .ok A)
    ∧ ((∀ i ∈ flatten t false, i.uuid ≠ some id) →
        search_item q t = .error .notFound) := by
  constructor
  · intro A hA
    have hf := find?_of_filter_singleton hA
    simp only [search_item, hdec, hf]
  · intro hnone
    have hf : (flatten t false).find? (fun i => i.uuid == some id) = none := by
      rw [List.find?_eq_none]
      intro i hi
      simpa using hnone i hi
    simp only [search_item, hdec, hf]

def w4item : Item := .mk "box".data (some 3) [] false

def w4tree : Item := .mk "root".data none [w4item] false

theorem flatten_w4tree : flatten w4tree false = [w4tree, w4item] := by
  simp [flatten, flattenGo, Item.children, w4tree, w4item]

/-- Witness for `resolve_exact_identifier`. -/
theorem resolve_exact_identifier_witness :
    parse_uuid (str_uuid 3) = some 3
    ∧ search_item (str_uuid 3) w4tree = .ok w4item := by
  have hdec : parse_uuid (str_uuid 3) = some 3 := by decide
  refine ⟨hdec, (resolve_exact_identifier _ _ _ hdec).1 w4item ?_⟩
  rw [flatten_w4tree]
  rfl

def itemA1 : Item := .mk "A1".data (some 0x12340000000000000000000000000000) [] false

def itemA2 : Item := .mk "A2".data (some 0x12341000000000000000000000000000) [] false

def itemB5 : Item := .mk "1234X".data none [] false

def c5tree : Item := .mk "root".data none [itemA1, itemA2, itemB5] false

theorem flatten_c5tree : flatten c5tree false = [c5tree, itemA1, itemA2, itemB5] := by
  simp [flatten, flattenGo, Item.children, c5tree, itemA1, itemA2, itemB5]

/-- **C5, counterexample.**  A tree containing two items whose canonical
identifier text starts with `"1234"` and an item named `"1234X"`: the
tree satisfies the claim's hypotheses (it contains an item A with
identifier text starting `"1234"` and an item B named `"1234X"`), yet
`search_item "1234"` returns no item at all - it raises the
count-reporting error - so it does not return A. -/
theorem identifier_precedence_counterexample :
    pyStartsWith (strUuidOpt itemA1.uuid) "1234".data = true
    ∧ itemA1 ∈ flatten c5tree false
    ∧ itemB5 ∈ flatten c5tree false
    ∧ itemB5.name = "1234X".data
    ∧ search_item "1234".data c5tree = .error (.ambiguous 2 1) := by
  refine ⟨by decide, ?_, ?_, by decide, ?_⟩
  · rw [flatten_c5tree]; exact List.mem_cons_of_mem _ (List.mem_cons_self _ _)
  · rw [flatten_c5tree]
    exact List.mem_cons_of_mem _ (List.mem_cons_of_mem _ (List.mem_cons_of_mem _ (List.mem_cons_self _ _)))
  · simp only [search_item]
    rw [flatten_c5tree]
    rfl

/-- **C5, amended.**  Identifier precedence: provided the tree has
exactly one item whose canonical identifier text starts with `"1234"`,
`search_item "1234"` returns that item, and never returns any other item
(in particular never an item matched only by name, the query being 4
characters long). -/
theorem identifier_precedence_amended (t : Item) (A : Item)
    (hA : (flatten t false).filter
        (fun i => pyStartsWith (strUuidOpt i.uuid) (lowerStr "1234".data)) = [A]) :
    search_item "1234".data t = .ok A
    ∧ ∀ B, B ≠ A → search_item "1234".data t ≠ .ok B := by
  have hdec : parse_uuid "1234".data = none := by decide
  have h1 : search_item "1234".data t = .ok A := by
    simp only [search_item, hdec]
    rw [hA]
  refine ⟨h1, ?_⟩
  intro B hBA
  rw [h1]
  intro hc
  exact hBA (Except.ok.inj hc).symm

def w5A : Item := .mk "A".data (some 0x12340000000000000000000000000000) [] false

def w5B : Item := .mk "1234X".data none [] false

def w5tree : Item := .mk "root".data none [w5A, w5B] false

theorem flatten_w5tree : flatten w5tree false = [w5tree, w5A, w5B] := by
  simp [flatten, flattenGo, Item.children, w5tree, w5A, w5B]

/-- Witness for `identifier_precedence_amended`. -/
theorem identifier_precedence_witness :
    search_item "1234".data w5tree = .ok w5A := by
  refine (identifier_precedence_amended w5tree w5A ?_).1
  rw [flatten_w5tree]
  rfl

def c6item : Item := .mk "Abcdef".data none [] false

def c6tree : Item := .mk "root".data none [c6item] false

theorem flatten_c6tree : flatten c6tree false = [c6tree, c6item] := by
  simp [flatten, flattenGo, Item.children, c6tree, c6item]

/-- **C6, counterexample.**  Query `"Zz"` on a tree with the single item
`"Abcdef"`: the query has length at most 4, does not decode, is not the
prefix of exactly one identifier text, and matches nothing at all - the
claim then requires `NotFound`, but the code fails with the
count-reporting error carrying counts `(0, 0)`. -/
theorem short_fragment_guard_counterexample :
    "Zz".data.length ≤ 4
    ∧ parse_uuid "Zz".data = none
    ∧ ((flatten c6tree false).filter
        (fun i => pyStartsWith (strUuidOpt i.uuid) (lowerStr "Zz".data))).length ≠ 1
    ∧ (∀ i ∈ flatten c6tree false,
        ¬ pyStartsWith (lowerStr i.name) (lowerStr "Zz".data))
    ∧ search_item "Zz".data c6tree = .error (.ambiguous 0 0)
    ∧ search_item "Zz".data c6tree ≠ .error .notFound := by
  have hfl := flatten_c6tree
  have hs : search_item "Zz".data c6tree = .error (.ambiguous 0 0) := by
    simp only [search_item]
    rw [hfl]
    rfl
  refine ⟨by decide, by decide, ?_, ?_, hs, ?_⟩
  · rw [hfl]; decide
  · rw [hfl]
    intro i hi
    simp only [List.mem_cons, List.not_mem_nil, or_false] at hi
    rcases hi with rfl | rfl
    · decide
    · decide
  · rw [hs]; simp

/-- **C6, amended.**  Short-fragment guard: for every query of length at
most 4 that does not decode as an identifier and is not the prefix of
exactly one item's canonical identifier text, `search_item` never returns
an item; it fails with the count-reporting `ambiguous` error in every
such case, the counts possibly both being zero (there is no separate
`notFound` outcome on this path). -/
theorem short_fragment_guard_amended (q : Str) (t : Item)
    (hlen : q.length ≤ 4) (hdec : parse_uuid q = none)
    (hu : ((flatten t false).filter
        (fun i => pyStartsWith (strUuidOpt i.uuid) (lowerStr q))).length ≠ 1) :
    search_item q t = .error (.ambiguous
      ((flatten t false).filter
        (fun i => pyStartsWith (strUuidOpt i.uuid) (lowerStr q))).length
      ((flatten t false).filter
        (fun i => pyStartsWith (lowerStr i.name) (lowerStr q))).length) := by
  simp only [search_item, hdec]
  split
  · next i heq =>
    rw [heq] at hu
    simp at hu
  · split
    · next i heq =>
      rw [if_neg (by omega)]
    · rfl

def w6a : Item := .mk "Box1".data none [] false

def w6b : Item := .mk "Box2".data none [] false

def w6tree : Item := .mk "root".data none [w6a, w6b] false

theorem flatten_w6tree : flatten w6tree false = [w6tree, w6a, w6b] := by
  simp [flatten, flattenGo, Item.children, w6tree, w6a, w6b]

/-- Witness for `short_fragment_guard_amended`: the spec's ambiguity
example, two items `"Box1"` and `"Box2"` and the query `"Box"`. -/
theorem short_fragment_guard_witness :
    search_item "Box".data w6tree = .error (.ambiguous 0 2) := by
  have h := short_fragment_guard_amended "Box".data w6tree (by decide) (by decide)
    (by rw [flatten_w6tree]; decide)
  rw [h, flatten_w6tree]
  rfl

/-- Witness for `codec_round_trip` at a concrete identifier. -/
theorem codec_round_trip_witness :
    (0x0123456789abcdef0123456789abcdef : Nat) < 2 ^ 128
    ∧ parse_uuid (str_uuid 0x0123456789abcdef0123456789abcdef)
        = some 0x0123456789abcdef0123456789abcdef := by
  have h : (0x0123456789abcdef0123456789abcdef : Nat) < 2 ^ 128 := by norm_num
  exact ⟨h, (codec_round_trip _ h).1⟩

/-! ## Heap embedding

`Item` objects with their mutable `parent` back-references, modelled as
a store of records addressed by allocation index.  `move` (inv.py lines
206-212) and `update_parents` (common/base.py lines 53-56) mutate this
store. -/

/-- A Python `Item` object: `children` and `parent` hold object
references, modelled as store indices. -/
structure HItem where
  name : Str
  uuid : Option Nat
  children : List Nat
  parent : Option Nat
  hoisted : Bool
deriving DecidableEq

/-- The object heap: index `i` is the object allocated `i`-th. -/
abbrev Store := List HItem

def getH (s : Store) (i : Nat) : Option HItem := s.get? i

/-- In-place mutation of one object. -/
def modifyH (s : Store) (i : Nat) (f : HItem → HItem) : Store :=
  match s.get? i with
  | some v => s.set i (f v)
  | none => s

/-- `into.children.append(item)`: append a reference to object `itemId`
to an object's children. -/
def apfH (itemId : Nat) : HItem → HItem :=
  fun it => { it with children := it.children ++ [itemId] }

/-- `children.remove(item)`: drop the first reference equal to `c`. -/
def erfH (c : Nat) : HItem → HItem :=
  fun it => { it with children := it.children.erase c }

/-- `c.parent = i`. -/
def setParentH (s : Store) (c i : Nat) : Store :=
  modifyH s c (fun it => { it with parent := some i })

/-- `update_parents` (common/base.py lines 53-56): walk the tree from
`i`, setting each child's `parent` before recursing into it.  The
recursion is fuel-bounded; every use supplies fuel at least the tree
depth, where the model agrees with the source. -/
def update_parents_go (fuel : Nat) (s : Store) (i : Nat) : Store :=
  match fuel with
  | 0 => s
  | fuel + 1 =>
    match getH s i with
    | none => s
    | some it => it.children.foldl (fun acc c => update_parents_go fuel (setParentH acc c i) c) s

/-- Collect a list of optional values, failing if any is absent. -/
def seqOpt {α : Type} : List (Option α) → Option (List α)
  | [] => some []
  | o :: os => o.bind fun b => (seqOpt os).map (b :: ·)

/-- Read the pure item tree rooted at `i` out of the store (dropping the
derived `parent` field). -/
def readout (s : Store) : Nat → Nat → Option Item
  | 0, _ => none
  | fuel + 1, i =>
    (getH s i).bind fun it =>
      (seqOpt (it.children.map (readout s fuel))).map fun cs =>
        Item.mk it.name it.uuid cs it.hoisted

/-- Python's `x == item` test used by `list.remove`: an identity check
(`PyObject_RichCompareBool`'s fast path) or the dataclass `__eq__`.
Among siblings of a consistent tree the `parent` fields are the
identical object, so the dataclass comparison reduces to structural
equality of `(name, uuid, children, hoisted)`, which is the readout
comparison. -/
def pyEqH (s : Store) (fuel : Nat) (a b : Nat) : Bool :=
  a == b || readout s fuel a == readout s fuel b

/-- Python `list.remove`: drop the first matching element, `none` when
nothing matches (a `ValueError`). -/
def removeFirstP {α : Type} (p : α → Bool) : List α → Option (List α)
  | [] => none
  | a :: as => if p a then some as else (removeFirstP p as).map (a :: ·)

/-- `move` (inv.py lines 206-212): append `item` to `into.children`,
then remove `item` from `item.parent.children` (an `AttributeError`
when `parent` is `None`, a `ValueError` when nothing matches), then
`update_parents(tree)`.  The returned flag is `false` when the function
raises, and the returned store is the heap at that point - the append
has already happened. -/
def move (s : Store) (fuel : Nat) (itemId intoId rootId : Nat) : Store × Bool :=
  let s1 := modifyH s intoId (apfH itemId)
  match (getH s1 itemId).bind (·.parent) with
  | none => (s1, false)
  | some p =>
    match getH s1 p with
    | none => (s1, false)
    | some pit =>
      match removeFirstP (fun c => pyEqH s1 fuel c itemId) pit.children with
      | none => (s1, false)
      | some cs =>
        let s2 := modifyH s1 p (fun it => { it with children := cs })
        (update_parents_go fuel s2 rootId, true)

theorem getH_modifyH_self {s : Store} {i : Nat} {v : HItem} (f : HItem → HItem)
    (h : getH s i = some v) : getH (modifyH s i f) i = some (f v) := by
  unfold getH at *
  unfold modifyH
  rw [h]
  rw [List.get?_eq_getElem?] at *
  have hlt : i < s.length := by
    rcases List.getElem?_eq_some_iff.mp h with ⟨hl, -⟩
    exact hl
  simp [List.getElem?_set_self, hlt]

theorem getH_modifyH_other {s : Store} {i j : Nat} (f : HItem → HItem)
    (h : j ≠ i) : getH (modifyH s i f) j = getH s j := by
  unfold getH modifyH
  cases hv : s.get? i with
  | none => rfl
  | some v =>
    rw [List.get?_eq_getElem?, List.get?_eq_getElem?]
    rw [List.getElem?_set_ne (fun he => h he.symm)]

/-- **C9.**  `move` is not atomic on failure: on an item whose `parent`
is absent it fails (the `AttributeError` surfaces as the `false` flag)
only after `item` has already been appended to `into.children`, so the
returned heap is mutated - `into` now references the item. -/
theorem move_not_atomic (s : Store) (fuel : Nat) (itemId intoId rootId : Nat)
    (it itInto : HItem)
    (hit : getH s itemId = some it) (hpar : it.parent = none)
    (hinto : getH s intoId = some itInto) :
    (move s fuel itemId intoId rootId).2 = false
    ∧ getH (move s fuel itemId intoId rootId).1 intoId
        = some { itInto with children := itInto.children ++ [itemId] } := by
  have hget1 : getH (modifyH s intoId (apfH itemId)) itemId
      = some (if itemId = intoId
          then { it with children := it.children ++ [itemId] } else it) := by
    by_cases he : itemId = intoId
    · subst he
      rw [hit] at hinto
      obtain rfl := Option.some.inj hinto
      rw [getH_modifyH_self _ hit]
      simp [apfH]
    · rw [getH_modifyH_other _ he, hit]
      simp [he]
  have hparent : (getH (modifyH s intoId (apfH itemId)) itemId).bind (·.parent)
      = none := by
    rw [hget1]
    by_cases he : itemId = intoId <;> simp [he, hpar]
  constructor
  · simp only [move]
    rw [hparent]
  · simp only [move]
    rw [hparent]
    exact getH_modifyH_self _ hinto

def c9item : HItem := ⟨"A".data, none, [], none, false⟩

def c9into : HItem := ⟨"B".data, none, [], some 0, false⟩

def c9store : Store := [⟨"root".data, none, [1], none, false⟩, c9item, c9into]

/-- Witness for `move_not_atomic`: moving the parentless item 1 into
item 2 fails but leaves item 1 appended to item 2's children. -/
theorem move_not_atomic_witness :
    (move c9store 4 1 2 0).2 = false
    ∧ getH (move c9store 4 1 2 0).1 2
        = some { c9into with children := c9into.children ++ [1] } :=
  move_not_atomic c9store 4 1 2 0 c9item c9into rfl rfl rfl

def c3store : Store :=
  [⟨"root".data, none, [1], none, false⟩, ⟨"A".data, none, [], some 0, false⟩]

/-- **C3, counterexample.**  Moving an item into itself: in the
two-object tree `root -> A`, item `A` has a parent, yet after
`move(A, A)` and the final `update_parents` the item's parent is still
the old parent (`root`), not `into` (`A` itself): the item is no longer
reachable from the root, so `update_parents` never visits it. -/
theorem move_semantics_counterexample :
    (getH c3store 1).bind (·.parent) = some 0
    ∧ (move c3store 2 1 1 0).2 = true
    ∧ (getH (move c3store 2 1 1 0).1 1).bind (·.parent) = some 0
    ∧ (getH (move c3store 2 1 1 0).1 1).bind (·.parent) ≠ some 1 := by
  refine ⟨rfl, rfl, rfl, by decide⟩

/-! ## Identifier trees

An `ITree` records which store index sits at which position of a tree;
`repB s R` states that the store realises that tree.  This is the
well-formedness language for the general `move` / `update_parents`
theorems. -/

inductive ITree where
  | mk (id : Nat) (children : List ITree)

def ITree.id : ITree → Nat
  | .mk i _ => i

def ITree.children : ITree → List ITree
  | .mk _ cs => cs

mutual

/-- Pre-order list of the store indices of a tree. -/
def itreeIds : ITree → List Nat
  | .mk i cs => i :: itreesIds cs

def itreesIds : List ITree → List Nat
  | [] => []
  | t :: ts => itreeIds t ++ itreesIds ts

end

mutual

def itreeDepth : ITree → Nat
  | .mk _ cs => 1 + itreesDepth cs

def itreesDepth : List ITree → Nat
  | [] => 0
  | t :: ts => max (itreeDepth t) (itreesDepth ts)

end

mutual

/-- The (parent index, child index) pairs of a tree. -/
def itreeEdges : ITree → List (Nat × Nat)
  | .mk i cs => cs.map (fun t => (i, ITree.id t)) ++ itreesEdges cs

def itreesEdges : List ITree → List (Nat × Nat)
  | [] => []
  | t :: ts => itreeEdges t ++ itreesEdges ts

end

mutual

/-- The store realises the tree `R`: every node's store entry lists
exactly the ids of the node's children, in order.  (The `parent` fields
are unconstrained: they are derived state.) -/
def repB (s : Store) : ITree → Prop
  | .mk i cs =>
    (∃ it, getH s i = some it ∧ it.children = cs.map ITree.id) ∧ repL s cs

def repL (s : Store) : List ITree → Prop
  | [] => True
  | t :: ts => repB s t ∧ repL s ts

end

/-- Forget the derived `parent` field. -/
def stripParent (it : HItem) : HItem := { it with parent := none }

theorem repL_iff_forall {s : Store} : ∀ {ts : List ITree},
    repL s ts ↔ ∀ t ∈ ts, repB s t := by
  intro ts
  induction ts with
  | nil => simp [repL]
  | cons t ts ih =>
    simp only [repL, ih, List.mem_cons]
    constructor
    · rintro ⟨h1, h2⟩ x (rfl | hx)
      · exact h1
      · exact h2 x hx
    · intro h
      exact ⟨h t (Or.inl rfl), fun x hx => h x (Or.inr hx)⟩

mutual

theorem repB_stripCongr : ∀ (T : ITree) (s₁ s₂ : Store),
    (∀ j ∈ itreeIds T, (getH s₂ j).map stripParent = (getH s₁ j).map stripParent) →
    repB s₁ T → repB s₂ T
  | .mk i cs, s₁, s₂, hj, h => by
    obtain ⟨⟨it, hget, hch⟩, hcs⟩ := h
    have hji := hj i (by simp [itreeIds])
    rw [hget] at hji
    constructor
    · cases hget2 : getH s₂ i with
      | none => rw [hget2] at hji; simp at hji
      | some it2 =>
        rw [hget2] at hji
        simp only [Option.map_some', Option.some.injEq] at hji
        have hji2 := hji
        unfold stripParent at hji2
        rw [HItem.mk.injEq] at hji2
        obtain ⟨-, -, hc2, -, -⟩ := hji2
        refine ⟨it2, rfl, ?_⟩
        rw [hc2, hch]
    · exact repL_stripCongr cs s₁ s₂
        (fun j hjm => hj j (by simp only [itreeIds, List.mem_cons]; exact Or.inr hjm)) hcs

theorem repL_stripCongr : ∀ (ts : List ITree) (s₁ s₂ : Store),
    (∀ j ∈ itreesIds ts, (getH s₂ j).map stripParent = (getH s₁ j).map stripParent) →
    repL s₁ ts → repL s₂ ts
  | [], _, _, _, _ => trivial
  | t :: ts, s₁, s₂, hj, h => by
    obtain ⟨h1, h2⟩ := h
    constructor
    · exact repB_stripCongr t s₁ s₂
        (fun j hjm => hj j (by simp only [itreesIds, List.mem_append]; exact Or.inl hjm)) h1
    · exact repL_stripCongr ts s₁ s₂
        (fun j hjm => hj j (by simp only [itreesIds, List.mem_append]; exact Or.inr hjm)) h2

end

/-- The `parent` reference of object `j`. -/
def parentOf (s : Store) (j : Nat) : Option Nat := (getH s j).bind (·.parent)

/-- The two stores agree on everything except `parent` fields. -/
def stripEq (s₁ s₂ : Store) : Prop :=
  ∀ j, (getH s₁ j).map stripParent = (getH s₂ j).map stripParent

theorem stripEq_refl (s : Store) : stripEq s s := fun _ => rfl

theorem stripEq_trans {s₁ s₂ s₃ : Store} (h1 : stripEq s₁ s₂) (h2 : stripEq s₂ s₃) :
    stripEq s₁ s₃ := fun j => (h1 j).trans (h2 j)

theorem getH_modifyH (s : Store) (i : Nat) (f : HItem → HItem) :
    getH (modifyH s i f) i = (getH s i).map f := by
  cases hv : getH s i with
  | none =>
    unfold getH modifyH
    unfold getH at hv
    rw [hv]
    simp
    exact List.get?_eq_none.mp hv
  | some v =>
    rw [getH_modifyH_self f hv]
    rfl

theorem repB_stripEq {s₁ s₂ : Store} {T : ITree} (he : stripEq s₂ s₁)
    (h : repB s₁ T) : repB s₂ T :=
  repB_stripCongr T s₁ s₂ (fun j _ => he j) h

theorem repL_stripEq {s₁ s₂ : Store} {ts : List ITree} (he : stripEq s₂ s₁)
    (h : repL s₁ ts) : repL s₂ ts :=
  repL_stripCongr ts s₁ s₂ (fun j _ => he j) h

theorem stripEq_setParentH (s : Store) (c i : Nat) : stripEq (setParentH s c i) s := by
  intro j
  by_cases hj : j = c
  · subst hj
    unfold setParentH
    rw [getH_modifyH]
    cases getH s j <;> rfl
  · unfold setParentH
    rw [getH_modifyH_other _ hj]

theorem parentOf_setParentH_self {s : Store} {c : Nat} (i : Nat) {v : HItem}
    (hv : getH s c = some v) : parentOf (setParentH s c i) c = some i := by
  unfold parentOf setParentH
  rw [getH_modifyH_self _ hv]
  rfl

theorem parentOf_setParentH_other {s : Store} {c i j : Nat} (hj : j ≠ c) :
    parentOf (setParentH s c i) j = parentOf s j := by
  unfold parentOf setParentH
  rw [getH_modifyH_other _ hj]

theorem repB_root_valid {s : Store} {T : ITree} (h : repB s T) :
    ∃ it, getH s T.id = some it := by
  cases T with
  | mk i cs =>
    obtain ⟨⟨it, hget, -⟩, -⟩ := h
    exact ⟨it, hget⟩

theorem itreesIds_cons (t : ITree) (ts : List ITree) :
    itreesIds (t :: ts) = itreeIds t ++ itreesIds ts := rfl

theorem itreeIds_mk (i : Nat) (cs : List ITree) :
    itreeIds (.mk i cs) = i :: itreesIds cs := rfl

theorem root_mem_itreeIds (T : ITree) : T.id ∈ itreeIds T := by
  cases T with
  | mk i cs => simp [itreeIds_mk, ITree.id]

theorem children_ids_subset (T : ITree) : itreesIds T.children ⊆ itreeIds T := by
  cases T with
  | mk i cs =>
    intro j hj
    simp [itreeIds_mk, ITree.children] at *
    exact Or.inr hj

mutual

theorem edge_snd_mem : ∀ (T : ITree), ∀ e ∈ itreeEdges T, e.2 ∈ itreesIds T.children
  | .mk i cs, e, he => by
    simp only [itreeEdges, List.mem_append, List.mem_map] at he
    simp only [ITree.children]
    rcases he with ⟨t, ht, rfl⟩ | he
    · exact mem_itreesIds_of_mem_forest t cs ht _ (root_mem_itreeIds t)
    · exact edges_snd_mem cs e he

theorem edges_snd_mem : ∀ (ts : List ITree), ∀ e ∈ itreesEdges ts, e.2 ∈ itreesIds ts
  | t :: ts, e, he => by
    simp only [itreesEdges, List.mem_append] at he
    rw [itreesIds_cons, List.mem_append]
    rcases he with he | he
    · exact Or.inl (children_ids_subset t (edge_snd_mem t e he))
    · exact Or.inr (edges_snd_mem ts e he)

theorem mem_itreesIds_of_mem_forest : ∀ (t : ITree) (ts : List ITree), t ∈ ts →
    ∀ j ∈ itreeIds t, j ∈ itreesIds ts
  | t, u :: us, ht, j, hj => by
    rw [itreesIds_cons, List.mem_append]
    rcases List.mem_cons.mp ht with rfl | ht
    · exact Or.inl hj
    · exact Or.inr (mem_itreesIds_of_mem_forest t us ht j hj)

end

theorem depth_le_of_mem_forest {t : ITree} : ∀ {ts : List ITree}, t ∈ ts →
    itreeDepth t ≤ itreesDepth ts := by
  intro ts
  induction ts with
  | nil => intro h; simp at h
  | cons u us ih =>
    intro h
    rcases List.mem_cons.mp h with rfl | h
    · simp [itreesDepth]
    · calc itreeDepth t ≤ itreesDepth us := ih h
        _ ≤ itreesDepth (u :: us) := by simp [itreesDepth]

/-- Specification of `update_parents_go` over a represented tree with
distinct ids: parents of all child positions are set to their owners,
nothing else changes. -/
theorem up_spec : ∀ (fuel : Nat) (s : Store) (R : ITree),
    repB s R → (itreeIds R).Nodup → itreeDepth R ≤ fuel →
    stripEq (update_parents_go fuel s R.id) s
    ∧ (∀ e ∈ itreeEdges R, parentOf (update_parents_go fuel s R.id) e.2 = some e.1)
    ∧ (∀ j, j ∉ itreesIds R.children →
        parentOf (update_parents_go fuel s R.id) j = parentOf s j) := by
  intro fuel
  induction fuel with
  | zero =>
    intro s R hrep hnd hd
    cases R with
    | mk i cs => simp [itreeDepth] at hd
  | succ f ih =>
    intro s R hrep hnd hd
    cases R with
    | mk i cs =>
    obtain ⟨⟨it, hget, hch⟩, hcs⟩ := hrep
    simp only [ITree.id, ITree.children]
    have hgo : update_parents_go (f + 1) s i
        = cs.foldl (fun acc t => update_parents_go f (setParentH acc t.id i) t.id) s := by
      simp only [update_parents_go, hget, hch, List.foldl_map]
    have hndcs : (itreesIds cs).Nodup := by
      rw [itreeIds_mk, List.nodup_cons] at hnd
      exact hnd.2
    have hdcs : itreesDepth cs ≤ f := by
      simp only [itreeDepth] at hd
      omega
    have inner : ∀ (ts : List ITree) (s₀ : Store),
        repL s₀ ts → (itreesIds ts).Nodup → itreesDepth ts ≤ f →
        stripEq (ts.foldl (fun acc t => update_parents_go f (setParentH acc t.id i) t.id) s₀) s₀
        ∧ (∀ t ∈ ts, parentOf
            (ts.foldl (fun acc t => update_parents_go f (setParentH acc t.id i) t.id) s₀)
            t.id = some i)
        ∧ (∀ e ∈ itreesEdges ts, parentOf
            (ts.foldl (fun acc t => update_parents_go f (setParentH acc t.id i) t.id) s₀)
            e.2 = some e.1)
        ∧ (∀ j, j ∉ itreesIds ts → parentOf
            (ts.foldl (fun acc t => update_parents_go f (setParentH acc t.id i) t.id) s₀)
            j = parentOf s₀ j) := by
      intro ts
      induction ts with
      | nil =>
        intro s₀ _ _ _
        refine ⟨stripEq_refl s₀, by simp, by simp [itreesEdges], fun j _ => rfl⟩
      | cons t ts iht =>
        intro s₀ hrepl hnd2 hdep
        obtain ⟨hrt, hrts⟩ := hrepl
        rw [itreesIds_cons, List.nodup_append] at hnd2
        obtain ⟨hnodT, hnodTs, hdisj⟩ := hnd2
        have hdt : itreeDepth t ≤ f := le_trans (by simp [itreesDepth]) hdep
        have hdts : itreesDepth ts ≤ f := le_trans (by simp [itreesDepth]) hdep
        set s₁ := setParentH s₀ t.id i with hs₁
        have hstrip₁ : stripEq s₁ s₀ := stripEq_setParentH s₀ t.id i
        have hrt₁ : repB s₁ t := repB_stripEq hstrip₁ hrt
        have houter := ih s₁ t hrt₁ hnodT hdt
        set s₂ := update_parents_go f s₁ t.id with hs₂
        have hstrip₂ : stripEq s₂ s₀ := stripEq_trans houter.1 hstrip₁
        have hrts₂ : repL s₂ ts := repL_stripEq hstrip₂ hrts
        have hinner := iht s₂ hrts₂ hnodTs hdts
        have hfold : (t :: ts).foldl
            (fun acc t => update_parents_go f (setParentH acc t.id i) t.id) s₀
            = ts.foldl (fun acc t => update_parents_go f (setParentH acc t.id i) t.id) s₂ := by
          rw [List.foldl_cons]
        rw [hfold]
        set sF := ts.foldl (fun acc t => update_parents_go f (setParentH acc t.id i) t.id) s₂
          with hsF
        have hA : stripEq sF s₀ := stripEq_trans hinner.1 hstrip₂
        have htid_notin_children : t.id ∉ itreesIds t.children := by
          cases t with
          | mk j ds =>
            rw [itreeIds_mk, List.nodup_cons] at hnodT
            exact hnodT.1
        have htid_notin_ts : t.id ∉ itreesIds ts :=
          fun hmem => hdisj (root_mem_itreeIds t) hmem
        refine ⟨hA, ?_, ?_, ?_⟩
        · intro u hu
          rcases List.mem_cons.mp hu with rfl | hu
          · rw [hinner.2.2.2 u.id htid_notin_ts, houter.2.2 u.id htid_notin_children]
            obtain ⟨v, hv⟩ := repB_root_valid hrt
            exact parentOf_setParentH_self i hv
          · exact hinner.2.1 u hu
        · intro e he
          simp only [itreesEdges, List.mem_append] at he
          rcases he with he | he
          · have he2 : e.2 ∈ itreeIds t :=
              children_ids_subset t (edge_snd_mem t e he)
            have : e.2 ∉ itreesIds ts := fun hmem => hdisj he2 hmem
            rw [hinner.2.2.2 e.2 this]
            exact houter.2.1 e he
          · exact hinner.2.2.1 e he
        · intro j hj
          rw [itreesIds_cons, List.mem_append] at hj
          push_neg at hj
          rw [hinner.2.2.2 j hj.2, houter.2.2 j
            (fun hmem => hj.1 (children_ids_subset t hmem)),
            parentOf_setParentH_other (fun he => hj.1 (by rw [he]; exact root_mem_itreeIds t))]
    have hmain := inner cs s hcs hndcs hdcs
    rw [hgo]
    refine ⟨hmain.1, ?_, hmain.2.2.2⟩
    intro e he
    simp only [itreeEdges, List.mem_append, List.mem_map] at he
    rcases he with ⟨t, ht, rfl⟩ | he
    · exact hmain.2.1 t ht
    · exact hmain.2.2.1 e he

mutual

/-- Remove the subtree whose root id is `c`; returns the remaining tree,
the removed subtree and the id of its parent node. -/
def pluck : ITree → Nat → Option (ITree × ITree × Nat)
  | .mk i cs, c =>
    match pluckL i cs c with
    | some (cs', sub, p) => some (.mk i cs', sub, p)
    | none => none

def pluckL (i : Nat) : List ITree → Nat → Option (List ITree × ITree × Nat)
  | [], _ => none
  | t :: ts, c =>
    if ITree.id t = c then some (ts, t, i)
    else
      match pluck t c with
      | some (t', sub, p) => some (t' :: ts, sub, p)
      | none => (pluckL i ts c).map (fun r => (t :: r.1, r.2.1, r.2.2))

end

mutual

/-- Append `sub` to the children of every node with id `q` (under
distinct ids, of the unique such node). -/
def graftAt : ITree → Nat → ITree → ITree
  | .mk i cs, q, sub => .mk i (graftAtL cs q sub ++ if i = q then [sub] else [])

def graftAtL : List ITree → Nat → ITree → List ITree
  | [], _, _ => []
  | t :: ts, q, sub => graftAt t q sub :: graftAtL ts q sub

end

theorem pluck_root_id {T : ITree} {c : Nat} {Td sub : ITree} {p : Nat}
    (h : pluck T c = some (Td, sub, p)) : Td.id = T.id := by
  cases T with
  | mk i cs =>
    unfold pluck at h
    cases hL : pluckL i cs c with
    | none => rw [hL] at h; simp at h
    | some r =>
      obtain ⟨cs', sub2, p2⟩ := r
      rw [hL] at h
      simp only [Option.some.injEq, Prod.mk.injEq] at h
      obtain ⟨rfl, -, -⟩ := h
      rfl

mutual

theorem pluck_sub_id : ∀ (T : ITree) (c : Nat) (Td sub : ITree) (p : Nat),
    pluck T c = some (Td, sub, p) → sub.id = c
  | .mk i cs, c, Td, sub, p, h => by
    unfold pluck at h
    cases hL : pluckL i cs c with
    | none => rw [hL] at h; simp at h
    | some r =>
      obtain ⟨cs2, sub2, p2⟩ := r
      rw [hL] at h
      simp only [Option.some.injEq, Prod.mk.injEq] at h
      obtain ⟨hTd, hsub, hp2⟩ := h
      subst hsub
      exact pluckL_sub_id i cs c cs2 sub2 p2 hL

theorem pluckL_sub_id : ∀ (i : Nat) (ts : List ITree) (c : Nat)
    (ts' : List ITree) (sub : ITree) (p : Nat),
    pluckL i ts c = some (ts', sub, p) → sub.id = c
  | i, t :: ts, c, ts', sub, p, h => by
    unfold pluckL at h
    by_cases hid : t.id = c
    · rw [if_pos hid] at h
      simp only [Option.some.injEq, Prod.mk.injEq] at h
      obtain ⟨h1, hsub, h3⟩ := h
      subst hsub
      exact hid
    · rw [if_neg hid] at h
      cases hp : pluck t c with
      | some r =>
        obtain ⟨t2, sub2, p2⟩ := r
        rw [hp] at h
        simp only [Option.some.injEq, Prod.mk.injEq] at h
        obtain ⟨h1, hsub, h3⟩ := h
        subst hsub
        exact pluck_sub_id t c t2 sub2 p2 hp
      | none =>
        rw [hp] at h
        cases hq : pluckL i ts c with
        | none => rw [hq] at h; simp at h
        | some r =>
          obtain ⟨ts2, sub2, p2⟩ := r
          rw [hq] at h
          simp only [Option.map_some', Option.some.injEq, Prod.mk.injEq] at h
          obtain ⟨h1, hsub, h3⟩ := h
          subst hsub
          exact pluckL_sub_id i ts c ts2 sub2 p2 hq

end

mutual

theorem pluck_perm : ∀ (T : ITree) (c : Nat) (Td sub : ITree) (p : Nat),
    pluck T c = some (Td, sub, p) →
    (itreeIds T).Perm (itreeIds Td ++ itreeIds sub)
  | .mk i cs, c, Td, sub, p, h => by
    unfold pluck at h
    cases hL : pluckL i cs c with
    | none => rw [hL] at h; simp at h
    | some r =>
      obtain ⟨cs2, sub2, p2⟩ := r
      rw [hL] at h
      simp only [Option.some.injEq, Prod.mk.injEq] at h
      obtain ⟨hTd, hsub, hp2⟩ := h
      subst hTd
      subst hsub
      have hp := pluckL_perm i cs c cs2 sub2 p2 hL
      rw [itreeIds_mk, itreeIds_mk]
      exact (hp.cons i).trans (List.Perm.of_eq (by simp))

theorem pluckL_perm : ∀ (i : Nat) (ts : List ITree) (c : Nat)
    (ts' : List ITree) (sub : ITree) (p : Nat),
    pluckL i ts c = some (ts', sub, p) →
    (itreesIds ts).Perm (itreesIds ts' ++ itreeIds sub)
  | i, t :: ts, c, ts', sub, p, h => by
    unfold pluckL at h
    by_cases hid : t.id = c
    · rw [if_pos hid] at h
      simp only [Option.some.injEq, Prod.mk.injEq] at h
      obtain ⟨h1, hsub, h3⟩ := h
      subst h1
      subst hsub
      rw [itreesIds_cons]
      exact List.perm_append_comm
    · rw [if_neg hid] at h
      cases hp : pluck t c with
      | some r =>
        obtain ⟨t2, sub2, p2⟩ := r
        rw [hp] at h
        simp only [Option.some.injEq, Prod.mk.injEq] at h
        obtain ⟨h1, hsub, h3⟩ := h
        subst h1
        subst hsub
        have h1 := pluck_perm t c t2 sub2 p2 hp
        rw [itreesIds_cons, itreesIds_cons]
        refine (h1.append_right _).trans ?_
        refine (List.Perm.of_eq (List.append_assoc _ _ _)).trans ?_
        refine (List.Perm.append_left _ List.perm_append_comm).trans ?_
        exact List.Perm.of_eq (List.append_assoc _ _ _).symm
      | none =>
        rw [hp] at h
        cases hq : pluckL i ts c with
        | none => rw [hq] at h; simp at h
        | some r =>
          obtain ⟨ts2, sub2, p2⟩ := r
          rw [hq] at h
          simp only [Option.map_some', Option.some.injEq, Prod.mk.injEq] at h
          obtain ⟨h1, hsub, h3⟩ := h
          subst h1
          subst hsub
          have h1 := pluckL_perm i ts c ts2 sub2 p2 hq
          rw [itreesIds_cons, itreesIds_cons]
          refine (List.Perm.append_left _ h1).trans ?_
          exact List.Perm.of_eq (List.append_assoc _ _ _).symm

end

mutual

theorem pluck_sub_repB : ∀ (T : ITree) (c : Nat) (Td sub : ITree) (p : Nat)
    (s : Store), pluck T c = some (Td, sub, p) → repB s T → repB s sub
  | .mk i cs, c, Td, sub, p, s, h, hrep => by
    unfold pluck at h
    cases hL : pluckL i cs c with
    | none => rw [hL] at h; simp at h
    | some r =>
      obtain ⟨cs2, sub2, p2⟩ := r
      rw [hL] at h
      simp only [Option.some.injEq, Prod.mk.injEq] at h
      obtain ⟨hTd, hsub, hp2⟩ := h
      subst hsub
      exact pluckL_sub_repB i cs c cs2 sub2 p2 s hL hrep.2

theorem pluckL_sub_repB : ∀ (i : Nat) (ts : List ITree) (c : Nat)
    (ts' : List ITree) (sub : ITree) (p : Nat) (s : Store),
    pluckL i ts c = some (ts', sub, p) → repL s ts → repB s sub
  | i, t :: ts, c, ts', sub, p, s, h, hrep => by
    unfold pluckL at h
    by_cases hid : t.id = c
    · rw [if_pos hid] at h
      simp only [Option.some.injEq, Prod.mk.injEq] at h
      obtain ⟨h1, hsub, h3⟩ := h
      subst hsub
      exact hrep.1
    · rw [if_neg hid] at h
      cases hp : pluck t c with
      | some r =>
        obtain ⟨t2, sub2, p2⟩ := r
        rw [hp] at h
        simp only [Option.some.injEq, Prod.mk.injEq] at h
        obtain ⟨h1, hsub, h3⟩ := h
        subst hsub
        exact pluck_sub_repB t c t2 sub2 p2 s hp hrep.1
      | none =>
        rw [hp] at h
        cases hq : pluckL i ts c with
        | none => rw [hq] at h; simp at h
        | some r =>
          obtain ⟨ts2, sub2, p2⟩ := r
          rw [hq] at h
          simp only [Option.map_some', Option.some.injEq, Prod.mk.injEq] at h
          obtain ⟨h1, hsub, h3⟩ := h
          subst hsub
          exact pluckL_sub_repB i ts c ts2 sub2 p2 s hq hrep.2

end

theorem itreesIds_append (ts us : List ITree) :
    itreesIds (ts ++ us) = itreesIds ts ++ itreesIds us := by
  induction ts with
  | nil => rfl
  | cons t ts ih => simp [itreesIds_cons, ih]

theorem itreesDepth_append (ts us : List ITree) :
    itreesDepth (ts ++ us) = max (itreesDepth ts) (itreesDepth us) := by
  induction ts with
  | nil => simp [itreesDepth]
  | cons t ts ih =>
    show max (itreeDepth t) (itreesDepth (ts ++ us)) = _
    rw [ih]
    show _ = max (max (itreeDepth t) (itreesDepth ts)) _
    omega

mutual

theorem pluck_depth : ∀ (T : ITree) (c : Nat) (Td sub : ITree) (p : Nat),
    pluck T c = some (Td, sub, p) →
    itreeDepth Td ≤ itreeDepth T ∧ itreeDepth sub ≤ itreeDepth T
  | .mk i cs, c, Td, sub, p, h => by
    unfold pluck at h
    cases hL : pluckL i cs c with
    | none => rw [hL] at h; simp at h
    | some r =>
      obtain ⟨cs2, sub2, p2⟩ := r
      rw [hL] at h
      simp only [Option.some.injEq, Prod.mk.injEq] at h
      obtain ⟨hTd, hsub, hp2⟩ := h
      subst hTd
      subst hsub
      have := pluckL_depth i cs c cs2 sub2 p2 hL
      simp only [itreeDepth]
      omega

theorem pluckL_depth : ∀ (i : Nat) (ts : List ITree) (c : Nat)
    (ts' : List ITree) (sub : ITree) (p : Nat),
    pluckL i ts c = some (ts', sub, p) →
    itreesDepth ts' ≤ itreesDepth ts ∧ itreeDepth sub ≤ itreesDepth ts
  | i, t :: ts, c, ts', sub, p, h => by
    unfold pluckL at h
    by_cases hid : t.id = c
    · rw [if_pos hid] at h
      simp only [Option.some.injEq, Prod.mk.injEq] at h
      obtain ⟨h1, hsub, h3⟩ := h
      subst h1
      subst hsub
      simp only [itreesDepth]
      omega
    · rw [if_neg hid] at h
      cases hp : pluck t c with
      | some r =>
        obtain ⟨t2, sub2, p2⟩ := r
        rw [hp] at h
        simp only [Option.some.injEq, Prod.mk.injEq] at h
        obtain ⟨h1, hsub, h3⟩ := h
        subst h1
        subst hsub
        have := pluck_depth t c t2 sub2 p2 hp
        simp only [itreesDepth]
        omega
      | none =>
        rw [hp] at h
        cases hq : pluckL i ts c with
        | none => rw [hq] at h; simp at h
        | some r =>
          obtain ⟨ts2, sub2, p2⟩ := r
          rw [hq] at h
          simp only [Option.map_some', Option.some.injEq, Prod.mk.injEq] at h
          obtain ⟨h1, hsub, h3⟩ := h
          subst h1
          subst hsub
          have := pluckL_depth i ts c ts2 sub2 p2 hq
          simp only [itreesDepth]
          omega

end

theorem graftAt_root_id (T : ITree) (q : Nat) (sub : ITree) :
    (graftAt T q sub).id = T.id := by
  cases T with
  | mk i cs => rfl

theorem graftAtL_root_ids (ts : List ITree) (q : Nat) (sub : ITree) :
    (graftAtL ts q sub).map ITree.id = ts.map ITree.id := by
  induction ts with
  | nil => rfl
  | cons t ts ih =>
    show (graftAt t q sub).id :: (graftAtL ts q sub).map ITree.id = _
    rw [graftAt_root_id, ih]
    rfl

mutual

theorem graftAt_not_mem : ∀ (T : ITree) (q : Nat) (sub : ITree),
    q ∉ itreeIds T → graftAt T q sub = T
  | .mk i cs, q, sub, hq => by
    rw [itreeIds_mk, List.mem_cons] at hq
    push_neg at hq
    show ITree.mk i (graftAtL cs q sub ++ if i = q then [sub] else []) = _
    rw [if_neg (fun he => hq.1 he.symm), graftAtL_not_mem cs q sub hq.2,
      List.append_nil]

theorem graftAtL_not_mem : ∀ (ts : List ITree) (q : Nat) (sub : ITree),
    q ∉ itreesIds ts → graftAtL ts q sub = ts
  | [], _, _, _ => rfl
  | t :: ts, q, sub, hq => by
    rw [itreesIds_cons, List.mem_append] at hq
    push_neg at hq
    show graftAt t q sub :: graftAtL ts q sub = _
    rw [graftAt_not_mem t q sub hq.1, graftAtL_not_mem ts q sub hq.2]

end

mutual

theorem graft_perm : ∀ (T : ITree) (q : Nat) (sub : ITree),
    (itreeIds T).Nodup → q ∈ itreeIds T →
    (itreeIds (graftAt T q sub)).Perm (itreeIds T ++ itreeIds sub)
  | .mk i cs, q, sub, hnd, hq => by
    rw [itreeIds_mk] at hnd hq ⊢
    rw [List.nodup_cons] at hnd
    show (itreeIds (.mk i (graftAtL cs q sub ++ if i = q then [sub] else []))).Perm _
    rw [itreeIds_mk]
    rcases List.mem_cons.mp hq with rfl | hq2
    · rw [if_pos rfl, graftAtL_not_mem cs q sub hnd.1, itreesIds_append]
      refine List.Perm.of_eq ?_
      show q :: (itreesIds cs ++ itreesIds [sub]) = _
      have : itreesIds [sub] = itreeIds sub := by
        show itreeIds sub ++ itreesIds [] = _
        rw [show itreesIds ([] : List ITree) = [] from rfl, List.append_nil]
      rw [this]
      rfl
    · by_cases hiq : i = q
      · subst hiq
        exact absurd hq2 hnd.1
      · rw [if_neg hiq, List.append_nil]
        have := graftL_perm cs q sub hnd.2 hq2
        exact (this.cons i).trans (List.Perm.of_eq (by simp))

theorem graftL_perm : ∀ (ts : List ITree) (q : Nat) (sub : ITree),
    (itreesIds ts).Nodup → q ∈ itreesIds ts →
    (itreesIds (graftAtL ts q sub)).Perm (itreesIds ts ++ itreeIds sub)
  | t :: ts, q, sub, hnd, hq => by
    rw [itreesIds_cons] at hnd hq ⊢
    rw [List.nodup_append] at hnd
    obtain ⟨hnd1, hnd2, hdisj⟩ := hnd
    show (itreesIds (graftAt t q sub :: graftAtL ts q sub)).Perm _
    rw [itreesIds_cons]
    rcases List.mem_append.mp hq with hq1 | hq2
    · have hqnot : q ∉ itreesIds ts := fun hmem => hdisj hq1 hmem
      rw [graftAtL_not_mem ts q sub hqnot]
      have h1 := graft_perm t q sub hnd1 hq1
      refine (h1.append_right _).trans ?_
      refine (List.Perm.of_eq (List.append_assoc _ _ _)).trans ?_
      refine (List.Perm.append_left _ List.perm_append_comm).trans ?_
      exact List.Perm.of_eq (List.append_assoc _ _ _).symm
    · have hqnot : q ∉ itreeIds t := fun hmem => hdisj hmem hq2
      rw [graftAt_not_mem t q sub hqnot]
      have h1 := graftL_perm ts q sub hnd2 hq2
      refine (List.Perm.append_left _ h1).trans ?_
      exact List.Perm.of_eq (List.append_assoc _ _ _).symm

end

mutual

theorem graft_edge : ∀ (T : ITree) (q : Nat) (sub : ITree),
    q ∈ itreeIds T → (q, sub.id) ∈ itreeEdges (graftAt T q sub)
  | .mk i cs, q, sub, hq => by
    show (q, sub.id) ∈ itreeEdges (.mk i (graftAtL cs q sub ++ if i = q then [sub] else []))
    by_cases hiq : i = q
    · subst hiq
      rw [if_pos rfl]
      show _ ∈ (graftAtL cs i sub ++ [sub]).map (fun t => (i, ITree.id t)) ++ _
      apply List.mem_append_left
      rw [List.mem_map]
      exact ⟨sub, List.mem_append_right _ (List.mem_singleton_self sub), rfl⟩
    · rw [itreeIds_mk, List.mem_cons] at hq
      rcases hq with rfl | hq2
      · exact absurd rfl hiq
      · rw [if_neg hiq, List.append_nil]
        show _ ∈ (graftAtL cs q sub).map (fun t => (i, ITree.id t)) ++ itreesEdges (graftAtL cs q sub)
        apply List.mem_append_right
        exact graftL_edge cs q sub hq2

theorem graftL_edge : ∀ (ts : List ITree) (q : Nat) (sub : ITree),
    q ∈ itreesIds ts → (q, sub.id) ∈ itreesEdges (graftAtL ts q sub)
  | t :: ts, q, sub, hq => by
    rw [itreesIds_cons, List.mem_append] at hq
    show (q, sub.id) ∈ itreesEdges (graftAt t q sub :: graftAtL ts q sub)
    rw [show itreesEdges (graftAt t q sub :: graftAtL ts q sub)
      = itreeEdges (graftAt t q sub) ++ itreesEdges (graftAtL ts q sub) from rfl,
      List.mem_append]
    rcases hq with hq1 | hq2
    · exact Or.inl (graft_edge t q sub hq1)
    · exact Or.inr (graftL_edge ts q sub hq2)

end

mutual

theorem graft_depth : ∀ (T : ITree) (q : Nat) (sub : ITree),
    itreeDepth (graftAt T q sub) ≤ itreeDepth T + itreeDepth sub
  | .mk i cs, q, sub => by
    show itreeDepth (.mk i (graftAtL cs q sub ++ if i = q then [sub] else [])) ≤ _
    have h1 := graftL_depth cs q sub
    by_cases hiq : i = q
    · rw [if_pos hiq]
      simp only [itreeDepth, itreesDepth_append]
      have h2 : itreesDepth [sub] = itreeDepth sub := by
        show max (itreeDepth sub) (itreesDepth []) = _
        simp [itreesDepth]
      rw [h2]
      omega
    · rw [if_neg hiq, List.append_nil]
      simp only [itreeDepth]
      omega

theorem graftL_depth : ∀ (ts : List ITree) (q : Nat) (sub : ITree),
    itreesDepth (graftAtL ts q sub) ≤ itreesDepth ts + itreeDepth sub
  | [], _, _ => by simp [graftAtL, itreesDepth]
  | t :: ts, q, sub => by
    show itreesDepth (graftAt t q sub :: graftAtL ts q sub) ≤ _
    have h1 := graft_depth t q sub
    have h2 := graftL_depth ts q sub
    simp only [itreesDepth]
    omega

end

theorem repB_modify_not_mem {s : Store} {q : Nat} {f : HItem → HItem} {T : ITree}
    (hq : q ∉ itreeIds T) (h : repB s T) : repB (modifyH s q f) T :=
  repB_stripCongr T s (modifyH s q f)
    (fun j hj => by rw [getH_modifyH_other f (fun he => hq (by rw [← he]; exact hj))]) h

theorem repL_modify_not_mem {s : Store} {q : Nat} {f : HItem → HItem} {ts : List ITree}
    (hq : q ∉ itreesIds ts) (h : repL s ts) : repL (modifyH s q f) ts :=
  repL_stripCongr ts s (modifyH s q f)
    (fun j hj => by rw [getH_modifyH_other f (fun he => hq (by rw [← he]; exact hj))]) h

mutual

theorem graft_repB : ∀ (T : ITree) (s : Store) (q : Nat) (sub : ITree),
    repB s T → (itreeIds T).Nodup → q ∈ itreeIds T → q ∉ itreeIds sub → repB s sub →
    repB (modifyH s q (apfH sub.id)) (graftAt T q sub)
  | .mk i cs, s, q, sub, hrep, hnd, hq, hqs, hsub => by
    obtain ⟨⟨it, hget, hch⟩, hcs⟩ := hrep
    rw [itreeIds_mk] at hnd hq
    rw [List.nodup_cons] at hnd
    show repB _ (.mk i (graftAtL cs q sub ++ if i = q then [sub] else []))
    by_cases hiq : i = q
    · subst hiq
      rw [if_pos rfl, graftAtL_not_mem cs i sub hnd.1]
      constructor
      · refine ⟨apfH sub.id it, getH_modifyH_self _ hget, ?_⟩
        show it.children ++ [sub.id] = (cs ++ [sub]).map ITree.id
        rw [hch, List.map_append]
        rfl
      · rw [repL_iff_forall]
        intro t ht
        rcases List.mem_append.mp ht with ht | ht
        · exact repB_modify_not_mem
            (fun hmem => hnd.1 (mem_itreesIds_of_mem_forest t cs ht i hmem))
            (repL_iff_forall.mp hcs t ht)
        · rw [List.mem_singleton] at ht
          subst ht
          exact repB_modify_not_mem hqs hsub
    · rw [if_neg hiq, List.append_nil]
      have hq2 : q ∈ itreesIds cs := by
        rcases List.mem_cons.mp hq with h | h
        · exact absurd h.symm hiq
        · exact h
      constructor
      · refine ⟨it, ?_, ?_⟩
        · rw [getH_modifyH_other _ hiq]
          exact hget
        · rw [graftAtL_root_ids, hch]
      · exact graftL_repB cs s q sub hcs hnd.2 hq2 hqs hsub

theorem graftL_repB : ∀ (ts : List ITree) (s : Store) (q : Nat) (sub : ITree),
    repL s ts → (itreesIds ts).Nodup → q ∈ itreesIds ts → q ∉ itreeIds sub → repB s sub →
    repL (modifyH s q (apfH sub.id)) (graftAtL ts q sub)
  | t :: ts, s, q, sub, hrep, hnd, hq, hqs, hsub => by
    rw [itreesIds_cons] at hnd hq
    rw [List.nodup_append] at hnd
    obtain ⟨hnd1, hnd2, hdisj⟩ := hnd
    show repL _ (graftAt t q sub :: graftAtL ts q sub)
    rcases List.mem_append.mp hq with hq1 | hq2
    · have hqnot : q ∉ itreesIds ts := fun hmem => hdisj hq1 hmem
      rw [graftAtL_not_mem ts q sub hqnot]
      exact ⟨graft_repB t s q sub hrep.1 hnd1 hq1 hqs hsub,
        repL_modify_not_mem hqnot hrep.2⟩
    · have hqnot : q ∉ itreeIds t := fun hmem => hdisj hmem hq2
      rw [graftAt_not_mem t q sub hqnot]
      exact ⟨repB_modify_not_mem hqnot hrep.1,
        graftL_repB ts s q sub hrep.2 hnd2 hq2 hqs hsub⟩

end

theorem ids_subset_of_pluck {T : ITree} {c : Nat} {Td sub : ITree} {p : Nat}
    (h : pluck T c = some (Td, sub, p)) : itreeIds Td ⊆ itreeIds T := by
  intro j hj
  exact (pluck_perm T c Td sub p h).symm.subset (List.mem_append_left _ hj)

mutual

theorem pluck_store : ∀ (T : ITree) (c : Nat) (Td sub : ITree) (p : Nat) (s : Store),
    pluck T c = some (Td, sub, p) → repB s T → (itreeIds T).Nodup →
    p ∈ itreeIds T
    ∧ ∃ pit, getH s p = some pit ∧ c ∈ pit.children ∧
        repB (modifyH s p (erfH c)) Td
  | .mk i cs, c, Td, sub, p, s, h, hrep, hnd => by
    obtain ⟨⟨it, hget, hch⟩, hcs⟩ := hrep
    unfold pluck at h
    cases hL : pluckL i cs c with
    | none => rw [hL] at h; simp at h
    | some r =>
      obtain ⟨cs2, sub2, p2⟩ := r
      rw [hL] at h
      simp only [Option.some.injEq, Prod.mk.injEq] at h
      obtain ⟨hTd, hsub, hp2⟩ := h
      subst hTd
      subst hp2
      have hnd2 : (i :: itreesIds cs).Nodup := hnd
      have hmain := pluckL_store i cs c cs2 sub2 p2 s hL hcs hnd2
      rw [List.nodup_cons] at hnd2
      obtain ⟨hsubset, hD | hE⟩ := hmain
      · obtain ⟨rfl, hmap, hcmem, hrepl⟩ := hD
        refine ⟨root_mem_itreeIds _, it, hget, ?_, ?_⟩
        · rw [hch]; exact hcmem
        · constructor
          · refine ⟨erfH c it, getH_modifyH_self _ hget, ?_⟩
            show it.children.erase c = cs2.map ITree.id
            rw [hch, ← hmap]
          · exact repL_modify_not_mem
              (fun hmem => hnd2.1 (hsubset hmem)) hrepl
      · obtain ⟨hpm, hmap, pit, hpit, hcmem, hrepl⟩ := hE
        refine ⟨children_ids_subset (.mk i cs) hpm, pit, hpit, hcmem, ?_⟩
        have hip : i ≠ p2 := fun he => hnd2.1 (he ▸ hpm)
        constructor
        · refine ⟨it, ?_, ?_⟩
          · rw [getH_modifyH_other _ hip]
            exact hget
          · rw [hch, ← hmap]
        · exact hrepl

theorem pluckL_store : ∀ (i : Nat) (ts : List ITree) (c : Nat)
    (ts' : List ITree) (sub : ITree) (p : Nat) (s : Store),
    pluckL i ts c = some (ts', sub, p) → repL s ts → (i :: itreesIds ts).Nodup →
    itreesIds ts' ⊆ itreesIds ts
    ∧ ((p = i ∧ ts'.map ITree.id = (ts.map ITree.id).erase c
          ∧ c ∈ ts.map ITree.id ∧ repL s ts')
       ∨ (p ∈ itreesIds ts ∧ ts'.map ITree.id = ts.map ITree.id
          ∧ ∃ pit, getH s p = some pit ∧ c ∈ pit.children
          ∧ repL (modifyH s p (erfH c)) ts'))
  | i, t :: ts, c, ts', sub, p, s, h, hrep, hnd => by
    have hndtail : (itreesIds (t :: ts)).Nodup := (List.nodup_cons.mp hnd).2
    rw [itreesIds_cons, List.nodup_append] at hndtail
    obtain ⟨hnd1, hnd2, hdisj⟩ := hndtail
    unfold pluckL at h
    by_cases hid : t.id = c
    · rw [if_pos hid] at h
      simp only [Option.some.injEq, Prod.mk.injEq] at h
      obtain ⟨h1, hsubeq, h3⟩ := h
      subst h1
      subst h3
      refine ⟨?_, Or.inl ⟨rfl, ?_, ?_, hrep.2⟩⟩
      · intro j hj
        rw [itreesIds_cons, List.mem_append]
        exact Or.inr hj
      · show ts.map ITree.id = (t.id :: ts.map ITree.id).erase c
        rw [hid, List.erase_cons_head]
      · rw [List.map_cons, hid]
        exact List.mem_cons_self _ _
    · rw [if_neg hid] at h
      cases hp : pluck t c with
      | some r =>
        obtain ⟨t2, sub2, p2⟩ := r
        rw [hp] at h
        simp only [Option.some.injEq, Prod.mk.injEq] at h
        obtain ⟨h1, hsubeq, h3⟩ := h
        subst h1
        subst h3
        have hmain := pluck_store t c t2 sub2 p2 s hp hrep.1 hnd1
        obtain ⟨hpm, pit, hpit, hcmem, hrepB⟩ := hmain
        have hsubids : itreeIds t2 ⊆ itreeIds t := ids_subset_of_pluck hp
        refine ⟨?_, Or.inr ⟨?_, ?_, pit, hpit, hcmem, ?_⟩⟩
        · intro j hj
          rw [itreesIds_cons] at hj ⊢
          rw [List.mem_append] at hj ⊢
          rcases hj with hj | hj
          · exact Or.inl (hsubids hj)
          · exact Or.inr hj
        · rw [itreesIds_cons, List.mem_append]
          exact Or.inl hpm
        · rw [List.map_cons, List.map_cons, pluck_root_id hp]
        · refine ⟨hrepB, ?_⟩
          exact repL_modify_not_mem (fun hmem => hdisj hpm hmem) hrep.2
      | none =>
        rw [hp] at h
        cases hq : pluckL i ts c with
        | none => rw [hq] at h; simp at h
        | some r =>
          obtain ⟨ts2, sub2, p2⟩ := r
          rw [hq] at h
          simp only [Option.map_some', Option.some.injEq, Prod.mk.injEq] at h
          obtain ⟨h1, hsubeq, h3⟩ := h
          subst h1
          subst h3
          have hndts : (i :: itreesIds ts).Nodup := by
            have hsl : (i :: itreesIds ts).Sublist (i :: itreesIds (t :: ts)) := by
              refine List.Sublist.cons₂ i ?_
              rw [itreesIds_cons]
              exact List.sublist_append_right _ _
            exact List.Nodup.sublist hsl hnd
          have hmain := pluckL_store i ts c ts2 sub2 p2 s hq hrep.2 hndts
          obtain ⟨hsubset, hD | hE⟩ := hmain
          · obtain ⟨rfl, hmap, hcm, hrepl⟩ := hD
            refine ⟨?_, Or.inl ⟨rfl, ?_, ?_, hrep.1, hrepl⟩⟩
            · intro j hj
              rw [itreesIds_cons] at hj ⊢
              rw [List.mem_append] at hj ⊢
              rcases hj with hj | hj
              · exact Or.inl hj
              · exact Or.inr (hsubset hj)
            · rw [List.map_cons, List.map_cons,
                List.erase_cons_tail (by simp [hid]), hmap]
            · rw [List.map_cons]
              exact List.mem_cons_of_mem _ hcm
          · obtain ⟨hpm, hmap, pit, hpit, hcm, hrepl⟩ := hE
            refine ⟨?_, Or.inr ⟨?_, ?_, pit, hpit, hcm, ?_⟩⟩
            · intro j hj
              rw [itreesIds_cons] at hj ⊢
              rw [List.mem_append] at hj ⊢
              rcases hj with hj | hj
              · exact Or.inl hj
              · exact Or.inr (hsubset hj)
            · rw [itreesIds_cons, List.mem_append]
              exact Or.inr hpm
            · rw [List.map_cons, List.map_cons, hmap]
            · refine ⟨?_, hrepl⟩
              exact repB_modify_not_mem (fun hmem => hdisj hmem hpm) hrep.1

end

theorem removeFirstP_spec {l : List Nat} {a : Nat} {pred : Nat → Bool}
    (ha : a ∈ l) (h1 : ∀ c ∈ l, c ≠ a → pred c = false) (h2 : pred a = true) :
    removeFirstP pred l = some (l.erase a) := by
  induction l with
  | nil => simp at ha
  | cons c cs ih =>
    by_cases hca : c = a
    · subst hca
      unfold removeFirstP
      rw [h2, if_pos rfl, List.erase_cons_head]
    · have hpc : pred c = false := h1 c (List.mem_cons_self _ _) hca
      unfold removeFirstP
      rw [hpc]
      simp only [Bool.false_eq_true, if_false]
      have ha2 : a ∈ cs := by
        rcases List.mem_cons.mp ha with h | h
        · exact absurd h.symm hca
        · exact h
      rw [ih ha2 (fun x hx hxa => h1 x (List.mem_cons_of_mem _ hx) hxa)]
      rw [List.erase_cons_tail (by simp [hca])]
      rfl

theorem modifyH_length (s : Store) (i : Nat) (f : HItem → HItem) :
    (modifyH s i f).length = s.length := by
  unfold modifyH
  cases s.get? i with
  | none => rfl
  | some v => exact List.length_set s i (f v)

theorem getH_ext {s₁ s₂ : Store} (h : ∀ j, getH s₁ j = getH s₂ j) : s₁ = s₂ :=
  List.ext h

theorem modifyH_comm {s : Store} {i j : Nat} (f g : HItem → HItem) (hij : i ≠ j) :
    modifyH (modifyH s i f) j g = modifyH (modifyH s j g) i f := by
  apply getH_ext
  intro k
  by_cases hki : k = i
  · subst hki
    rw [getH_modifyH_other g hij, getH_modifyH, getH_modifyH,
      getH_modifyH_other g hij]
  · by_cases hkj : k = j
    · subst hkj
      rw [getH_modifyH, getH_modifyH_other f hki, getH_modifyH_other f hki,
        getH_modifyH]
    · rw [getH_modifyH_other g hkj, getH_modifyH_other f hki,
        getH_modifyH_other f hki, getH_modifyH_other g hkj]

theorem modifyH_modifyH (s : Store) (i : Nat) (f g : HItem → HItem) :
    modifyH (modifyH s i g) i f = modifyH s i (fun v => f (g v)) := by
  apply getH_ext
  intro k
  by_cases hki : k = i
  · subst hki
    rw [getH_modifyH, getH_modifyH, getH_modifyH, Option.map_map]
    rfl
  · rw [getH_modifyH_other f hki, getH_modifyH_other g hki,
      getH_modifyH_other _ hki]

theorem modifyH_congr {s : Store} {i : Nat} {f g : HItem → HItem}
    (h : (getH s i).map f = (getH s i).map g) : modifyH s i f = modifyH s i g := by
  unfold modifyH
  unfold getH at h
  cases hv : s.get? i with
  | none => rfl
  | some v =>
    rw [hv] at h
    simp only [Option.map_some', Option.some.injEq] at h
    show List.set s i (f v) = List.set s i (g v)
    rw [h]

theorem childrenOf_of_stripEq {s' s : Store} (h : stripEq s' s) (j : Nat) :
    (getH s' j).map HItem.children = (getH s j).map HItem.children := by
  have hj := h j
  cases h1 : getH s' j with
  | none =>
    rw [h1] at hj
    cases h2 : getH s j with
    | none => rfl
    | some v => rw [h2] at hj; simp at hj
  | some v =>
    rw [h1] at hj
    cases h2 : getH s j with
    | none => rw [h2] at hj; simp at hj
    | some w =>
      rw [h2] at hj
      simp only [Option.map_some', Option.some.injEq] at hj ⊢
      have h3 := congrArg HItem.children hj
      exact h3

mutual

theorem pluck_p_mem_del : ∀ (T : ITree) (c : Nat) (Td sub : ITree) (p : Nat),
    pluck T c = some (Td, sub, p) → p ∈ itreeIds Td
  | .mk i cs, c, Td, sub, p, h => by
    unfold pluck at h
    cases hL : pluckL i cs c with
    | none => rw [hL] at h; simp at h
    | some r =>
      obtain ⟨cs2, sub2, p2⟩ := r
      rw [hL] at h
      simp only [Option.some.injEq, Prod.mk.injEq] at h
      obtain ⟨hTd, hsub, hp2⟩ := h
      subst hTd
      subst hp2
      rcases pluckL_p_mem_del i cs c cs2 sub2 p2 hL with h | h
      · subst h
        exact root_mem_itreeIds _
      · rw [itreeIds_mk, List.mem_cons]
        exact Or.inr h

theorem pluckL_p_mem_del : ∀ (i : Nat) (ts : List ITree) (c : Nat)
    (ts' : List ITree) (sub : ITree) (p : Nat),
    pluckL i ts c = some (ts', sub, p) → p = i ∨ p ∈ itreesIds ts'
  | i, t :: ts, c, ts', sub, p, h => by
    unfold pluckL at h
    by_cases hid : t.id = c
    · rw [if_pos hid] at h
      simp only [Option.some.injEq, Prod.mk.injEq] at h
      exact Or.inl h.2.2.symm
    · rw [if_neg hid] at h
      cases hp : pluck t c with
      | some r =>
        obtain ⟨t2, sub2, p2⟩ := r
        rw [hp] at h
        simp only [Option.some.injEq, Prod.mk.injEq] at h
        obtain ⟨h1, hsubeq, h3⟩ := h
        subst h1
        subst h3
        refine Or.inr ?_
        rw [itreesIds_cons, List.mem_append]
        exact Or.inl (pluck_p_mem_del t c t2 sub2 p2 hp)
      | none =>
        rw [hp] at h
        cases hq : pluckL i ts c with
        | none => rw [hq] at h; simp at h
        | some r =>
          obtain ⟨ts2, sub2, p2⟩ := r
          rw [hq] at h
          simp only [Option.map_some', Option.some.injEq, Prod.mk.injEq] at h
          obtain ⟨h1, hsubeq, h3⟩ := h
          subst h1
          subst h3
          rcases pluckL_p_mem_del i ts c ts2 sub2 p2 hq with h | h
          · exact Or.inl h
          · refine Or.inr ?_
            rw [itreesIds_cons, List.mem_append]
            exact Or.inr h

end

theorem move_s2_eq (s : Store) (itemId intoId p : Nat) (pit : HItem)
    (hpit : getH s p = some pit) (hitem : itemId ∈ pit.children) :
    modifyH (modifyH s intoId (apfH itemId)) p
      (fun it => { it with children :=
          (if intoId = p then apfH itemId pit else pit).children.erase itemId })
      = modifyH (modifyH s p (erfH itemId)) intoId (apfH itemId) := by
  by_cases hip : intoId = p
  · subst hip
    rw [modifyH_modifyH, modifyH_modifyH]
    apply modifyH_congr
    rw [hpit]
    have hK : (if intoId = intoId then apfH itemId pit else pit) = apfH itemId pit :=
      if_pos rfl
    simp only [hK, Option.map_some', Option.some.injEq]
    show ({ pit with children := (pit.children ++ [itemId]).erase itemId } : HItem)
        = { pit with children := pit.children.erase itemId ++ [itemId] }
    rw [List.erase_append_left _ hitem]
  · rw [modifyH_comm (apfH itemId) _ hip]
    congr 1
    apply modifyH_congr
    rw [hpit]
    simp only [Option.map_some', Option.some.injEq]
    rw [if_neg hip]
    rfl

/-- **C3, amended.**  Move semantics: provided `into` is not the moved
item or one of its descendants (`intoId` survives in the plucked tree)
and no other child of the prior parent is Python-equal to the item,
`move(item, into)` succeeds, removes `item` from its prior parent's
children, appends it as the last element of `into.children`, and after
the final `update_parents` the item's `parent` is `into`. -/
theorem move_semantics_amended
    (s : Store) (fuel : Nat) (itemId intoId : Nat) (R Rdel sub : ITree) (p : Nat)
    (pit iit : HItem)
    (hrep : repB s R) (hnd : (itreeIds R).Nodup)
    (hpluck : pluck R itemId = some (Rdel, sub, p))
    (hinto : intoId ∈ itreeIds Rdel)
    (hpar : parentOf s itemId = some p)
    (hpit : getH s p = some pit)
    (hiit : getH s intoId = some iit)
    (hfuel : itreeDepth R + itreeDepth R ≤ fuel)
    (htwin : ∀ c ∈ pit.children, c ≠ itemId →
        pyEqH (modifyH s intoId (apfH itemId)) fuel c itemId = false) :
    (move s fuel itemId intoId R.id).2 = true
    ∧ parentOf (move s fuel itemId intoId R.id).1 itemId = some intoId
    ∧ (intoId ≠ p →
        (getH (move s fuel itemId intoId R.id).1 p).map HItem.children
          = some (pit.children.erase itemId)
        ∧ (getH (move s fuel itemId intoId R.id).1 intoId).map HItem.children
          = some (iit.children ++ [itemId]))
    ∧ (intoId = p →
        (getH (move s fuel itemId intoId R.id).1 p).map HItem.children
          = some (pit.children.erase itemId ++ [itemId])) := by
  have hperm := pluck_perm R itemId Rdel sub p hpluck
  have hsubid := pluck_sub_id R itemId Rdel sub p hpluck
  have hndBoth : (itreeIds Rdel ++ itreeIds sub).Nodup := hperm.nodup hnd
  rw [List.nodup_append] at hndBoth
  obtain ⟨hndDel, hndSub, hdisjDS⟩ := hndBoth
  have hitem_mem_sub : itemId ∈ itreeIds sub := by
    rw [← hsubid]
    exact root_mem_itreeIds sub
  have hinto_ne_item : intoId ≠ itemId := by
    intro he
    exact hdisjDS hinto (by rw [he]; exact hitem_mem_sub)
  have hpmemdel := pluck_p_mem_del R itemId Rdel sub p hpluck
  have hp_notin_sub : p ∉ itreeIds sub := fun hmem => hdisjDS hpmemdel hmem
  have hinto_notin_sub : intoId ∉ itreeIds sub := fun hmem => hdisjDS hinto hmem
  have hps := pluck_store R itemId Rdel sub p s hpluck hrep hnd
  obtain ⟨-, pit2, hpit2, hitem_in_pit, hrepDel⟩ := hps
  rw [hpit] at hpit2
  obtain rfl := Option.some.inj hpit2
  -- facts about the first mutation
  have hs1_item : getH (modifyH s intoId (apfH itemId)) itemId = getH s itemId :=
    getH_modifyH_other _ (fun he => hinto_ne_item he.symm)
  have hpar1 : (getH (modifyH s intoId (apfH itemId)) itemId).bind (·.parent)
      = some p := by
    rw [hs1_item]
    exact hpar
  have hpit1 : getH (modifyH s intoId (apfH itemId)) p
      = some (if intoId = p then apfH itemId pit else pit) := by
    by_cases hip : intoId = p
    · subst hip
      rw [getH_modifyH_self (apfH itemId) hpit, if_pos rfl]
    · rw [getH_modifyH_other _ (fun he => hip he.symm), hpit, if_neg hip]
  have hpyself : pyEqH (modifyH s intoId (apfH itemId)) fuel itemId itemId = true := by
    unfold pyEqH
    simp
  have hremove : removeFirstP
      (fun c => pyEqH (modifyH s intoId (apfH itemId)) fuel c itemId)
      (if intoId = p then apfH itemId pit else pit).children
      = some ((if intoId = p then apfH itemId pit else pit).children.erase itemId) := by
    by_cases hip : intoId = p
    · simp only [if_pos hip]
      refine removeFirstP_spec ?_ ?_ hpyself
      · show itemId ∈ pit.children ++ [itemId]
        exact List.mem_append_right _ (List.mem_singleton_self _)
      · intro c hc hne
        have hc2 : c ∈ pit.children ++ [itemId] := hc
        rcases List.mem_append.mp hc2 with hc3 | hc3
        · exact htwin c hc3 hne
        · rw [List.mem_singleton] at hc3
          exact absurd hc3 hne
    · simp only [if_neg hip]
      exact removeFirstP_spec hitem_in_pit htwin hpyself
  -- the two mutations commute into the canonical form
  have hs2eq := move_s2_eq s itemId intoId p pit hpit hitem_in_pit
  -- the grafted tree is represented
  have hrepsub : repB s sub := pluck_sub_repB R itemId Rdel sub p s hpluck hrep
  have hrepsubDel : repB (modifyH s p (erfH itemId)) sub :=
    repB_modify_not_mem hp_notin_sub hrepsub
  have hrep2 : repB (modifyH (modifyH s p (erfH itemId)) intoId (apfH itemId))
      (graftAt Rdel intoId sub) := by
    have hg := graft_repB Rdel (modifyH s p (erfH itemId)) intoId sub hrepDel
      hndDel hinto hinto_notin_sub hrepsubDel
    rw [hsubid] at hg
    exact hg
  have hrep2m : repB (modifyH (modifyH s intoId (apfH itemId)) p
      (fun it => { it with children :=
        (if intoId = p then apfH itemId pit else pit).children.erase itemId }))
      (graftAt Rdel intoId sub) := by
    rw [hs2eq]
    exact hrep2
  have hnd2 : (itreeIds (graftAt Rdel intoId sub)).Nodup := by
    have hg := graft_perm Rdel intoId sub hndDel hinto
    exact hg.nodup_iff.mpr (by rw [List.nodup_append]; exact ⟨hndDel, hndSub, hdisjDS⟩)
  have hdepth2 : itreeDepth (graftAt Rdel intoId sub) ≤ fuel := by
    have h1 := graft_depth Rdel intoId sub
    have h2 := pluck_depth R itemId Rdel sub p hpluck
    omega
  have hedge2 : (intoId, itemId) ∈ itreeEdges (graftAt Rdel intoId sub) := by
    have hg := graft_edge Rdel intoId sub hinto
    rw [hsubid] at hg
    exact hg
  have hR2id : (graftAt Rdel intoId sub).id = R.id := by
    rw [graftAt_root_id, pluck_root_id hpluck]
  have hup := up_spec fuel _ (graftAt Rdel intoId sub) hrep2m hnd2 hdepth2
  rw [hR2id] at hup
  -- move follows the successful path
  have hmove : move s fuel itemId intoId R.id
      = (update_parents_go fuel
          (modifyH (modifyH s intoId (apfH itemId)) p
            (fun it => { it with children :=
              (if intoId = p then apfH itemId pit else pit).children.erase itemId }))
          R.id, true) := by
    simp only [move, hpar1, hpit1, hremove]
  refine ⟨?_, ?_, ?_, ?_⟩
  · rw [hmove]
  · rw [hmove]
    exact hup.2.1 (intoId, itemId) hedge2
  · intro hip
    have hchil := childrenOf_of_stripEq hup.1
    constructor
    · rw [hmove]
      show (getH (update_parents_go fuel _ R.id) p).map HItem.children = _
      rw [hchil p, hs2eq]
      rw [getH_modifyH_other (apfH itemId) (fun he => hip he.symm),
        getH_modifyH_self (erfH itemId) hpit]
      rfl
    · rw [hmove]
      show (getH (update_parents_go fuel _ R.id) intoId).map HItem.children = _
      rw [hchil intoId, hs2eq]
      have hiitDel : getH (modifyH s p (erfH itemId)) intoId = some iit := by
        rw [getH_modifyH_other (erfH itemId) hip]
        exact hiit
      rw [getH_modifyH_self (apfH itemId) hiitDel]
      rfl
  · intro hip
    have hchil := childrenOf_of_stripEq hup.1
    rw [hmove]
    show (getH (update_parents_go fuel _ R.id) p).map HItem.children = _
    rw [hchil p, hs2eq]
    subst hip
    have hiitDel : getH (modifyH s intoId (erfH itemId)) intoId = some (erfH itemId pit) :=
      getH_modifyH_self (erfH itemId) hpit
    rw [getH_modifyH_self (apfH itemId) hiitDel]
    show some ((erfH itemId pit).children ++ [itemId]) = _
    rfl

def w3store : Store :=
  [⟨"root".data, none, [1, 2], none, false⟩,
   ⟨"A".data, none, [], some 0, false⟩,
   ⟨"B".data, none, [], some 0, false⟩]

def w3R : ITree := .mk 0 [.mk 1 [], .mk 2 []]

/-- Witness for `move_semantics_amended`: moving item 1 into its sibling
item 2 succeeds and reparents it. -/
theorem move_semantics_witness :
    (move w3store 6 1 2 0).2 = true
    ∧ parentOf (move w3store 6 1 2 0).1 1 = some 2 := by
  have htwin : ∀ c ∈ (⟨"root".data, none, [1, 2], none, false⟩ : HItem).children,
      c ≠ 1 → pyEqH (modifyH w3store 2 (apfH 1)) 6 c 1 = false := by
    intro c hc hne
    have hc2 : c ∈ [1, 2] := hc
    simp only [List.mem_cons, List.not_mem_nil, or_false] at hc2
    rcases hc2 with rfl | rfl
    · exact absurd rfl hne
    · decide
  have h := move_semantics_amended w3store 6 1 2 w3R
    (ITree.mk 0 [ITree.mk 2 []]) (ITree.mk 1 []) 0
    ⟨"root".data, none, [1, 2], none, false⟩
    ⟨"B".data, none, [], some 0, false⟩
    ⟨⟨_, rfl, rfl⟩, ⟨⟨_, rfl, rfl⟩, trivial⟩, ⟨⟨_, rfl, rfl⟩, trivial⟩, trivial⟩
    (by decide) rfl (by decide) rfl rfl rfl (by decide) htwin
  exact ⟨h.1, h.2.1⟩

/- ===== Parser embedding (common/parser.py lines 32-96) =====

The markdown input is first converted to an HTML soup; the parser then
walks the soup's tags.  `PNode` models a soup node as the parser
observes it: a `NavigableString`, a `ul` tag with its children, an `li`
tag with its contents, a `ref` tag produced by the hoist inline
pattern, an `a` tag with its `href` attribute, a level-1 heading with
its text, or any other tag. -/

inductive PNode where
  | nstr (s : Str)
  | ulist (cs : List PNode)
  | li (parts : List PNode)
  | ref (s : Str)
  | link (href : Str)
  | otherTag

/-- A top-level child of the document soup: a `ul`, an `h1` (with its
text), or anything else (which the parser rejects). -/
inductive TopNode where
  | ul (cs : List PNode)
  | h1 (text : Str)
  | otherNode

def isNStr : PNode → Option Str
  | .nstr s => some s
  | _ => none

def isRef : PNode → Option Str
  | .ref s => some s
  | _ => none

def isLink : PNode → Option Str
  | .link h => some h
  | _ => none

def isUl : PNode → Option (List PNode)
  | .ulist cs => some cs
  | _ => none

/-- `[e for e in li.contents if isinstance(e, NavigableString)]`. -/
def stringsOf (parts : List PNode) : List Str := parts.filterMap isNStr

/-- `[e.text for e in li.contents if isinstance(e, Tag) and e.name == "ref"]`. -/
def refsOf (parts : List PNode) : List Str := parts.filterMap isRef

/-- the `href` attributes of the `a` tags among `li.contents`. -/
def linksOf (parts : List PNode) : List Str := parts.filterMap isLink

/-- `[e for e in li.contents if isinstance(e, Tag) and e.name == "ul"]`. -/
def sublistsOf (parts : List PNode) : List (List PNode) := parts.filterMap isUl

/-- Python `str.strip()` whitespace test (ASCII whitespace). -/
def pySpace (c : Char) : Bool :=
  c == ' ' || c == '\t' || c == '\n' || c == '\r' || c == '\x0b' || c == '\x0c'

/-- Python `str.strip()`: drop leading and trailing whitespace. -/
def pyStrip (s : Str) : Str :=
  ((s.reverse.dropWhile pySpace).reverse).dropWhile pySpace

/-- The parser's mutable state: the object heap plus the `hoists` dict.
The dict is modelled as an association list with new bindings consed to
the front, so lookup (first match) sees the most recent binding -
Python's `hoists[name] = item` overwrite. -/
structure PState where
  store : Store
  hoists : List (Str × Nat)
deriving DecidableEq

/-- Dict lookup `hoists[t]`; `none` is Python's `KeyError`. -/
def hoistGet (h : List (Str × Nat)) (t : Str) : Option Nat :=
  (h.find? (fun e => e.1 == t)).map (·.2)

/-- The item-creation step of `parse_list_item` (common/parser.py
lines 63-70): a hoist item registered in `hoists` when there is exactly
one `ref` tag, else a plain item when there is exactly one
`NavigableString`, else `NotImplementedError`. -/
def allocItem (parts : List PNode) (st : PState) : Option (Nat × PState) :=
  match refsOf parts with
  | [r] =>
    some (st.store.length,
      PState.mk (st.store ++ [HItem.mk (pyStrip r) none [] none true])
        ((pyStrip r, st.store.length) :: st.hoists))
  | _ =>
    match stringsOf parts with
    | [s0] =>
      some (st.store.length,
        PState.mk (st.store ++ [HItem.mk (pyStrip s0) none [] none false]) st.hoists)
    | _ => none

/-- The sublist step of `parse_list_item` (common/parser.py lines
72-76): more than one sublist raises; exactly one is parsed (with the
recursive call abstracted as `pl`) into `item.children`. -/
def parseSub (pl : List PNode → PState → Option (List Nat × PState))
    (parts : List PNode) (i : Nat) (st1 : PState) : Option PState :=
  match sublistsOf parts with
  | [] => some st1
  | [cs] =>
    (pl cs st1).map fun r =>
      PState.mk (modifyH r.2.store i (fun it => { it with children := r.1 })) r.2.hoists
  | _ => none

/-- The uuid step of `parse_list_item` (common/parser.py lines 78-82):
more than one `a` tag raises; exactly one sets `item.uuid`. -/
def attachUuid (uuids : List Nat) (i : Nat) (st3 : PState) : Option (Nat × PState) :=
  match uuids with
  | [] => some (i, st3)
  | [u] =>
    some (i, PState.mk (modifyH st3.store i (fun it => { it with uuid := some u })) st3.hoists)
  | _ => none

/-- `parse_list_item` (common/parser.py lines 55-84) with the recursive
call on the sublist abstracted as `pl`.  The four content filters are
computed first; an invalid `a`-tag `href` raises `ValueError` inside
the `uuids` comprehension before anything is allocated.  Failures
return `none` and the whole parse is discarded, matching the exception
propagating out of `parse_inventory_file`. -/
def parse_list_item_body (pl : List PNode → PState → Option (List Nat × PState))
    (parts : List PNode) (st : PState) : Option (Nat × PState) :=
  (seqOpt ((linksOf parts).map parse_uuid)).bind fun uuids =>
    (allocItem parts st).bind fun r =>
      (parseSub pl parts r.1 r.2).bind fun st3 =>
        attachUuid uuids r.1 st3

/-- One step of the `parse_list` loop (common/parser.py lines 87-96):
an `li` child is parsed and its item appended, anything else raises. -/
def liStep (pl : List PNode → PState → Option (List Nat × PState))
    (acc : Option (List Nat × PState)) (c : PNode) : Option (List Nat × PState) :=
  match acc with
  | none => none
  | some (ids, st) =>
    match c with
    | .li parts =>
      match parse_list_item_body pl parts st with
      | none => none
      | some (i, st') => some (ids ++ [i], st')
    | _ => none

/-- `parse_list` (common/parser.py lines 87-96), fuel-bounded on the
nesting depth: items are parsed left to right, threading the state. -/
def parse_list_f : Nat → List PNode → PState → Option (List Nat × PState)
  | 0, _, _ => none
  | fuel + 1, cs, st => cs.foldl (liStep (parse_list_f fuel)) (some ([], st))

/-- `parse_list_item` at a given nesting-depth fuel. -/
def parse_list_item_f (fuel : Nat) : List PNode → PState → Option (Nat × PState) :=
  parse_list_item_body (parse_list_f fuel)

/-- The top-level loop of `parse_inventory_file` (common/parser.py
lines 42-50): a `ul` appends its items to `cur_root.children`, an `h1`
rebinds `cur_root` via the hoist table (`KeyError` when the name was
never registered), anything else raises. -/
def parse_top (fuel : Nat) : List TopNode → PState → Nat → Option (PState × Nat)
  | [], st, cur => some (st, cur)
  | .ul cs :: rest, st, cur =>
    match parse_list_f fuel cs st with
    | none => none
    | some (ids, st') =>
      parse_top fuel rest
        (PState.mk (modifyH st'.store cur (fun it => { it with children := it.children ++ ids }))
          st'.hoists)
        cur
  | .h1 t :: rest, st, _ =>
    match hoistGet st.hoists t with
    | none => none
    | some i => parse_top fuel rest st i
  | .otherNode :: _, _, _ => none

/-- The synthetic root `Item("root")`. -/
def rootItemH : HItem := ⟨"root".data, none, [], none, false⟩

/-- The initial parser state: the heap holds only the root, the hoist
table is empty. -/
def initPState : PState := ⟨[rootItemH], []⟩

/-- `parse_inventory_file` (common/parser.py lines 32-52) over the
document's top-level soup nodes, ending with `update_parents(root)`. -/
def parse_inventory_file (fuel : Nat) (doc : List TopNode) : Option Store :=
  (parse_top fuel doc initPState 0).map fun r => update_parents_go fuel r.1.store 0

/- ===== Parser lemmas ===== -/

theorem liStep_foldl_none (pl : List PNode → PState → Option (List Nat × PState)) :
    ∀ cs : List PNode, cs.foldl (liStep pl) none = none := by
  intro cs
  induction cs with
  | nil => rfl
  | cons c rest ih => exact ih

theorem liStep_foldl_shift (pl : List PNode → PState → Option (List Nat × PState)) :
    ∀ (cs : List PNode) (ids : List Nat) (st : PState),
      cs.foldl (liStep pl) (some (ids, st)) =
        (cs.foldl (liStep pl) (some ([], st))).map (fun q => (ids ++ q.1, q.2)) := by
  intro cs
  induction cs with
  | nil => intro ids st; simp
  | cons c rest ih =>
    intro ids st
    rw [List.foldl_cons, List.foldl_cons]
    cases c with
    | li parts =>
      cases hit : parse_list_item_body pl parts st with
      | none =>
        rw [show liStep pl (some (ids, st)) (.li parts) = none by simp [liStep, hit],
          show liStep pl (some ([], st)) (.li parts) = none by simp [liStep, hit],
          liStep_foldl_none]
        rfl
      | some r =>
        obtain ⟨i, st1⟩ := r
        rw [show liStep pl (some (ids, st)) (.li parts) = some (ids ++ [i], st1) by
            simp [liStep, hit],
          show liStep pl (some ([], st)) (.li parts) = some ([i], st1) by
            simp [liStep, hit],
          ih (ids ++ [i]) st1, ih [i] st1, Option.map_map]
        cases rest.foldl (liStep pl) (some ([], st1)) with
        | none => rfl
        | some q => simp
    | nstr s =>
      rw [show liStep pl (some (ids, st)) (.nstr s) = none from rfl,
        show liStep pl (some ([], st)) (.nstr s) = none from rfl, liStep_foldl_none]
      rfl
    | ulist cs2 =>
      rw [show liStep pl (some (ids, st)) (.ulist cs2) = none from rfl,
        show liStep pl (some ([], st)) (.ulist cs2) = none from rfl, liStep_foldl_none]
      rfl
    | ref s =>
      rw [show liStep pl (some (ids, st)) (.ref s) = none from rfl,
        show liStep pl (some ([], st)) (.ref s) = none from rfl, liStep_foldl_none]
      rfl
    | link s =>
      rw [show liStep pl (some (ids, st)) (.link s) = none from rfl,
        show liStep pl (some ([], st)) (.link s) = none from rfl, liStep_foldl_none]
      rfl
    | otherTag =>
      rw [show liStep pl (some (ids, st)) .otherTag = none from rfl,
        show liStep pl (some ([], st)) .otherTag = none from rfl, liStep_foldl_none]
      rfl

/-- `parse_list` over a concatenation is the two parses in sequence. -/
theorem parse_list_f_append (fuel : Nat) (as bs : List PNode) (st : PState) :
    parse_list_f (fuel + 1) (as ++ bs) st =
      (parse_list_f (fuel + 1) as st).bind
        (fun r => (parse_list_f (fuel + 1) bs r.2).map (fun q => (r.1 ++ q.1, q.2))) := by
  show (as ++ bs).foldl (liStep (parse_list_f fuel)) (some ([], st)) = _
  rw [List.foldl_append]
  cases ha : as.foldl (liStep (parse_list_f fuel)) (some ([], st)) with
  | none =>
    rw [liStep_foldl_none]
    have h1 : parse_list_f (fuel + 1) as st = none := ha
    rw [h1]
    rfl
  | some r =>
    obtain ⟨ids, st1⟩ := r
    have h1 : parse_list_f (fuel + 1) as st = some (ids, st1) := ha
    rw [h1, liStep_foldl_shift]
    rfl

/-- `parse_list` on a cons whose head is an `li`. -/
theorem parse_list_f_cons_li (fuel : Nat) (parts : List PNode) (cs : List PNode) (st : PState) :
    parse_list_f (fuel + 1) (PNode.li parts :: cs) st =
      (parse_list_item_f fuel parts st).bind
        (fun r => (parse_list_f (fuel + 1) cs r.2).map (fun q => (r.1 :: q.1, q.2))) := by
  show cs.foldl (liStep (parse_list_f fuel))
    (liStep (parse_list_f fuel) (some ([], st)) (.li parts)) = _
  cases hit : parse_list_item_body (parse_list_f fuel) parts st with
  | none =>
    rw [show liStep (parse_list_f fuel) (some ([], st)) (.li parts) = none by
        simp [liStep, hit],
      liStep_foldl_none]
    have h1 : parse_list_item_f fuel parts st = none := hit
    rw [h1]
    rfl
  | some r =>
    obtain ⟨i, st1⟩ := r
    rw [show liStep (parse_list_f fuel) (some ([], st)) (.li parts) = some ([i], st1) by
        simp [liStep, hit],
      liStep_foldl_shift]
    have h1 : parse_list_item_f fuel parts st = some (i, st1) := hit
    rw [h1]
    rfl


/-- Parsing a bare hoist-reference list item `- [[#n]]` allocates a
fresh hoisted item named `n.strip()` and registers it in the hoist
table, shadowing any earlier binding of that name. -/
theorem refLi_step (fuel : Nat) (n : Str) (st : PState) :
    parse_list_item_f fuel [PNode.ref n] st =
      some (st.store.length,
        ⟨st.store ++ [⟨pyStrip n, none, [], none, true⟩],
         (pyStrip n, st.store.length) :: st.hoists⟩) := rfl

/-- Parsing a bare plain-text list item allocates a fresh unhoisted
item and registers nothing. -/
theorem strLi_step (fuel : Nat) (s0 : Str) (st : PState) :
    parse_list_item_f fuel [PNode.nstr s0] st =
      some (st.store.length,
        ⟨st.store ++ [⟨pyStrip s0, none, [], none, false⟩], st.hoists⟩) := rfl

theorem getH_append_lt {s : Store} {j : Nat} (x : HItem) (h : j < s.length) :
    getH (s ++ [x]) j = getH s j := by
  unfold getH
  exact List.get?_append h

theorem getH_append_length (s : Store) (x : HItem) :
    getH (s ++ [x]) s.length = some x := by
  unfold getH
  exact List.get?_concat_length s x

/-- The second store extends the first: it is at least as long and
agrees with it on every existing index. -/
def extendsH (s s' : Store) : Prop :=
  s.length ≤ s'.length ∧ ∀ j, j < s.length → getH s' j = getH s j

theorem extendsH_refl (s : Store) : extendsH s s := ⟨le_refl _, fun _ _ => rfl⟩

theorem extendsH_trans {s₁ s₂ s₃ : Store} (h1 : extendsH s₁ s₂) (h2 : extendsH s₂ s₃) :
    extendsH s₁ s₃ :=
  ⟨le_trans h1.1 h2.1, fun j hj => (h2.2 j (lt_of_lt_of_le hj h1.1)).trans (h1.2 j hj)⟩

theorem extendsH_append (s : Store) (x : HItem) : extendsH s (s ++ [x]) := by
  constructor
  · simp
  · intro j hj
    exact getH_append_lt x hj

theorem extendsH_modifyH {s₀ s : Store} {i : Nat} (f : HItem → HItem)
    (h : extendsH s₀ s) (hi : s₀.length ≤ i) : extendsH s₀ (modifyH s i f) := by
  constructor
  · rw [modifyH_length]; exact h.1
  · intro j hj
    rw [getH_modifyH_other f (Nat.ne_of_lt (lt_of_lt_of_le hj hi))]
    exact h.2 j hj

theorem allocItem_spec {parts : List PNode} {st : PState} {i0 : Nat} {stA : PState}
    (h : allocItem parts st = some (i0, stA)) :
    extendsH st.store stA.store ∧ i0 = st.store.length ∧
      stA.store.length = st.store.length + 1 := by
  unfold allocItem at h
  cases href : refsOf parts with
  | nil =>
    rw [href] at h
    cases hstr : stringsOf parts with
    | nil => rw [hstr] at h; exact absurd h (by simp)
    | cons s0 ss =>
      cases ss with
      | nil =>
        rw [hstr] at h
        simp only [Option.some.injEq, Prod.mk.injEq] at h
        obtain ⟨h1, h2⟩ := h
        subst h1; subst h2
        exact ⟨extendsH_append _ _, rfl, by simp⟩
      | cons s1 ss2 => rw [hstr] at h; exact absurd h (by simp)
  | cons r0 rs =>
    cases rs with
    | nil =>
      rw [href] at h
      simp only [Option.some.injEq, Prod.mk.injEq] at h
      obtain ⟨h1, h2⟩ := h
      subst h1; subst h2
      exact ⟨extendsH_append _ _, rfl, by simp⟩
    | cons r1 rs2 =>
      rw [href] at h
      cases hstr : stringsOf parts with
      | nil => rw [hstr] at h; exact absurd h (by simp)
      | cons s0 ss =>
        cases ss with
        | nil =>
          rw [hstr] at h
          simp only [Option.some.injEq, Prod.mk.injEq] at h
          obtain ⟨h1, h2⟩ := h
          subst h1; subst h2
          exact ⟨extendsH_append _ _, rfl, by simp⟩
        | cons s1 ss2 => rw [hstr] at h; exact absurd h (by simp)

theorem parseSub_extends {pl : List PNode → PState → Option (List Nat × PState)}
    (hpl : ∀ cs st ids st', pl cs st = some (ids, st') → extendsH st.store st'.store)
    {parts : List PNode} {i : Nat} {st1 st3 : PState}
    (h : parseSub pl parts i st1 = some st3)
    {s₀ : Store} (hs : extendsH s₀ st1.store) (hi : s₀.length ≤ i) :
    extendsH s₀ st3.store := by
  unfold parseSub at h
  cases hsl : sublistsOf parts with
  | nil =>
    rw [hsl] at h
    simp only [Option.some.injEq] at h
    subst h
    exact hs
  | cons cs0 css =>
    cases css with
    | nil =>
      rw [hsl] at h
      have h' : (pl cs0 st1).map (fun r =>
          PState.mk (modifyH r.2.store i (fun it => { it with children := r.1 }))
            r.2.hoists) = some st3 := h
      cases hp : pl cs0 st1 with
      | none => rw [hp] at h'; exact absurd h' (by simp)
      | some r =>
        rw [hp] at h'
        simp only [Option.map_some', Option.some.injEq] at h'
        subst h'
        exact extendsH_modifyH _ (extendsH_trans hs (hpl cs0 st1 r.1 r.2 hp)) hi
    | cons cs1 css2 => rw [hsl] at h; exact absurd h (by simp)

theorem attachUuid_spec {uuids : List Nat} {i : Nat} {st3 : PState} {i' : Nat} {st4 : PState}
    (h : attachUuid uuids i st3 = some (i', st4)) :
    i' = i ∧ ∀ s₀ : Store, extendsH s₀ st3.store → s₀.length ≤ i → extendsH s₀ st4.store := by
  unfold attachUuid at h
  cases uuids with
  | nil =>
    simp only [Option.some.injEq, Prod.mk.injEq] at h
    obtain ⟨h1, h2⟩ := h
    subst h1; subst h2
    exact ⟨rfl, fun _ hs _ => hs⟩
  | cons u0 us =>
    cases us with
    | nil =>
      simp only [Option.some.injEq, Prod.mk.injEq] at h
      obtain ⟨h1, h2⟩ := h
      subst h1; subst h2
      exact ⟨rfl, fun s₀ hs hi => extendsH_modifyH _ hs hi⟩
    | cons u1 us2 => exact absurd h (by simp)

/-- The parser only allocates fresh objects and mutates them: every
object already in the store when `parse_list` starts is untouched. -/
theorem parse_list_frame : ∀ (fuel : Nat) (cs : List PNode) (st : PState)
    (ids : List Nat) (st' : PState),
    parse_list_f fuel cs st = some (ids, st') → extendsH st.store st'.store := by
  intro fuel
  induction fuel with
  | zero => intro cs st ids st' h; exact absurd h (by simp [parse_list_f])
  | succ fuel ih =>
    have hitem : ∀ (parts : List PNode) (st : PState) (i : Nat) (st1 : PState),
        parse_list_item_body (parse_list_f fuel) parts st = some (i, st1) →
        extendsH st.store st1.store ∧ i = st.store.length := by
      intro parts st i st1 h
      unfold parse_list_item_body at h
      cases hu : seqOpt ((linksOf parts).map parse_uuid) with
      | none => rw [hu] at h; exact absurd h (by simp)
      | some uuids =>
        rw [hu] at h
        have h1 : (allocItem parts st).bind (fun r =>
            (parseSub (parse_list_f fuel) parts r.1 r.2).bind fun st3 =>
              attachUuid uuids r.1 st3) = some (i, st1) := h
        cases hal : allocItem parts st with
        | none => rw [hal] at h1; exact absurd h1 (by simp)
        | some r =>
          obtain ⟨i0, stA⟩ := r
          rw [hal] at h1
          have h2 : (parseSub (parse_list_f fuel) parts i0 stA).bind
              (fun st3 => attachUuid uuids i0 st3) = some (i, st1) := h1
          obtain ⟨ha1, ha2, ha3⟩ := allocItem_spec hal
          cases hps : parseSub (parse_list_f fuel) parts i0 stA with
          | none => rw [hps] at h2; exact absurd h2 (by simp)
          | some st3 =>
            rw [hps] at h2
            have h3 : attachUuid uuids i0 st3 = some (i, st1) := h2
            have hx := parseSub_extends ih hps ha1 (le_of_eq ha2.symm)
            obtain ⟨hb1, hb2⟩ := attachUuid_spec h3
            exact ⟨hb2 st.store hx (le_of_eq ha2.symm), hb1.trans ha2⟩

    have haux : ∀ (cs : List PNode) (ids0 : List Nat) (st0 : PState)
        (ids : List Nat) (st' : PState),
        cs.foldl (liStep (parse_list_f fuel)) (some (ids0, st0)) = some (ids, st') →
        extendsH st0.store st'.store := by
      intro cs
      induction cs with
      | nil =>
        intro ids0 st0 ids st' h
        simp only [List.foldl_nil, Option.some.injEq, Prod.mk.injEq] at h
        rw [← h.2]
        exact extendsH_refl _
      | cons c rest ihl =>
        intro ids0 st0 ids st' h
        rw [List.foldl_cons] at h
        cases c with
        | li parts =>
          cases hit : parse_list_item_body (parse_list_f fuel) parts st0 with
          | none =>
            rw [show liStep (parse_list_f fuel) (some (ids0, st0)) (.li parts) = none by
              simp [liStep, hit]] at h
            rw [liStep_foldl_none] at h
            exact absurd h (by simp)
          | some r =>
            obtain ⟨i, st1⟩ := r
            rw [show liStep (parse_list_f fuel) (some (ids0, st0)) (.li parts) =
                some (ids0 ++ [i], st1) by simp [liStep, hit]] at h
            exact extendsH_trans (hitem parts st0 i st1 hit).1 (ihl (ids0 ++ [i]) st1 ids st' h)
        | nstr s =>
          rw [show liStep (parse_list_f fuel) (some (ids0, st0)) (.nstr s) = none from rfl,
            liStep_foldl_none] at h
          exact absurd h (by simp)
        | ulist cs2 =>
          rw [show liStep (parse_list_f fuel) (some (ids0, st0)) (.ulist cs2) = none from rfl,
            liStep_foldl_none] at h
          exact absurd h (by simp)
        | ref s =>
          rw [show liStep (parse_list_f fuel) (some (ids0, st0)) (.ref s) = none from rfl,
            liStep_foldl_none] at h
          exact absurd h (by simp)
        | link s =>
          rw [show liStep (parse_list_f fuel) (some (ids0, st0)) (.link s) = none from rfl,
            liStep_foldl_none] at h
          exact absurd h (by simp)
        | otherTag =>
          rw [show liStep (parse_list_f fuel) (some (ids0, st0)) .otherTag = none from rfl,
            liStep_foldl_none] at h
          exact absurd h (by simp)
    intro cs st ids st' h
    exact haux cs [] st ids st' h

/-- `update_parents` only writes `parent` fields: the result agrees
with its input on everything else. -/
theorem up_go_stripEq : ∀ (fuel : Nat) (s : Store) (i : Nat),
    stripEq (update_parents_go fuel s i) s := by
  intro fuel
  induction fuel with
  | zero => intro s i; exact stripEq_refl s
  | succ fuel ih =>
    intro s i
    show stripEq (match getH s i with
      | none => s
      | some it => it.children.foldl
          (fun acc c => update_parents_go fuel (setParentH acc c i) c) s) s
    cases hv : getH s i with
    | none => exact stripEq_refl s
    | some it =>
      have haux : ∀ (l : List Nat) (s0 : Store),
          stripEq (l.foldl (fun acc c => update_parents_go fuel (setParentH acc c i) c) s0)
            s0 := by
        intro l
        induction l with
        | nil => intro s0; exact stripEq_refl s0
        | cons c rest ihl =>
          intro s0
          rw [List.foldl_cons]
          exact stripEq_trans (ihl (update_parents_go fuel (setParentH s0 c i) c))
            (stripEq_trans (ih (setParentH s0 c i) c) (stripEq_setParentH s0 c i))
      exact haux it.children s

/-- The top-level loop over a concatenation of document nodes is the
two loops in sequence, the cursor threading through. -/
theorem parse_top_append : ∀ (fuel : Nat) (as bs : List TopNode) (st : PState) (cur : Nat),
    parse_top fuel (as ++ bs) st cur =
      (parse_top fuel as st cur).bind (fun r => parse_top fuel bs r.1 r.2) := by
  intro fuel as
  induction as with
  | nil => intro bs st cur; rfl
  | cons a rest ih =>
    intro bs st cur
    cases a with
    | ul cs =>
      show (match parse_list_f fuel cs st with
        | none => none
        | some (ids, st') =>
          parse_top fuel (rest ++ bs)
            (PState.mk (modifyH st'.store cur
              (fun it => { it with children := it.children ++ ids })) st'.hoists) cur) = _
      cases hp : parse_list_f fuel cs st with
      | none =>
        show none = (match parse_list_f fuel cs st with
          | none => none
          | some (ids, st') => parse_top fuel rest _ cur).bind _
        rw [hp]
        rfl
      | some r =>
        obtain ⟨ids, st1⟩ := r
        show parse_top fuel (rest ++ bs) _ cur = (match parse_list_f fuel cs st with
          | none => none
          | some (ids, st') => parse_top fuel rest
            (PState.mk (modifyH st'.store cur
              (fun it => { it with children := it.children ++ ids })) st'.hoists) cur).bind _
        rw [hp, ih]
    | h1 t =>
      show (match hoistGet st.hoists t with
        | none => none
        | some i => parse_top fuel (rest ++ bs) st i) = _
      cases hg : hoistGet st.hoists t with
      | none =>
        show none = (match hoistGet st.hoists t with
          | none => none
          | some i => parse_top fuel rest st i).bind _
        rw [hg]
        rfl
      | some i =>
        show parse_top fuel (rest ++ bs) st i = (match hoistGet st.hoists t with
          | none => none
          | some i => parse_top fuel rest st i).bind _
        rw [hg, ih]
    | otherNode => rfl

/-- **C2 counterexample.**  A list-item node containing both exactly
one plain string and exactly one hoist-reference node parses
successfully (the `ref` wins and a hoist item is registered), where
the claim requires every shape other than "exactly one, never both"
to fail. -/
theorem li_label_shape_counterexample :
    (stringsOf [PNode.nstr "x".data, PNode.ref "Y".data]).length = 1 ∧
    (refsOf [PNode.nstr "x".data, PNode.ref "Y".data]).length = 1 ∧
    parse_list_item_f 1 [PNode.nstr "x".data, PNode.ref "Y".data] initPState =
      some (1, ⟨[rootItemH, ⟨"Y".data, none, [], none, true⟩], [("Y".data, 1)]⟩) :=
  ⟨rfl, rfl, rfl⟩

/-- **C2 (amended).**  For a list-item node with no sublist and no
`a` tag, parsing succeeds iff the node holds exactly one
hoist-reference node or exactly one plain string; exactly one
hoist-reference always wins (yielding a registered hoisted item named
by the stripped reference text, regardless of how many plain strings
are present), and otherwise a single plain string yields an unhoisted
unregistered item.  "Never both" and "multiples fail" do not hold: the
two branches are tried in order. -/
theorem li_label_shape_amended (fuel : Nat) (parts : List PNode) (st : PState)
    (hnosub : sublistsOf parts = [])
    (hnolink : linksOf parts = []) :
    ((parse_list_item_f fuel parts st).isSome ↔
      (refsOf parts).length = 1 ∨ (stringsOf parts).length = 1) ∧
    (∀ r, refsOf parts = [r] →
      parse_list_item_f fuel parts st =
        some (st.store.length,
          ⟨st.store ++ [⟨pyStrip r, none, [], none, true⟩],
           (pyStrip r, st.store.length) :: st.hoists⟩)) ∧
    (∀ s0, (refsOf parts).length ≠ 1 → stringsOf parts = [s0] →
      parse_list_item_f fuel parts st =
        some (st.store.length,
          ⟨st.store ++ [⟨pyStrip s0, none, [], none, false⟩], st.hoists⟩)) := by
  have hkey : parse_list_item_f fuel parts st = allocItem parts st := by
    show parse_list_item_body (parse_list_f fuel) parts st = _
    unfold parse_list_item_body
    rw [hnolink]
    show (allocItem parts st).bind (fun r =>
      (parseSub (parse_list_f fuel) parts r.1 r.2).bind fun st3 =>
        attachUuid [] r.1 st3) = allocItem parts st
    cases hal : allocItem parts st with
    | none => rfl
    | some r =>
      show (parseSub (parse_list_f fuel) parts r.1 r.2).bind
        (fun st3 => attachUuid [] r.1 st3) = some r
      have hps : parseSub (parse_list_f fuel) parts r.1 r.2 = some r.2 := by
        unfold parseSub
        rw [hnosub]
      rw [hps]
      rfl
  refine ⟨?_, ?_, ?_⟩
  · rw [hkey]
    cases href : refsOf parts with
    | nil =>
      cases hstr : stringsOf parts with
      | nil => unfold allocItem; rw [href, hstr]; simp
      | cons s0 ss =>
        cases ss with
        | nil => unfold allocItem; rw [href, hstr]; simp
        | cons s1 ss2 => unfold allocItem; rw [href, hstr]; simp
    | cons r0 rs =>
      cases rs with
      | nil => unfold allocItem; rw [href]; simp
      | cons r1 rs2 =>
        cases hstr : stringsOf parts with
        | nil => unfold allocItem; rw [href, hstr]; simp
        | cons s0 ss =>
          cases ss with
          | nil => unfold allocItem; rw [href, hstr]; simp
          | cons s1 ss2 => unfold allocItem; rw [href, hstr]; simp
  · intro r hr
    rw [hkey]
    unfold allocItem
    rw [hr]
  · intro s0 hne hs
    rw [hkey]
    unfold allocItem
    cases href : refsOf parts with
    | nil => rw [hs]
    | cons r0 rs =>
      cases rs with
      | nil => exact absurd (by simp [href]) hne
      | cons r1 rs2 => rw [hs]

/-- Witness for `li_label_shape_amended` on the list item `- box`. -/
theorem li_label_shape_witness :
    ((parse_list_item_f 1 [PNode.nstr "box".data] initPState).isSome ↔
      (refsOf [PNode.nstr "box".data]).length = 1 ∨
        (stringsOf [PNode.nstr "box".data]).length = 1) ∧
    (∀ r, refsOf [PNode.nstr "box".data] = [r] →
      parse_list_item_f 1 [PNode.nstr "box".data] initPState =
        some (1, ⟨[rootItemH, ⟨pyStrip r, none, [], none, true⟩], [(pyStrip r, 1)]⟩)) ∧
    (∀ s0, (refsOf [PNode.nstr "box".data]).length ≠ 1 →
      stringsOf [PNode.nstr "box".data] = [s0] →
      parse_list_item_f 1 [PNode.nstr "box".data] initPState =
        some (1, ⟨[rootItemH, ⟨pyStrip s0, none, [], none, false⟩], []⟩)) :=
  li_label_shape_amended 1 [PNode.nstr "box".data] initPState rfl rfl

/-- **C10.**  A level-1 heading whose text was never registered by an
earlier hoist-reference list item makes `parse_inventory_file` fail:
the hoist-table lookup is a `KeyError` and no tree is produced. -/
theorem unregistered_heading_fails (fuel : Nat) (pre rest : List TopNode) (t : Str)
    (st : PState) (cur : Nat)
    (hpre : parse_top fuel pre initPState 0 = some (st, cur))
    (hmiss : hoistGet st.hoists t = none) :
    parse_inventory_file fuel (pre ++ TopNode.h1 t :: rest) = none := by
  unfold parse_inventory_file
  rw [parse_top_append, hpre]
  have hstep : parse_top fuel (TopNode.h1 t :: rest) st cur = none := by
    show (match hoistGet st.hoists t with
      | none => none
      | some i => parse_top fuel rest st i) = none
    rw [hmiss]
  show (parse_top fuel (TopNode.h1 t :: rest) st cur).map
    (fun r => update_parents_go fuel r.1.store 0) = none
  rw [hstep]
  rfl

/-- Witness for `unregistered_heading_fails`: the one-line document
`# A` with no hoist reference at all. -/
theorem unregistered_heading_witness :
    parse_top 1 ([] : List TopNode) initPState 0 = some (initPState, 0) ∧
    hoistGet initPState.hoists "A".data = none ∧
    parse_inventory_file 1 [TopNode.h1 "A".data] = none :=
  ⟨rfl, rfl, unregistered_heading_fails 1 [] [] "A".data initPState 0 rfl rfl⟩

/-- **C8.**  The hoist name table is last-write-wins.  In a document
whose first list uses the same hoist name twice - `xs`, a `- [[#n]]`
item (allocated as `i1`), `ys`, a second `- [[#n]]` item (allocated as
`i2`), `zs` - followed by the heading `# n` and its section list `ws`
(with `zs` not rebinding the name, hypothesis `hE`), parsing succeeds,
`i1 < i2` (the second item is the most recently created one), the
heading section's items `js` become the children of `i2`, and the
earlier item `i1` receives no children. -/
theorem hoist_last_write_wins
    (fuel : Nat) (xs ys zs ws : List PNode) (n : Str)
    (is0 is1 is2 js : List Nat) (stA stC stE stF : PState) (i1 i2 : Nat)
    (hxs : parse_list_f (fuel + 1) xs initPState = some (is0, stA))
    (hi1 : i1 = stA.store.length)
    (hys : parse_list_f (fuel + 1) ys
      ⟨stA.store ++ [⟨pyStrip n, none, [], none, true⟩], (pyStrip n, i1) :: stA.hoists⟩
      = some (is1, stC))
    (hi2 : i2 = stC.store.length)
    (hzs : parse_list_f (fuel + 1) zs
      ⟨stC.store ++ [⟨pyStrip n, none, [], none, true⟩], (pyStrip n, i2) :: stC.hoists⟩
      = some (is2, stE))
    (hE : hoistGet stE.hoists (pyStrip n) = some i2)
    (hws : parse_list_f (fuel + 1) ws
      ⟨modifyH stE.store 0 (fun it => { it with children :=
          it.children ++ (is0 ++ i1 :: (is1 ++ i2 :: is2)) }), stE.hoists⟩
      = some (js, stF)) :
    i1 < i2 ∧
    parse_inventory_file (fuel + 1)
      [TopNode.ul (xs ++ PNode.li [PNode.ref n] :: (ys ++ PNode.li [PNode.ref n] :: zs)),
       TopNode.h1 (pyStrip n), TopNode.ul ws] =
      some (update_parents_go (fuel + 1)
        (modifyH stF.store i2 (fun it => { it with children := it.children ++ js })) 0) ∧
    (getH (update_parents_go (fuel + 1)
        (modifyH stF.store i2 (fun it => { it with children := it.children ++ js })) 0)
      i2).map HItem.children = some js ∧
    (getH (update_parents_go (fuel + 1)
        (modifyH stF.store i2 (fun it => { it with children := it.children ++ js })) 0)
      i1).map HItem.children = some [] := by
  subst hi1
  subst hi2
  have hfrA := parse_list_frame (fuel + 1) xs initPState is0 stA hxs
  have hfrC := parse_list_frame (fuel + 1) ys _ is1 stC hys
  have hfrE := parse_list_frame (fuel + 1) zs _ is2 stE hzs
  have hfrF := parse_list_frame (fuel + 1) ws _ js stF hws
  have hlenA : 1 ≤ stA.store.length := hfrA.1
  have hlenBC : stA.store.length + 1 ≤ stC.store.length := by
    have h : (stA.store ++ [(⟨pyStrip n, none, [], none, true⟩ : HItem)]).length ≤
        stC.store.length := hfrC.1
    simpa using h
  have hlt12 : stA.store.length < stC.store.length := lt_of_lt_of_le (Nat.lt_succ_self _) hlenBC
  have hlenDE : stC.store.length + 1 ≤ stE.store.length := by
    have h : (stC.store ++ [(⟨pyStrip n, none, [], none, true⟩ : HItem)]).length ≤
        stE.store.length := hfrE.1
    simpa using h
  -- the whole first list parses to the concatenation of the five groups
  have hstepD : parse_list_f (fuel + 1) (PNode.li [PNode.ref n] :: zs) stC =
      some (stC.store.length :: is2, stE) := by
    rw [parse_list_f_cons_li, refLi_step]
    show (parse_list_f (fuel + 1) zs
        ⟨stC.store ++ [⟨pyStrip n, none, [], none, true⟩],
         (pyStrip n, stC.store.length) :: stC.hoists⟩).map
      (fun q => (stC.store.length :: q.1, q.2)) = some (stC.store.length :: is2, stE)
    rw [hzs]
    rfl
  have hstepB : parse_list_f (fuel + 1)
      (PNode.li [PNode.ref n] :: (ys ++ PNode.li [PNode.ref n] :: zs)) stA =
      some (stA.store.length :: (is1 ++ stC.store.length :: is2), stE) := by
    rw [parse_list_f_cons_li, refLi_step]
    show (parse_list_f (fuel + 1) (ys ++ PNode.li [PNode.ref n] :: zs)
        ⟨stA.store ++ [⟨pyStrip n, none, [], none, true⟩],
         (pyStrip n, stA.store.length) :: stA.hoists⟩).map
      (fun q => (stA.store.length :: q.1, q.2)) = _
    rw [parse_list_f_append, hys]
    show ((parse_list_f (fuel + 1) (PNode.li [PNode.ref n] :: zs) stC).map
        (fun q => (is1 ++ q.1, q.2))).map
      (fun q => (stA.store.length :: q.1, q.2)) = _
    rw [hstepD]
    rfl
  have hul : parse_list_f (fuel + 1)
      (xs ++ PNode.li [PNode.ref n] :: (ys ++ PNode.li [PNode.ref n] :: zs)) initPState =
      some (is0 ++ stA.store.length :: (is1 ++ stC.store.length :: is2), stE) := by
    rw [parse_list_f_append, hxs]
    show (parse_list_f (fuel + 1)
        (PNode.li [PNode.ref n] :: (ys ++ PNode.li [PNode.ref n] :: zs)) stA).map
      (fun q => (is0 ++ q.1, q.2)) = _
    rw [hstepB]
    rfl
  -- run the top-level loop
  have hpt : parse_top (fuel + 1)
      [TopNode.ul (xs ++ PNode.li [PNode.ref n] :: (ys ++ PNode.li [PNode.ref n] :: zs)),
       TopNode.h1 (pyStrip n), TopNode.ul ws] initPState 0 =
      some (⟨modifyH stF.store stC.store.length
        (fun it => { it with children := it.children ++ js }), stF.hoists⟩,
        stC.store.length) := by
    show (match parse_list_f (fuel + 1)
        (xs ++ PNode.li [PNode.ref n] :: (ys ++ PNode.li [PNode.ref n] :: zs)) initPState with
      | none => none
      | some (ids, st') =>
        parse_top (fuel + 1) [TopNode.h1 (pyStrip n), TopNode.ul ws]
          (PState.mk (modifyH st'.store 0
            (fun it => { it with children := it.children ++ ids })) st'.hoists) 0) = _
    rw [hul]
    show (match hoistGet stE.hoists (pyStrip n) with
      | none => none
      | some i =>
        parse_top (fuel + 1) [TopNode.ul ws]
          (PState.mk (modifyH stE.store 0
            (fun it => { it with children :=
              it.children ++ (is0 ++ stA.store.length :: (is1 ++ stC.store.length :: is2)) }))
            stE.hoists) i) = _
    rw [hE]
    show (match parse_list_f (fuel + 1) ws
        (PState.mk (modifyH stE.store 0
          (fun it => { it with children :=
            it.children ++ (is0 ++ stA.store.length :: (is1 ++ stC.store.length :: is2)) }))
          stE.hoists) with
      | none => none
      | some (ids, st') =>
        parse_top (fuel + 1) ([] : List TopNode)
          (PState.mk (modifyH st'.store stC.store.length
            (fun it => { it with children := it.children ++ ids })) st'.hoists)
          stC.store.length) = _
    rw [hws]
    rfl
  -- the children of i2 and i1 in the final store, before update_parents
  have hitem2E : getH stE.store stC.store.length =
      some ⟨pyStrip n, none, [], none, true⟩ := by
    rw [hfrE.2 stC.store.length (by simp)]
    exact getH_append_length stC.store _
  have hne2 : stC.store.length ≠ 0 := by omega
  have hitem2M : getH (modifyH stE.store 0 (fun it => { it with children :=
      it.children ++ (is0 ++ stA.store.length :: (is1 ++ stC.store.length :: is2)) }))
      stC.store.length = some ⟨pyStrip n, none, [], none, true⟩ := by
    rw [getH_modifyH_other _ hne2]
    exact hitem2E
  have hitem2F : getH stF.store stC.store.length =
      some ⟨pyStrip n, none, [], none, true⟩ := by
    rw [hfrF.2 stC.store.length ?_]
    · exact hitem2M
    · show stC.store.length < (modifyH stE.store 0 _).length
      rw [modifyH_length]
      exact lt_of_lt_of_le (Nat.lt_succ_self _) hlenDE
  have hitem1B : getH (stA.store ++ [⟨pyStrip n, none, [], none, true⟩]) stA.store.length =
      some ⟨pyStrip n, none, [], none, true⟩ := getH_append_length stA.store _
  have hitem1C : getH stC.store stA.store.length =
      some ⟨pyStrip n, none, [], none, true⟩ := by
    rw [hfrC.2 stA.store.length (by simp)]
    exact hitem1B
  have hitem1E : getH stE.store stA.store.length =
      some ⟨pyStrip n, none, [], none, true⟩ := by
    rw [hfrE.2 stA.store.length (by simp [Nat.lt_succ_of_lt hlt12])]
    rw [getH_append_lt _ hlt12]
    exact hitem1C
  have hne1 : stA.store.length ≠ 0 := by omega
  have hitem1F : getH stF.store stA.store.length =
      some ⟨pyStrip n, none, [], none, true⟩ := by
    rw [hfrF.2 stA.store.length ?_]
    · rw [getH_modifyH_other _ hne1]
      exact hitem1E
    · show stA.store.length < (modifyH stE.store 0 _).length
      rw [modifyH_length]
      exact lt_of_lt_of_le (Nat.lt_succ_of_lt hlt12) hlenDE
  have hstrip := up_go_stripEq (fuel + 1)
    (modifyH stF.store stC.store.length
      (fun it => { it with children := it.children ++ js })) 0
  refine ⟨hlt12, ?_, ?_, ?_⟩
  · unfold parse_inventory_file
    rw [hpt]
    rfl
  · rw [childrenOf_of_stripEq hstrip]
    rw [getH_modifyH_self _ hitem2F]
    rfl
  · rw [childrenOf_of_stripEq hstrip]
    rw [getH_modifyH_other _ (Nat.ne_of_lt hlt12)]
    rw [hitem1F]
    rfl

def c8hA : HItem := ⟨"A".data, none, [], none, true⟩

def c8stC : PState := ⟨[rootItemH, c8hA], [("A".data, 1)]⟩

def c8stE : PState := ⟨[rootItemH, c8hA, c8hA], [("A".data, 2), ("A".data, 1)]⟩

def c8stF : PState :=
  ⟨[⟨"root".data, none, [1, 2], none, false⟩, c8hA, c8hA,
    ⟨"x".data, none, [], none, false⟩], [("A".data, 2), ("A".data, 1)]⟩

/-- Witness for `hoist_last_write_wins`: the document
`- [[#A]]`, `- [[#A]]`, `# A`, `- x`.  The second `[[#A]]` item (id 2)
receives the child `x` (id 3); the first (id 1) stays childless. -/
theorem hoist_last_write_wins_witness :
    (1 : Nat) < 2 ∧
    parse_inventory_file 2
      [TopNode.ul [PNode.li [PNode.ref "A".data], PNode.li [PNode.ref "A".data]],
       TopNode.h1 (pyStrip "A".data), TopNode.ul [PNode.li [PNode.nstr "x".data]]] =
      some (update_parents_go 2 (modifyH c8stF.store 2
        (fun it => { it with children := it.children ++ [3] })) 0) ∧
    (getH (update_parents_go 2 (modifyH c8stF.store 2
        (fun it => { it with children := it.children ++ [3] })) 0) 2).map HItem.children =
      some [3] ∧
    (getH (update_parents_go 2 (modifyH c8stF.store 2
        (fun it => { it with children := it.children ++ [3] })) 0) 1).map HItem.children =
      some [] :=
  hoist_last_write_wins 1 [] [] [] [PNode.li [PNode.nstr "x".data]] "A".data
    [] [] [] [3] initPState c8stC c8stE c8stF 1 2
    rfl rfl rfl rfl rfl rfl rfl

/- ===== Renderer embedding (common/parser.py lines 99-120) ===== -/

/-- The single line `render_item` writes for an item before its
newline: the indent tabs, `"- "`, the hoist token `[[#name]]` or the
raw name, and the optional ` [](uuid:<canonical>)` link. -/
def itemLine (i : Item) (depth : Nat) : Str :=
  List.replicate depth '\t' ++ "- ".data ++
    (if i.hoisted then "[[#".data ++ i.name ++ "]]".data else i.name) ++
    (match i.uuid with
     | some u => " [](uuid:".data ++ str_uuid u ++ [')']
     | none => [])

mutual

/-- `render_item` (common/parser.py lines 99-110): the item's line,
then - unless the item is hoisted - its children at depth+1. -/
def render_item : Item → Nat → Str
  | .mk nm u cs ho, depth =>
    itemLine (.mk nm u cs ho) depth ++ '\n' ::
      (if ho then [] else render_items cs (depth + 1))

def render_items : List Item → Nat → Str
  | [], _ => []
  | c :: cs, depth => render_item c depth ++ render_items cs depth

end

/-- One hoisted section of `save_inventory_file` (lines 117-120): a
blank line, the `# name` heading, then the item's children rendered
from depth 0. -/
def hoistSection (h : Item) : Str :=
  '\n' :: ("# ".data ++ h.name) ++ '\n' :: render_items h.children 0

def joinStr (l : List Str) : Str := l.foldr (· ++ ·) []

/-- `save_inventory_file` (common/parser.py lines 113-120): the root's
children, then a section for every hoisted item in breadth-first
`flatten` order. -/
def save_inventory_file (root : Item) : Str :=
  render_items root.children 0 ++
    joinStr (((flatten root false).filter Item.hoisted).map hoistSection)

/- ===== Markup converter (spec-modelled) =====

The conversion from document text to the attributed-node soup is done
by external libraries (python-markdown with the hoist inline extension
and nl2br, then BeautifulSoup); spec.md treats it as an external
collaborator whose grammar is assumed.  The definitions below model,
from the spec's words, the fragment of that grammar the document format
uses: tab-indented `- ` lines forming nested unordered lists, `# `
level-1 heading lines, blank separator lines, the inline hoist token
`\x5b\x5b#Name]]` (greedy inner match of at least one character), and the
inline empty-link token `\x5b](target)`. -/

/-- Structural prefix test (`List.isPrefixOf` restated so that it
definitionally reduces on literal patterns). -/
def pfxB : Str → Str → Bool
  | [], _ => true
  | _ :: _, [] => false
  | p :: ps, c :: cs => p == c && pfxB ps cs

theorem pfxB_correct (p : Str) : ∀ l : Str, pfxB p l = true ↔ p <+: l := by
  induction p with
  | nil => intro l; simp [pfxB, List.nil_prefix]
  | cons x xs ih =>
    intro l
    cases l with
    | nil => simp [pfxB]
    | cons y ys =>
      simp only [pfxB, Bool.and_eq_true, beq_iff_eq, List.cons_prefix_cons, ih]

/-- Modelled from the spec: the document text is a sequence of
newline-terminated lines. -/
def splitLines : Str → List Str
  | [] => [[]]
  | c :: rest =>
    if c = '\n' then [] :: splitLines rest
    else
      match splitLines rest with
      | [] => [[c]]
      | l :: ls => (c :: l) :: ls

/-- Index of the first occurrence of `pat` in a string. -/
def firstIdx (pat : Str) : Str → Option Nat
  | [] => if pat.isEmpty then some 0 else none
  | c :: rest =>
    if pfxB pat (c :: rest) then some 0 else (firstIdx pat rest).map (· + 1)

/-- Index of the last occurrence of `pat` in a string. -/
def lastIdx (pat : Str) : Str → Option Nat
  | [] => if pat.isEmpty then some 0 else none
  | c :: rest =>
    match lastIdx pat rest with
    | some i => some (i + 1)
    | none => if pfxB pat (c :: rest) then some 0 else none

/-- Modelled from the spec: inline tokenization of the link vocabulary.
Each empty-link token `\x5b](target)` becomes a hyperlink node carrying
`target`; the text around the tokens becomes plain text nodes. -/
def linkParts : Nat → Str → List PNode
  | 0, c => if c.isEmpty then [] else [PNode.nstr c]
  | fuel + 1, c =>
    match firstIdx "[](".data c with
    | none => if c.isEmpty then [] else [PNode.nstr c]
    | some i =>
      match firstIdx [')'] (c.drop (i + 3)) with
      | none => if c.isEmpty then [] else [PNode.nstr c]
      | some k =>
        (if (c.take i).isEmpty then [] else [PNode.nstr (c.take i)]) ++
          PNode.link ((c.drop (i + 3)).take k) ::
            linkParts fuel ((c.drop (i + 3)).drop (k + 1))

/-- Modelled from the spec: the markup converter recognizes the inline
token `\x5b\x5b#Name]]` as a hoist-reference node.  The inner name is
matched greedily (from the first `\x5b\x5b#` to the last `]]`) and must be
at least one character; without a match the line is link/text
vocabulary only. -/
def inlineParts (fuel : Nat) (c : Str) : List PNode :=
  match firstIdx "[[#".data c, lastIdx "]]".data c with
  | some i, some j =>
    if i + 3 < j then
      linkParts fuel (c.take i) ++
        PNode.ref ((c.drop (i + 3)).take (j - (i + 3))) ::
          linkParts fuel (c.drop (j + 2))
    else linkParts fuel c
  | _, _ => linkParts fuel c

/-- Modelled from the spec: a line of only whitespace separates
blocks. -/
def isBlankLine (l : Str) : Bool := l.all pySpace

/-- Modelled from the spec: a list-item line is leading tabs (one per
nesting level) followed by `- `; yields the depth and the content. -/
def liContent (l : Str) : Option (Nat × Str) :=
  let tabs := l.takeWhile (· == '\t')
  let rest := l.drop tabs.length
  if pfxB "- ".data rest then some (tabs.length, rest.drop 2) else none

/-- Modelled from the spec: a level-1 heading line is `# ` followed by
the heading text (whitespace-trimmed). -/
def h1Content (l : Str) : Option Str :=
  if pfxB "# ".data l then some (pyStrip (l.drop 2)) else none

/-- Modelled from the spec: a run of list-item lines becomes a nested
unordered list; a line indented deeper than the current level starts a
sublist inside the previous item. -/
def buildUl : Nat → Nat → List (Nat × Str) → List PNode
  | 0, _, _ => [PNode.otherTag]
  | _, _, [] => []
  | fuel + 1, d, (d0, c) :: rest =>
    if d0 = d then
      PNode.li (inlineParts fuel c ++
        (if (rest.takeWhile (fun p => d < p.1)).isEmpty then []
         else [PNode.ulist (buildUl fuel (d + 1) (rest.takeWhile (fun p => d < p.1)))])) ::
        buildUl fuel d (rest.dropWhile (fun p => d < p.1))
    else [PNode.otherTag]

/-- Modelled from the spec: the document's top level alternates list
blocks and level-1 headings, with blank lines separating blocks;
anything else is an unknown node. -/
def groupTop : Nat → List Str → List TopNode
  | 0, _ => [TopNode.otherNode]
  | _, [] => []
  | fuel + 1, l :: rest =>
    if isBlankLine l then groupTop fuel rest
    else
      match h1Content l with
      | some t => TopNode.h1 t :: groupTop fuel rest
      | none =>
        match liContent l with
        | some _ =>
          TopNode.ul (buildUl fuel 0
            (((l :: rest).takeWhile (fun x => (liContent x).isSome)).filterMap liContent)) ::
            groupTop fuel ((l :: rest).dropWhile (fun x => (liContent x).isSome))
        | none => TopNode.otherNode :: groupTop fuel rest

/-- Modelled from the spec: the markup converter, text to top-level
node sequence. -/
def markdownToDoc (fuel : Nat) (text : Str) : List TopNode :=
  groupTop fuel (splitLines text)

def c1s0 : Store :=
  [⟨"root".data, none, [1], none, false⟩, ⟨[], none, [], some 0, true⟩]

def c1T0 : Item := .mk "root".data none [.mk [] none [] true] false

/-- **C1 counterexample.**  The one-line document `- [[# ]]` parses to
a tree with a single hoisted item whose name strips to the empty
string - a parser-produced tree in which no name is used by more than
one hoist reference.  Rendering it emits `- [[#]]`: the hoist token's
inner name is now empty, so on re-parse the token is not recognized
(the converter's greedy match requires at least one inner character),
the line becomes a plain item named `[[#]]`, no hoist is registered,
and the re-parse fails with a `KeyError` at the heading `# ` - no tree
equal to the original is produced. -/
theorem parse_render_round_trip_counterexample :
    markdownToDoc 32 "- [[# ]]\n".data = [TopNode.ul [PNode.li [PNode.ref " ".data]]] ∧
    parse_inventory_file 2 [TopNode.ul [PNode.li [PNode.ref " ".data]]] = some c1s0 ∧
    readout c1s0 2 0 = some c1T0 ∧
    (((flatten c1T0 false).filter Item.hoisted).map Item.name).Nodup ∧
    save_inventory_file c1T0 = "- [[#]]\n\n# \n".data ∧
    markdownToDoc 32 (save_inventory_file c1T0) =
      [TopNode.ul [PNode.li [PNode.nstr "[[#]]".data]], TopNode.h1 []] ∧
    parse_inventory_file 32 (markdownToDoc 32 (save_inventory_file c1T0)) = none := by
  have h4 : save_inventory_file c1T0 = "- [[#]]\n\n# \n".data := by
    simp [save_inventory_file, flatten, flattenGo, render_items, render_item, itemLine,
      hoistSection, joinStr, c1T0, Item.hoisted, Item.children, Item.name, Item.uuid]
  refine ⟨by rfl, by decide, by rfl, ?_, h4, by rw [h4]; rfl, by rw [h4]; decide⟩
  simp [flatten, flattenGo, c1T0, Item.hoisted, Item.children, Item.name]

/- ===== Round-trip lemma suite ===== -/

/-- Characters that keep a name inert for the document grammar: no
newline, tab, bracket, hash or parenthesis. -/
def cleanChar (ch : Char) : Bool :=
  !(ch == '\n' || ch == '\t' || ch == '[' || ch == ']' || ch == '#' ||
    ch == '(' || ch == ')')

theorem cleanChar_ne {ch : Char} (hc : cleanChar ch = true) :
    ch ≠ '\n' ∧ ch ≠ '\t' ∧ ch ≠ '[' ∧ ch ≠ ']' ∧ ch ≠ '#' ∧ ch ≠ '(' ∧ ch ≠ ')' := by
  simp only [cleanChar, Bool.not_eq_true', Bool.or_eq_false_iff, beq_eq_false_iff_ne,
    ne_eq] at hc
  exact ⟨hc.1.1.1.1.1.1, hc.1.1.1.1.1.2, hc.1.1.1.1.2, hc.1.1.1.2, hc.1.1.2, hc.1.2, hc.2⟩

theorem str_uuid_clean (n : Nat) : ∀ ch ∈ str_uuid n, cleanChar ch = true := by
  intro ch hc
  rcases mem_hyphenate hc with rfl | hm
  · decide
  · obtain ⟨d, hd, rfl⟩ := mem_uuidHex hm
    interval_cases d <;> decide

attribute [irreducible] str_uuid

theorem splitLines_flat {xs : Str} (hx : ∀ ch ∈ xs, ch ≠ '\n') (s : Str) :
    splitLines (xs ++ '\n' :: s) = xs :: splitLines s := by
  induction xs with
  | nil => rfl
  | cons x xs ih =>
    have hx2 : ∀ ch ∈ xs, ch ≠ '\n' := fun ch hm => hx ch (List.mem_cons_of_mem _ hm)
    show (if x = '\n' then [] :: splitLines (xs ++ '\n' :: s)
      else match splitLines (xs ++ '\n' :: s) with
        | [] => [[x]]
        | l :: ls => (x :: l) :: ls) = (x :: xs) :: splitLines s
    rw [if_neg (hx x (List.mem_cons_self _ _)), ih hx2]

theorem pfxB_mem {pat l : Str} (hp : pfxB pat l = true) :
    ∀ p ∈ pat, p ∈ l := by
  rw [pfxB_correct] at hp
  exact fun p hm => hp.subset hm

theorem firstIdx_none_of_not_mem {p : Char} {pat l : Str} (hp : p ∈ pat)
    (h : ∀ ch ∈ l, ch ≠ p) : firstIdx pat l = none := by
  induction l with
  | nil =>
    unfold firstIdx
    rw [if_neg]
    intro he
    rw [List.isEmpty_iff] at he
    rw [he] at hp
    exact absurd hp (List.not_mem_nil p)
  | cons x rest ih =>
    unfold firstIdx
    rw [if_neg, ih (fun ch hm => h ch (List.mem_cons_of_mem _ hm))]
    · rfl
    · intro hpre
      exact h p (pfxB_mem hpre p hp) rfl

theorem firstIdx_append_shift {p0 : Char} {pat' : Str} {xs : Str}
    (hx : ∀ ch ∈ xs, ch ≠ p0) (s : Str) :
    firstIdx (p0 :: pat') (xs ++ s) = (firstIdx (p0 :: pat') s).map (· + xs.length) := by
  induction xs with
  | nil =>
    show firstIdx (p0 :: pat') s = _
    cases firstIdx (p0 :: pat') s with
    | none => rfl
    | some i => simp
  | cons x rest ih =>
    have hx2 : ∀ ch ∈ rest, ch ≠ p0 := fun ch hm => hx ch (List.mem_cons_of_mem _ hm)
    show (if pfxB (p0 :: pat') (x :: (rest ++ s)) = true then some 0
      else (firstIdx (p0 :: pat') (rest ++ s)).map (· + 1)) = _
    rw [if_neg, ih hx2]
    · cases firstIdx (p0 :: pat') s with
      | none => rfl
      | some i =>
        simp only [Option.map_some', Option.some.injEq, List.length_cons]
        omega
    · intro hpre
      refine hx x (List.mem_cons_self _ _) ?_
      rw [pfxB_correct] at hpre
      rcases hpre with ⟨t, ht⟩
      have ht2 : p0 :: (pat' ++ t) = x :: (rest ++ s) := ht
      exact (((List.cons.injEq _ _ _ _).mp ht2).1).symm

theorem lastIdx_append_found {pat : Str} {s : Str} {i : Nat}
    (h : lastIdx pat s = some i) (xs : Str) :
    lastIdx pat (xs ++ s) = some (xs.length + i) := by
  induction xs with
  | nil => simpa using h
  | cons x rest ih =>
    show (match lastIdx pat (rest ++ s) with
      | some i => some (i + 1)
      | none => if pfxB pat (x :: (rest ++ s)) = true then some 0 else none) = _
    rw [ih]
    show some (rest.length + i + 1) = some ((x :: rest).length + i)
    simp only [List.length_cons]
    exact congrArg some (by omega)

theorem pyStrip_append_space (a : Str) : pyStrip (a ++ [' ']) = pyStrip a := by
  unfold pyStrip
  rw [List.reverse_append]
  show ((List.dropWhile pySpace (' ' :: a.reverse)).reverse).dropWhile pySpace = _
  rw [List.dropWhile_cons_of_pos (by decide)]

theorem ne_nil_isEmpty_false {α : Type} {l : List α} (h : l ≠ []) :
    l.isEmpty = false := by
  cases l with
  | nil => exact absurd rfl h
  | cons x xs => rfl

theorem take_len_add {α : Type} (l1 l2 : List α) (k : Nat) :
    List.take (l1.length + k) (l1 ++ l2) = l1 ++ List.take k l2 := by
  simp [List.take_append_eq_append_take]

theorem drop_len_add {α : Type} (l1 l2 : List α) (k : Nat) :
    List.drop (l1.length + k) (l1 ++ l2) = List.drop k l2 := by
  simp [List.drop_append_eq_append_drop]

theorem firstIdx_self_prefix (p0 : Char) (pat' rest : Str) :
    firstIdx (p0 :: pat') ((p0 :: pat') ++ rest) = some 0 := by
  have hp : pfxB (p0 :: pat') (p0 :: (pat' ++ rest)) = true := by
    rw [pfxB_correct]
    exact ⟨rest, rfl⟩
  show (if pfxB (p0 :: pat') (p0 :: (pat' ++ rest)) = true then some 0
    else (firstIdx (p0 :: pat') (pat' ++ rest)).map (· + 1)) = some 0
  rw [hp]
  rfl

theorem pfxB_cons_ne {p0 : Char} (pat' : Str) {c : Char} (rest : Str)
    (h : c ≠ p0) : pfxB (p0 :: pat') (c :: rest) = false := by
  rw [Bool.eq_false_iff]
  intro hp
  rw [pfxB_correct] at hp
  rcases hp with ⟨t, ht⟩
  have ht2 : p0 :: (pat' ++ t) = c :: rest := ht
  exact h ((List.cons.injEq _ _ _ _).mp ht2).1.symm

theorem firstIdx_cons_neg {pat : Str} {ch : Char} {rest : Str}
    (h : pfxB pat (ch :: rest) = false) :
    firstIdx pat (ch :: rest) = (firstIdx pat rest).map (· + 1) := by
  show (if pfxB pat (ch :: rest) = true then some 0
    else (firstIdx pat rest).map (· + 1)) = _
  rw [h]
  rfl

theorem linkParts_nil (fuel : Nat) : linkParts fuel [] = [] := by
  cases fuel with
  | zero => rfl
  | succ fuel => rfl

theorem linkParts_nolink {x : Str} (hx0 : x ≠ []) (hlb : ∀ ch ∈ x, ch ≠ '[')
    (fuel : Nat) : linkParts fuel x = [PNode.nstr x] := by
  cases fuel with
  | zero =>
    show (if x.isEmpty then [] else [PNode.nstr x]) = _
    rw [ne_nil_isEmpty_false hx0]
    rfl
  | succ fuel =>
    show (match firstIdx "[](".data x with
      | none => if x.isEmpty then [] else [PNode.nstr x]
      | some i => _) = _
    rw [firstIdx_none_of_not_mem (show '[' ∈ "[](".data by decide) hlb,
      ne_nil_isEmpty_false hx0]
    rfl

/-- A clean line with no token is a single text node. -/
theorem inlineParts_plain {x : Str} (hx0 : x ≠ []) (hlb : ∀ ch ∈ x, ch ≠ '[')
    (fuel : Nat) : inlineParts fuel x = [PNode.nstr x] := by
  unfold inlineParts
  rw [firstIdx_none_of_not_mem (show '[' ∈ "[[#".data by decide) hlb]
  exact linkParts_nolink hx0 hlb fuel

/-- A clean name followed by a single empty-link token tokenizes to the
text (with its separating space) and the hyperlink node. -/
theorem inlineParts_link {x href : Str} (hx0 : x ≠ [])
    (hxlb : ∀ ch ∈ x, ch ≠ '[') (hxh : ∀ ch ∈ x, ch ≠ '#')
    (hhlb : ∀ ch ∈ href, ch ≠ '[') (hhh : ∀ ch ∈ href, ch ≠ '#')
    (hhrp : ∀ ch ∈ href, ch ≠ ')') (fuel : Nat) :
    inlineParts (fuel + 1) (x ++ (" [](".data ++ (href ++ [')']))) =
      [PNode.nstr (x ++ [' ']), PNode.link href] := by
  have hnohash : ∀ ch ∈ x ++ (" [](".data ++ (href ++ [')'])), ch ≠ '#' := by
    intro ch hm
    rcases List.mem_append.mp hm with hm1 | hm2
    · exact hxh ch hm1
    · rcases List.mem_append.mp hm2 with hm3 | hm4
      · intro he; subst he; exact absurd hm3 (by decide)
      · rcases List.mem_append.mp hm4 with hm5 | hm6
        · exact hhh ch hm5
        · intro he; subst he; exact absurd hm6 (by decide)
  have h2 : firstIdx "[](".data ("[](".data ++ (href ++ [')'])) = some 0 :=
    firstIdx_self_prefix '[' [']', '('] (href ++ [')'])
  have h1 : firstIdx "[](".data (" [](".data ++ (href ++ [')'])) = some 1 := by
    show firstIdx "[](".data (' ' :: ("[](".data ++ (href ++ [')']))) = some 1
    rw [firstIdx_cons_neg (pfxB_cons_ne _ _ (by decide)), h2]
    rfl
  have hfirst : firstIdx "[](".data (x ++ (" [](".data ++ (href ++ [')']))) =
      some (1 + x.length) := by
    have hsh := @firstIdx_append_shift '[' [']', '('] x
      hxlb (" [](".data ++ (href ++ [')']))
    rw [show firstIdx "[](".data (x ++ (" [](".data ++ (href ++ [')']))) =
        (firstIdx "[](".data (" [](".data ++ (href ++ [')']))).map (· + x.length)
      from hsh, h1]
    rfl
  have hdrop : (x ++ (" [](".data ++ (href ++ [')']))).drop (1 + x.length + 3) =
      href ++ [')'] := by
    have hsh : 1 + x.length + 3 = x.length + 4 := by omega
    rw [hsh, drop_len_add]
    rfl
  have hk : firstIdx [')'] (href ++ [')']) = some (0 + href.length) := by
    have hsh := @firstIdx_append_shift ')' [] href hhrp [')']
    rw [show firstIdx [')'] (href ++ [')']) =
        (firstIdx [')'] [')']).map (· + href.length) from hsh]
    rfl
  have htake : (x ++ (" [](".data ++ (href ++ [')']))).take (1 + x.length) =
      x ++ [' '] := by
    have hsh : 1 + x.length = x.length + 1 := by omega
    rw [hsh, take_len_add]
    rfl
  have htk2 : (href ++ [')']).take (0 + href.length) = href := by
    rw [Nat.zero_add, List.take_left]
  have hdr2 : (href ++ [')']).drop (0 + href.length + 1) = ([] : Str) := by
    rw [Nat.zero_add, drop_len_add]
    rfl
  have hie : (x ++ [' ']).isEmpty = false := ne_nil_isEmpty_false (by simp)
  unfold inlineParts
  rw [firstIdx_none_of_not_mem (show '#' ∈ "[[#".data by decide) hnohash]
  show (match firstIdx "[](".data (x ++ (" [](".data ++ (href ++ [')']))) with
    | none => if (x ++ (" [](".data ++ (href ++ [')']))).isEmpty then []
        else [PNode.nstr (x ++ (" [](".data ++ (href ++ [')'])))]
    | some i =>
      match firstIdx [')'] ((x ++ (" [](".data ++ (href ++ [')']))).drop (i + 3)) with
      | none => if (x ++ (" [](".data ++ (href ++ [')']))).isEmpty then []
          else [PNode.nstr (x ++ (" [](".data ++ (href ++ [')'])))]
      | some k =>
        (if ((x ++ (" [](".data ++ (href ++ [')']))).take i).isEmpty then []
         else [PNode.nstr ((x ++ (" [](".data ++ (href ++ [')']))).take i)]) ++
          PNode.link (((x ++ (" [](".data ++ (href ++ [')']))).drop (i + 3)).take k) ::
            linkParts fuel (((x ++ (" [](".data ++ (href ++ [')']))).drop (i + 3)).drop
              (k + 1))) = _
  simp only [hfirst, hdrop, hk, htake, htk2, hdr2, hie, linkParts_nil]
  rfl

/-- A hoist token with a nonempty inner name tokenizes to a single
hoist-reference node. -/
theorem inlineParts_hoist {x : Str} (hx0 : x ≠ []) (fuel : Nat) :
    inlineParts fuel ("[[#".data ++ (x ++ "]]".data)) = [PNode.ref x] := by
  have hi : firstIdx "[[#".data ("[[#".data ++ (x ++ "]]".data)) = some 0 := by
    exact firstIdx_self_prefix '[' ['[', '#'] (x ++ "]]".data)
  have hj : lastIdx "]]".data ("[[#".data ++ (x ++ "]]".data)) =
      some (("[[#".data ++ x).length + 0) := by
    have hshape : "[[#".data ++ (x ++ "]]".data) = ("[[#".data ++ x) ++ "]]".data := by
      rw [List.append_assoc]
    rw [hshape]
    exact lastIdx_append_found (by rfl) _
  have hlen : ("[[#".data ++ x).length + 0 = x.length + 3 := by
    simp
  have hdr : ("[[#".data ++ (x ++ "]]".data)).drop (0 + 3) = x ++ "]]".data := rfl
  have htk : (x ++ "]]".data).take (x.length + 3 - (0 + 3)) = x := by
    have hsh : x.length + 3 - (0 + 3) = x.length := by omega
    rw [hsh, List.take_left]
  have htk0 : ("[[#".data ++ (x ++ "]]".data)).take 0 = ([] : Str) := rfl
  have hdr2 : ("[[#".data ++ (x ++ "]]".data)).drop (x.length + 3 + 2) = ([] : Str) := by
    have hshape : "[[#".data ++ (x ++ "]]".data) = ("[[#".data ++ x) ++ "]]".data := by
      rw [List.append_assoc]
    have hlen2 : x.length + 3 + 2 = ("[[#".data ++ x).length + 2 := by
      have h5 : ("[[#".data ++ x).length = 3 + x.length := by
        simp
        omega
      omega
    rw [hshape, hlen2, drop_len_add]
    rfl
  have hxlen : 0 < x.length := List.length_pos.mpr hx0
  unfold inlineParts
  rw [hi, hj]
  simp only [hlen]
  rw [if_pos (show 0 + 3 < x.length + 3 by omega)]
  rw [hdr, htk, htk0, hdr2, linkParts_nil]
  rfl

theorem groupTop_nil (fuel : Nat) : groupTop (fuel + 1) [] = [] := rfl

theorem groupTop_blank {l : Str} (h : isBlankLine l = true) (fuel : Nat)
    (rest : List Str) : groupTop (fuel + 1) (l :: rest) = groupTop fuel rest := by
  show (if isBlankLine l = true then groupTop fuel rest
    else match h1Content l with
      | some t => TopNode.h1 t :: groupTop fuel rest
      | none =>
        match liContent l with
        | some _ =>
          TopNode.ul (buildUl fuel 0
            (((l :: rest).takeWhile (fun x => (liContent x).isSome)).filterMap liContent)) ::
            groupTop fuel ((l :: rest).dropWhile (fun x => (liContent x).isSome))
        | none => TopNode.otherNode :: groupTop fuel rest) = groupTop fuel rest
  rw [h]
  rfl

theorem groupTop_h1 {l : Str} {t : Str} (hb : isBlankLine l = false)
    (hh : h1Content l = some t) (fuel : Nat) (rest : List Str) :
    groupTop (fuel + 1) (l :: rest) = TopNode.h1 t :: groupTop fuel rest := by
  show (if isBlankLine l = true then groupTop fuel rest
    else match h1Content l with
      | some t => TopNode.h1 t :: groupTop fuel rest
      | none =>
        match liContent l with
        | some _ =>
          TopNode.ul (buildUl fuel 0
            (((l :: rest).takeWhile (fun x => (liContent x).isSome)).filterMap liContent)) ::
            groupTop fuel ((l :: rest).dropWhile (fun x => (liContent x).isSome))
        | none => TopNode.otherNode :: groupTop fuel rest) = _
  rw [hb, hh]
  rfl

theorem groupTop_li {l : Str} {dc : Nat × Str} (hb : isBlankLine l = false)
    (hh : h1Content l = none) (hl : liContent l = some dc) (fuel : Nat)
    (rest : List Str) :
    groupTop (fuel + 1) (l :: rest) =
      TopNode.ul (buildUl fuel 0
        (((l :: rest).takeWhile (fun x => (liContent x).isSome)).filterMap liContent)) ::
        groupTop fuel ((l :: rest).dropWhile (fun x => (liContent x).isSome)) := by
  show (if isBlankLine l = true then groupTop fuel rest
    else match h1Content l with
      | some t => TopNode.h1 t :: groupTop fuel rest
      | none =>
        match liContent l with
        | some _ =>
          TopNode.ul (buildUl fuel 0
            (((l :: rest).takeWhile (fun x => (liContent x).isSome)).filterMap liContent)) ::
            groupTop fuel ((l :: rest).dropWhile (fun x => (liContent x).isSome))
        | none => TopNode.otherNode :: groupTop fuel rest) = _
  rw [hb, hh, hl]
  rfl

theorem buildUl_nil (fuel d : Nat) : buildUl (fuel + 1) d [] = [] := rfl

theorem buildUl_step (fuel d : Nat) (cnt : Str) (rest : List (Nat × Str)) :
    buildUl (fuel + 1) d ((d, cnt) :: rest) =
      PNode.li (inlineParts fuel cnt ++
        (if (rest.takeWhile (fun p => d < p.1)).isEmpty then []
         else [PNode.ulist (buildUl fuel (d + 1) (rest.takeWhile (fun p => d < p.1)))])) ::
        buildUl fuel d (rest.dropWhile (fun p => d < p.1)) := by
  show (if d = d then
      PNode.li (inlineParts fuel cnt ++
        (if (rest.takeWhile (fun p => d < p.1)).isEmpty then []
         else [PNode.ulist (buildUl fuel (d + 1) (rest.takeWhile (fun p => d < p.1)))])) ::
        buildUl fuel d (rest.dropWhile (fun p => d < p.1))
    else [PNode.otherTag]) = _
  rw [if_pos rfl]

/- ===== The round-trip family =====

A five-item tree exercising nesting, an identifier and a hoisted item:
root > [A (uuid, child B), H (hoisted, child C)]. -/

def rtTree (a b c h : Str) (u : Nat) : Item :=
  .mk "root".data none
    [.mk a (some u) [.mk b none [] false] false,
     .mk h none [.mk c none [] false] true] false

def rtContentA (a : Str) (u : Nat) : Str :=
  a ++ (" [](".data ++ (("uuid:".data ++ str_uuid u) ++ [')']))

def rtLineA (a : Str) (u : Nat) : Str := "- ".data ++ rtContentA a u

def rtLineB (b : Str) : Str := "\t- ".data ++ b

def rtContentH (h : Str) : Str := "[[#".data ++ (h ++ "]]".data)

def rtLineH (h : Str) : Str := "- ".data ++ rtContentH h

def rtLineH1 (h : Str) : Str := "# ".data ++ h

def rtLineC (c : Str) : Str := "- ".data ++ c

/-- The soup the converter produces for the family's rendered text. -/
def rtDoc (a b c h : Str) (u : Nat) : List TopNode :=
  [TopNode.ul
    [PNode.li [PNode.nstr (a ++ [' ']), PNode.link ("uuid:".data ++ str_uuid u),
      PNode.ulist [PNode.li [PNode.nstr b]]],
     PNode.li [PNode.ref h]],
   TopNode.h1 h,
   TopNode.ul [PNode.li [PNode.nstr c]]]

theorem rtGroup_eval (a b c h : Str) (u : Nat)
    (ha0 : a ≠ []) (hb0 : b ≠ []) (hc0 : c ≠ []) (hh0 : h ≠ [])
    (hhs : pyStrip h = h)
    (haC : ∀ ch ∈ a, cleanChar ch = true) (hbC : ∀ ch ∈ b, cleanChar ch = true)
    (hcC : ∀ ch ∈ c, cleanChar ch = true) :
    groupTop 16 [rtLineA a u, rtLineB b, rtLineH h, [], rtLineH1 h, rtLineC c, []] =
      rtDoc a b c h u := by
  have hne := fun ch hm => cleanChar_ne (haC ch hm)
  have hneB := fun ch hm => cleanChar_ne (hbC ch hm)
  have hneC := fun ch hm => cleanChar_ne (hcC ch hm)
  -- line classification facts
  have fA1 : isBlankLine (rtLineA a u) = false := rfl
  have fA2 : h1Content (rtLineA a u) = none := rfl
  have fA3 : liContent (rtLineA a u) = some (0, rtContentA a u) := rfl
  have fB3 : liContent (rtLineB b) = some (1, b) := rfl
  have fH3 : liContent (rtLineH h) = some (0, rtContentH h) := rfl
  have fE1 : isBlankLine ([] : Str) = true := rfl
  have fH11 : isBlankLine (rtLineH1 h) = false := rfl
  have fH12 : h1Content (rtLineH1 h) = some (pyStrip h) := rfl
  have fC1 : isBlankLine (rtLineC c) = false := rfl
  have fC2 : h1Content (rtLineC c) = none := rfl
  have fC3 : liContent (rtLineC c) = some (0, c) := rfl
  -- the first list run
  have hrunA : ([rtLineA a u, rtLineB b, rtLineH h, [], rtLineH1 h, rtLineC c,
      ([] : Str)].takeWhile (fun x => (liContent x).isSome)) =
      [rtLineA a u, rtLineB b, rtLineH h] := by
    rw [List.takeWhile_cons_of_pos (by rw [fA3]; rfl),
      List.takeWhile_cons_of_pos (by rw [fB3]; rfl),
      List.takeWhile_cons_of_pos (by rw [fH3]; rfl),
      List.takeWhile_cons_of_neg (by rw [show liContent ([] : Str) = none from rfl]; simp)]
  have hdropA : ([rtLineA a u, rtLineB b, rtLineH h, [], rtLineH1 h, rtLineC c,
      ([] : Str)].dropWhile (fun x => (liContent x).isSome)) =
      [[], rtLineH1 h, rtLineC c, []] := by
    rw [List.dropWhile_cons_of_pos (by rw [fA3]; rfl),
      List.dropWhile_cons_of_pos (by rw [fB3]; rfl),
      List.dropWhile_cons_of_pos (by rw [fH3]; rfl),
      List.dropWhile_cons_of_neg (by rw [show liContent ([] : Str) = none from rfl]; simp)]
  have hfmA : ([rtLineA a u, rtLineB b, rtLineH h].filterMap liContent) =
      [(0, rtContentA a u), (1, b), (0, rtContentH h)] := by
    simp only [List.filterMap_cons, fA3, fB3, fH3, List.filterMap_nil]
  -- the second list run
  have hrunC : ([rtLineC c, ([] : Str)].takeWhile (fun x => (liContent x).isSome)) =
      [rtLineC c] := by
    rw [List.takeWhile_cons_of_pos (by rw [fC3]; rfl),
      List.takeWhile_cons_of_neg (by rw [show liContent ([] : Str) = none from rfl]; simp)]
  have hdropC : ([rtLineC c, ([] : Str)].dropWhile (fun x => (liContent x).isSome)) =
      [([] : Str)] := by
    rw [List.dropWhile_cons_of_pos (by rw [fC3]; rfl),
      List.dropWhile_cons_of_neg (by rw [show liContent ([] : Str) = none from rfl]; simp)]
  have hfmC : ([rtLineC c].filterMap liContent) = [(0, c)] := by
    simp only [List.filterMap_cons, fC3, List.filterMap_nil]
  -- the nested list build
  have hbuildA : buildUl 15 0 [(0, rtContentA a u), (1, b), (0, rtContentH h)] =
      [PNode.li [PNode.nstr (a ++ [' ']), PNode.link ("uuid:".data ++ str_uuid u),
        PNode.ulist [PNode.li [PNode.nstr b]]],
       PNode.li [PNode.ref h]] := by
    show PNode.li (inlineParts 14
        (a ++ (" [](".data ++ (("uuid:".data ++ str_uuid u) ++ [')']))) ++
        [PNode.ulist [PNode.li (inlineParts 13 b ++ [])]]) ::
      PNode.li (inlineParts 13 ("[[#".data ++ (h ++ "]]".data)) ++ []) ::
      ([] : List PNode) = _
    rw [inlineParts_plain hb0 (fun ch hm => (hneB ch hm).2.2.1) 13,
      inlineParts_hoist hh0 13]
    rw [inlineParts_link ha0 (fun ch hm => (hne ch hm).2.2.1)
      (fun ch hm => (hne ch hm).2.2.2.2.1)
      (by
        intro ch hm
        rcases List.mem_append.mp hm with hm1 | hm2
        · intro he; subst he; exact absurd hm1 (by decide)
        · exact (cleanChar_ne (str_uuid_clean u ch hm2)).2.2.1)
      (by
        intro ch hm
        rcases List.mem_append.mp hm with hm1 | hm2
        · intro he; subst he; exact absurd hm1 (by decide)
        · exact (cleanChar_ne (str_uuid_clean u ch hm2)).2.2.2.2.1)
      (by
        intro ch hm
        rcases List.mem_append.mp hm with hm1 | hm2
        · intro he; subst he; exact absurd hm1 (by decide)
        · exact (cleanChar_ne (str_uuid_clean u ch hm2)).2.2.2.2.2.2)
      13]
    rfl
  have hbuildC : buildUl 12 0 [(0, c)] = [PNode.li [PNode.nstr c]] := by
    show PNode.li (inlineParts 11 c ++ []) :: ([] : List PNode) = _
    rw [inlineParts_plain hc0 (fun ch hm => (hneC ch hm).2.2.1) 11]
    rfl
  -- assemble
  rw [groupTop_li fA1 fA2 fA3, hrunA, hdropA, hfmA, hbuildA,
    groupTop_blank fE1, groupTop_h1 fH11 fH12, hhs,
    groupTop_li fC1 fC2 fC3, hrunC, hdropC, hfmC, hbuildC,
    groupTop_blank fE1, groupTop_nil]
  rfl

theorem noNl_append {s t : Str} (hs : ∀ ch ∈ s, ch ≠ '\n') (ht : ∀ ch ∈ t, ch ≠ '\n') :
    ∀ ch ∈ s ++ t, ch ≠ '\n' := by
  intro ch hm
  rcases List.mem_append.mp hm with hmm | hmm
  · exact hs ch hmm
  · exact ht ch hmm

theorem splitLines_nl (s : Str) : splitLines ('\n' :: s) = [] :: splitLines s := rfl

theorem rtFlat (a b c h : Str) (u : Nat) :
    flatten (rtTree a b c h u) false =
      [rtTree a b c h u,
       .mk a (some u) [.mk b none [] false] false,
       .mk h none [.mk c none [] false] true,
       .mk b none [] false,
       .mk c none [] false] := by
  simp [flatten, flattenGo, rtTree, Item.children]

theorem noNl_of_clean {s : Str} (hC : ∀ ch ∈ s, cleanChar ch = true) :
    ∀ ch ∈ s, ch ≠ '\n' := fun ch hm => (cleanChar_ne (hC ch hm)).1

set_option maxHeartbeats 1600000 in
theorem rtSplit_eval (a b c h : Str) (u : Nat)
    (haC : ∀ ch ∈ a, cleanChar ch = true) (hbC : ∀ ch ∈ b, cleanChar ch = true)
    (hcC : ∀ ch ∈ c, cleanChar ch = true) (hhC : ∀ ch ∈ h, cleanChar ch = true) :
    splitLines (save_inventory_file (rtTree a b c h u)) =
      [rtLineA a u, rtLineB b, rtLineH h, [], rtLineH1 h, rtLineC c, []] := by
  have d1 : ∀ ch ∈ "- ".data, ch ≠ '\n' := by decide
  have d2 : ∀ ch ∈ " [](".data, ch ≠ '\n' := by decide
  have d3 : ∀ ch ∈ "uuid:".data, ch ≠ '\n' := by decide
  have d4 : ∀ ch ∈ ([')'] : Str), ch ≠ '\n' := by decide
  have d5 : ∀ ch ∈ "\t- ".data, ch ≠ '\n' := by decide
  have d6 : ∀ ch ∈ "[[#".data, ch ≠ '\n' := by decide
  have d7 : ∀ ch ∈ "]]".data, ch ≠ '\n' := by decide
  have d8 : ∀ ch ∈ "# ".data, ch ≠ '\n' := by decide
  have hnlA : ∀ ch ∈ rtLineA a u, ch ≠ '\n' :=
    noNl_append d1 (noNl_append (noNl_of_clean haC) (noNl_append d2
      (noNl_append (noNl_append d3 (noNl_of_clean (str_uuid_clean u))) d4)))
  have hnlB : ∀ ch ∈ rtLineB b, ch ≠ '\n' :=
    noNl_append d5 (noNl_of_clean hbC)
  have hnlH : ∀ ch ∈ rtLineH h, ch ≠ '\n' :=
    noNl_append d1 (noNl_append d6 (noNl_append (noNl_of_clean hhC) d7))
  have hnlH1 : ∀ ch ∈ rtLineH1 h, ch ≠ '\n' :=
    noNl_append d8 (noNl_of_clean hhC)
  have hnlC : ∀ ch ∈ rtLineC c, ch ≠ '\n' :=
    noNl_append d1 (noNl_of_clean hcC)
  -- the rendered text, line by line
  have hlineA : itemLine (.mk a (some u) [.mk b none [] false] false) 0 = rtLineA a u := by
    show List.replicate 0 '\t' ++ ("- ".data ++ (a ++
      (" [](uuid:".data ++ (str_uuid u ++ [')'])))) = rtLineA a u
    rfl
  have hlineB : itemLine (.mk b none [] false) 1 = rtLineB b := by
    show List.replicate 1 '\t' ++ ("- ".data ++ (b ++ [])) = rtLineB b
    rw [List.append_nil]
    rfl
  have hlineH : itemLine (.mk h none [.mk c none [] false] true) 0 = rtLineH h := by
    show List.replicate 0 '\t' ++ ("- ".data ++
      (("[[#".data ++ h ++ "]]".data) ++ [])) = rtLineH h
    rw [List.append_nil]
    show "- ".data ++ ("[[#".data ++ h ++ "]]".data) = rtLineH h
    rw [List.append_assoc]
    rfl
  have hlineC : itemLine (.mk c none [] false) 0 = rtLineC c := by
    show List.replicate 0 '\t' ++ ("- ".data ++ (c ++ [])) = rtLineC c
    rw [List.append_nil]
    rfl
  have hrB : render_item (.mk b none [] false) 1 = rtLineB b ++ '\n' :: [] := by
    show itemLine (.mk b none [] false) 1 ++ '\n' :: [] = _
    rw [hlineB]
  have hrA : render_item (.mk a (some u) [.mk b none [] false] false) 0 =
      rtLineA a u ++ '\n' :: (rtLineB b ++ '\n' :: []) := by
    show itemLine (.mk a (some u) [.mk b none [] false] false) 0 ++ '\n' ::
      (render_item (.mk b none [] false) 1 ++ []) = _
    rw [hlineA, hrB, List.append_nil]
  have hrH : render_item (.mk h none [.mk c none [] false] true) 0 =
      rtLineH h ++ '\n' :: [] := by
    show itemLine (.mk h none [.mk c none [] false] true) 0 ++ '\n' :: [] = _
    rw [hlineH]
  have hrC : render_item (.mk c none [] false) 0 = rtLineC c ++ '\n' :: [] := by
    show itemLine (.mk c none [] false) 0 ++ '\n' :: [] = _
    rw [hlineC]
  have hsec : hoistSection (.mk h none [.mk c none [] false] true) =
      ('\n' :: rtLineH1 h) ++ '\n' :: (rtLineC c ++ '\n' :: []) := by
    show ('\n' :: ("# ".data ++ h)) ++ '\n' ::
      (render_item (.mk c none [] false) 0 ++ []) = _
    rw [hrC, List.append_nil]
    rfl
  have hfilter : (flatten (rtTree a b c h u) false).filter Item.hoisted =
      [.mk h none [.mk c none [] false] true] := by
    rw [rtFlat]
    rfl
  have hsave : save_inventory_file (rtTree a b c h u) =
      (render_item (.mk a (some u) [.mk b none [] false] false) 0 ++
        (render_item (.mk h none [.mk c none [] false] true) 0 ++ [])) ++
      (hoistSection (.mk h none [.mk c none [] false] true) ++ []) := by
    show render_items
        [.mk a (some u) [.mk b none [] false] false,
         .mk h none [.mk c none [] false] true] 0 ++
      joinStr (((flatten (rtTree a b c h u) false).filter Item.hoisted).map hoistSection) = _
    rw [hfilter]
    rfl
  have htext : save_inventory_file (rtTree a b c h u) =
      rtLineA a u ++ '\n' :: (rtLineB b ++ '\n' :: (rtLineH h ++ '\n' ::
        ('\n' :: (rtLineH1 h ++ '\n' :: (rtLineC c ++ '\n' :: []))))) := by
    rw [hsave, hrA, hrH, hsec]
    simp only [List.append_assoc, List.cons_append, List.nil_append, List.append_nil]
  rw [htext, splitLines_flat hnlA, splitLines_flat hnlB, splitLines_flat hnlH,
    splitLines_nl, splitLines_flat hnlH1, splitLines_flat hnlC]
  rfl

theorem parse_uuid_link {u : Nat} (hu : u < 2 ^ 128) :
    parse_uuid ("uuid:".data ++ str_uuid u) = some u := by
  simp only [parse_uuid]
  rw [dropPrefixStr_append, str_uuid_length]
  norm_num
  exact uuid_from_hex_str_uuid hu

/-- Parsing a list item of the form `name [](href)` with one sublist:
the item is allocated unhoisted, the sublist becomes its children, the
decoded href its uuid. -/
theorem linkSubLi_step (fuel : Nat) (s0 href : Str) (u' : Nat) (cs : List PNode)
    (st : PState) (ids : List Nat) (st2 : PState)
    (hhref : parse_uuid href = some u')
    (hsub : parse_list_f fuel cs
      ⟨st.store ++ [⟨pyStrip s0, none, [], none, false⟩], st.hoists⟩ = some (ids, st2)) :
    parse_list_item_f fuel [PNode.nstr s0, PNode.link href, PNode.ulist cs] st =
      some (st.store.length,
        ⟨modifyH (modifyH st2.store st.store.length (fun it => { it with children := ids }))
          st.store.length (fun it => { it with uuid := some u' }), st2.hoists⟩) := by
  show parse_list_item_body (parse_list_f fuel)
    [PNode.nstr s0, PNode.link href, PNode.ulist cs] st = _
  unfold parse_list_item_body
  show (seqOpt [parse_uuid href]).bind (fun uuids =>
    (allocItem [PNode.nstr s0, PNode.link href, PNode.ulist cs] st).bind fun r =>
      (parseSub (parse_list_f fuel) [PNode.nstr s0, PNode.link href, PNode.ulist cs]
        r.1 r.2).bind fun st3 => attachUuid uuids r.1 st3) = _
  rw [show seqOpt [parse_uuid href] = some [u'] by rw [hhref]; rfl]
  show (allocItem [PNode.nstr s0, PNode.link href, PNode.ulist cs] st).bind (fun r =>
    (parseSub (parse_list_f fuel) [PNode.nstr s0, PNode.link href, PNode.ulist cs]
      r.1 r.2).bind fun st3 => attachUuid [u'] r.1 st3) = _
  rw [show allocItem [PNode.nstr s0, PNode.link href, PNode.ulist cs] st =
    some (st.store.length,
      ⟨st.store ++ [⟨pyStrip s0, none, [], none, false⟩], st.hoists⟩) from rfl]
  show (parseSub (parse_list_f fuel) [PNode.nstr s0, PNode.link href, PNode.ulist cs]
    st.store.length ⟨st.store ++ [⟨pyStrip s0, none, [], none, false⟩], st.hoists⟩).bind
    (fun st3 => attachUuid [u'] st.store.length st3) = _
  have hps : parseSub (parse_list_f fuel) [PNode.nstr s0, PNode.link href, PNode.ulist cs]
      st.store.length ⟨st.store ++ [⟨pyStrip s0, none, [], none, false⟩], st.hoists⟩ =
      some ⟨modifyH st2.store st.store.length (fun it => { it with children := ids }),
        st2.hoists⟩ := by
    show (parse_list_f fuel cs
      ⟨st.store ++ [⟨pyStrip s0, none, [], none, false⟩], st.hoists⟩).map (fun r =>
        PState.mk (modifyH r.2.store st.store.length
          (fun it => { it with children := r.1 })) r.2.hoists) = _
    rw [hsub]
    rfl
  rw [hps]
  rfl

/-- The heap produced by parsing the family's document: root with
children 1 and 3, item `a` (uuid `u`) with child 2, leaf `b`, hoisted
item `h` with child 4, leaf `c`; parents set by `update_parents`. -/
def rtStore (a b c h : Str) (u : Nat) : Store :=
  [⟨"root".data, none, [1, 3], none, false⟩,
   ⟨a, some u, [2], some 0, false⟩,
   ⟨b, none, [], some 1, false⟩,
   ⟨h, none, [4], some 0, true⟩,
   ⟨c, none, [], some 3, false⟩]

theorem rtParse_eval (a b c h : Str) (u : Nat) (hu : u < 2 ^ 128)
    (hsa : pyStrip a = a) (hsb : pyStrip b = b) (hsc : pyStrip c = c)
    (hsh : pyStrip h = h) :
    parse_inventory_file 4 (rtDoc a b c h u) = some (rtStore a b c h u) := by
  have hstripA : pyStrip (a ++ [' ']) = a := by rw [pyStrip_append_space, hsa]
  have hsubB : parse_list_f 3 [PNode.li [PNode.nstr b]]
      ⟨[rootItemH, ⟨a, none, [], none, false⟩], []⟩ =
      some ([2], ⟨[rootItemH, ⟨a, none, [], none, false⟩,
        ⟨b, none, [], none, false⟩], []⟩) := by
    rw [parse_list_f_cons_li, strLi_step, hsb]
    rfl
  have hA : parse_list_item_f 3
      [PNode.nstr (a ++ [' ']), PNode.link ("uuid:".data ++ str_uuid u),
       PNode.ulist [PNode.li [PNode.nstr b]]] ⟨[rootItemH], []⟩ =
      some (1, ⟨[rootItemH, ⟨a, some u, [2], none, false⟩,
        ⟨b, none, [], none, false⟩], []⟩) := by
    have hsub : parse_list_f 3 [PNode.li [PNode.nstr b]]
        ⟨([rootItemH] : Store) ++ [⟨pyStrip (a ++ [' ']), none, [], none, false⟩], []⟩ =
        some ([2], ⟨[rootItemH, ⟨a, none, [], none, false⟩,
          ⟨b, none, [], none, false⟩], []⟩) := by
      rw [hstripA]
      exact hsubB
    exact linkSubLi_step 3 (a ++ [' ']) ("uuid:".data ++ str_uuid u) u
      [PNode.li [PNode.nstr b]] ⟨[rootItemH], []⟩ [2]
      ⟨[rootItemH, ⟨a, none, [], none, false⟩, ⟨b, none, [], none, false⟩], []⟩
      (parse_uuid_link hu) hsub
  have hul1 : parse_list_f 4
      [PNode.li [PNode.nstr (a ++ [' ']), PNode.link ("uuid:".data ++ str_uuid u),
        PNode.ulist [PNode.li [PNode.nstr b]]],
       PNode.li [PNode.ref h]] ⟨[rootItemH], []⟩ =
      some ([1, 3], ⟨[rootItemH, ⟨a, some u, [2], none, false⟩,
        ⟨b, none, [], none, false⟩, ⟨h, none, [], none, true⟩], [(h, 3)]⟩) := by
    rw [parse_list_f_cons_li, hA]
    show (parse_list_f 4 [PNode.li [PNode.ref h]]
      ⟨[rootItemH, ⟨a, some u, [2], none, false⟩,
        ⟨b, none, [], none, false⟩], []⟩).map (fun q => (1 :: q.1, q.2)) = _
    rw [parse_list_f_cons_li, refLi_step, hsh]
    rfl
  have hulC : ∀ st : PState, parse_list_f 4 [PNode.li [PNode.nstr c]] st =
      some ([st.store.length], ⟨st.store ++ [⟨c, none, [], none, false⟩], st.hoists⟩) := by
    intro st
    rw [parse_list_f_cons_li, strLi_step, hsc]
    rfl
  have hhg : hoistGet [(h, (3 : Nat))] h = some 3 := by
    unfold hoistGet
    rw [List.find?_cons_of_pos]
    · rfl
    · exact beq_self_eq_true h
  have hpt : parse_top 4 (rtDoc a b c h u) initPState 0 =
      some (⟨[⟨"root".data, none, [1, 3], none, false⟩,
        ⟨a, some u, [2], none, false⟩, ⟨b, none, [], none, false⟩,
        ⟨h, none, [4], none, true⟩, ⟨c, none, [], none, false⟩], [(h, 3)]⟩, 3) := by
    show (match parse_list_f 4
        [PNode.li [PNode.nstr (a ++ [' ']), PNode.link ("uuid:".data ++ str_uuid u),
          PNode.ulist [PNode.li [PNode.nstr b]]],
         PNode.li [PNode.ref h]] (⟨[rootItemH], []⟩ : PState) with
      | none => none
      | some (ids, st') =>
        parse_top 4 [TopNode.h1 h, TopNode.ul [PNode.li [PNode.nstr c]]]
          (PState.mk (modifyH st'.store 0
            (fun it => { it with children := it.children ++ ids })) st'.hoists) 0) = _
    rw [hul1]
    show (match hoistGet [(h, (3 : Nat))] h with
      | none => none
      | some i =>
        parse_top 4 [TopNode.ul [PNode.li [PNode.nstr c]]]
          (⟨[⟨"root".data, none, [1, 3], none, false⟩, ⟨a, some u, [2], none, false⟩,
            ⟨b, none, [], none, false⟩, ⟨h, none, [], none, true⟩],
            [(h, 3)]⟩ : PState) i) = _
    rw [hhg]
    show (match parse_list_f 4 [PNode.li [PNode.nstr c]]
        (⟨[⟨"root".data, none, [1, 3], none, false⟩, ⟨a, some u, [2], none, false⟩,
          ⟨b, none, [], none, false⟩, ⟨h, none, [], none, true⟩],
          [(h, 3)]⟩ : PState) with
      | none => none
      | some (ids, st') =>
        parse_top 4 ([] : List TopNode)
          (PState.mk (modifyH st'.store 3
            (fun it => { it with children := it.children ++ ids })) st'.hoists) 3) = _
    rw [hulC]
    rfl
  unfold parse_inventory_file
  rw [hpt]
  rfl

/- ===== Universal round trip: definitions ===== -/

/-- A name the renderer can re-tokenize: nonempty, fixed under `strip`,
and free of newline, tab and the markup characters. -/
def cleanName (s : Str) : Bool :=
  !s.isEmpty && (pyStrip s == s) && s.all cleanChar

mutual

/-- Every name in the subtree is clean and every identifier fits in 128
bits. -/
def cleanItem : Item → Bool
  | .mk nm u cs _ =>
    cleanName nm &&
      (match u with | some v => decide (v < 2 ^ 128) | none => true) &&
      cleanItems cs

def cleanItems : List Item → Bool
  | [] => true
  | x :: xs => cleanItem x && cleanItems xs

end

/-- The inline content of an item's rendered list line (everything after
the indentation tabs and the `- ` marker). -/
def contentOf (i : Item) : Str :=
  (if i.hoisted then "[[#".data ++ i.name ++ "]]".data else i.name) ++
    (match i.uuid with
     | some u => " [](uuid:".data ++ str_uuid u ++ [')']
     | none => [])

mutual

/-- The rendered lines of an item's subtree (hoisted children stop at
their reference line), mirroring `render_item`. -/
def itemLines : Item → Nat → List Str
  | .mk nm u cs ho, d =>
    itemLine (.mk nm u cs ho) d :: (if ho then [] else itemsLines cs (d + 1))

def itemsLines : List Item → Nat → List Str
  | [], _ => []
  | x :: xs, d => itemLines x d ++ itemsLines xs d

end

mutual

/-- The `(depth, content)` pairs the line classifier extracts from an
item's rendered lines. -/
def itemPairs : Item → Nat → List (Nat × Str)
  | .mk nm u cs ho, d =>
    (d, contentOf (.mk nm u cs ho)) :: (if ho then [] else itemsPairs cs (d + 1))

def itemsPairs : List Item → Nat → List (Nat × Str)
  | [], _ => []
  | x :: xs, d => itemPairs x d ++ itemsPairs xs d

end

/-- The inline token sequence the converter produces for an item's
content. -/
def liPartsOf : Item → List PNode
  | .mk nm (some v) _ true =>
    [PNode.ref nm, PNode.nstr [' '], PNode.link ("uuid:".data ++ str_uuid v)]
  | .mk nm none _ true => [PNode.ref nm]
  | .mk nm (some v) _ false =>
    [PNode.nstr (nm ++ [' ']), PNode.link ("uuid:".data ++ str_uuid v)]
  | .mk nm none _ false => [PNode.nstr nm]

mutual

/-- The soup node of one item: its tokens, plus a nested list unless
the item is hoisted or childless. -/
def docNode : Item → PNode
  | .mk nm u cs ho =>
    PNode.li (liPartsOf (.mk nm u cs ho) ++
      (if ho then [] else if cs.isEmpty then [] else [PNode.ulist (docNodes cs)]))

def docNodes : List Item → List PNode
  | [] => []
  | x :: xs => docNode x :: docNodes xs

end

/-- The soup of one hoisted item's section: the heading, then the
section list when the item has children. -/
def secDoc (h : Item) : List TopNode :=
  TopNode.h1 h.name ::
    (if h.children.isEmpty then [] else [TopNode.ul (docNodes h.children)])

def secsDoc : List Item → List TopNode
  | [] => []
  | h :: hs => secDoc h ++ secsDoc hs

/-- The rendered lines of one section: a blank separator, the heading
line, then the children's lines from depth 0. -/
def secLines (h : Item) : List Str :=
  [] :: ("# ".data ++ h.name) :: itemsLines h.children 0

def secsLines : List Item → List Str
  | [] => []
  | h :: hs => secLines h ++ secsLines hs

/-- The whole soup of a rendered tree: the main list (when the root has
children) followed by the hoisted sections. -/
def docTop (cs : List Item) (P : List Item) : List TopNode :=
  (if cs.isEmpty then [] else [TopNode.ul (docNodes cs)]) ++ secsDoc P

mutual

/-- Every hoist-reference node in the subtree, root included, with
multiplicity. -/
def hoistsOf : Item → List Item
  | .mk nm u cs ho => (if ho then [Item.mk nm u cs ho] else []) ++ hoistsOfF cs

def hoistsOfF : List Item → List Item
  | [] => []
  | x :: xs => hoistsOf x ++ hoistsOfF xs

end

mutual

/-- The hoist-reference nodes reachable without crossing another hoist:
exactly the ones whose reference line a given list renders. -/
def dHoists : Item → List Item
  | .mk nm u cs ho => if ho then [Item.mk nm u cs ho] else dHoistsF cs

def dHoistsF : List Item → List Item
  | [] => []
  | x :: xs => dHoists x ++ dHoistsF xs

end

mutual

/-- All nodes of the subtree in pre-order. -/
def allNodes : Item → List Item
  | .mk nm u cs ho => Item.mk nm u cs ho :: allNodesF cs

def allNodesF : List Item → List Item
  | [] => []
  | x :: xs => allNodes x ++ allNodesF xs

end

/-- The section schedule never lists an item before an item above it:
no element occurs inside a later element's subtree. -/
def chainOK : List Item → Prop
  | [] => True
  | x :: xs => (∀ y ∈ xs, x ∉ hoistsOfF y.children) ∧ chainOK xs

mutual

/-- Shallow realization, the state right after a list parse: unhoisted
nodes are fully stored with their children's ids; hoisted nodes are
stored childless and registered in the hoist table under their id. -/
def sReal (st : PState) : Item → ITree → Prop
  | .mk nm u _ true, .mk i ts =>
    ts = [] ∧ hoistGet st.hoists nm = some i ∧
      ∃ p, getH st.store i = some ⟨nm, u, [], p, true⟩
  | .mk nm u cs false, .mk i ts =>
    (∃ p, getH st.store i = some ⟨nm, u, ts.map ITree.id, p, false⟩) ∧ sRealF st cs ts

def sRealF (st : PState) : List Item → List ITree → Prop
  | [], [] => True
  | x :: xs, t :: ts => sReal st x t ∧ sRealF st xs ts
  | _, _ => False

end

mutual

/-- Full realization: every node of the subtree is stored at its id
with exactly its children's ids, hoisted or not. -/
def fReal (s : Store) : Item → ITree → Prop
  | .mk nm u cs ho, .mk i ts =>
    (∃ p, getH s i = some ⟨nm, u, ts.map ITree.id, p, ho⟩) ∧ fRealF s cs ts

def fRealF (s : Store) : List Item → List ITree → Prop
  | [], [] => True
  | x :: xs, t :: ts => fReal s x t ∧ fRealF s xs ts
  | _, _ => False

end

mutual

/-- The hoisted `(node, id)` pairs of a shallow assignment: the pending
registrations a list parse creates. -/
def hoistPairs : Item → ITree → List (Item × Nat)
  | .mk nm u cs true, t => [(Item.mk nm u cs true, t.id)]
  | .mk nm u cs false, t => hoistPairsF cs t.children

def hoistPairsF : List Item → List ITree → List (Item × Nat)
  | x :: xs, t :: ts => hoistPairs x t ++ hoistPairsF xs ts
  | _, _ => []

end

/-- Concatenated children of a forest: the next breadth-first level. -/
def kidsF : List Item → List Item
  | [] => []
  | x :: xs => x.children ++ kidsF xs

/-- The breadth-first levels of a forest. -/
def levelsL : Nat → List Item → List (List Item)
  | 0, _ => []
  | _ + 1, [] => []
  | fuel + 1, F => F :: levelsL fuel (kidsF F)

def joinL {α : Type} : List (List α) → List α
  | [] => []
  | l :: ls => l ++ joinL ls

/-- The hoisted items of a rendered tree, in section order. -/
def hoistList (root : Item) : List Item :=
  (flatten root false).filter Item.hoisted

/-- All the lines of the rendered document, in order (the document text
is these lines each terminated by a newline). -/
def allLines (root : Item) : List Str :=
  itemsLines root.children 0 ++ secsLines (hoistList root)

/- ===== Universal round trip: basic facts ===== -/

theorem joinStr_cons (l : Str) (ls : List Str) : joinStr (l :: ls) = l ++ joinStr ls := rfl

theorem joinStr_append (a b : List Str) : joinStr (a ++ b) = joinStr a ++ joinStr b := by
  induction a with
  | nil => rfl
  | cons l ls ih => simp [joinStr_cons, ih, List.append_assoc]

theorem joinL_append {α : Type} (a b : List (List α)) :
    joinL (a ++ b) = joinL a ++ joinL b := by
  induction a with
  | nil => rfl
  | cons l ls ih => simp [joinL, ih, List.append_assoc]

theorem cleanName_parts {s : Str} (h : cleanName s = true) :
    s ≠ [] ∧ pyStrip s = s ∧ ∀ ch ∈ s, cleanChar ch = true := by
  unfold cleanName at h
  rw [Bool.and_eq_true, Bool.and_eq_true] at h
  refine ⟨?_, eq_of_beq h.1.2, ?_⟩
  · intro he
    subst he
    exact absurd h.1.1 (by decide)
  · intro ch hm
    have h3 := h.2
    rw [List.all_eq_true] at h3
    exact h3 ch hm

theorem cleanItem_parts {x : Item} (h : cleanItem x = true) :
    cleanName x.name = true ∧ (∀ v, x.uuid = some v → v < 2 ^ 128) ∧
      cleanItems x.children = true := by
  cases x with
  | mk nm u cs ho =>
    unfold cleanItem at h
    rw [Bool.and_eq_true, Bool.and_eq_true] at h
    refine ⟨h.1.1, ?_, h.2⟩
    intro v hv
    rw [show (Item.mk nm u cs ho).uuid = u from rfl] at hv
    subst hv
    exact of_decide_eq_true h.1.2

theorem cleanItems_mem {F : List Item} (h : cleanItems F = true) :
    ∀ x ∈ F, cleanItem x = true := by
  induction F with
  | nil => intro x hx; cases hx
  | cons y ys ih =>
    intro x hx
    unfold cleanItems at h
    rw [Bool.and_eq_true] at h
    rcases List.mem_cons.mp hx with rfl | hx2
    · exact h.1
    · exact ih h.2 x hx2

theorem cleanItems_cons {x : Item} {xs : List Item} (h : cleanItems (x :: xs) = true) :
    cleanItem x = true ∧ cleanItems xs = true := by
  unfold cleanItems at h
  rw [Bool.and_eq_true] at h
  exact h

mutual

theorem cleanItem_allNodes : ∀ (x : Item), cleanItem x = true →
    ∀ y ∈ allNodes x, cleanItem y = true
  | .mk nm u cs ho, h, y, hy => by
    rw [show allNodes (.mk nm u cs ho) = Item.mk nm u cs ho :: allNodesF cs from rfl] at hy
    rcases List.mem_cons.mp hy with rfl | hy2
    · exact h
    · exact cleanItems_allNodesF cs (cleanItem_parts h).2.2 y hy2

theorem cleanItems_allNodesF : ∀ (F : List Item), cleanItems F = true →
    ∀ y ∈ allNodesF F, cleanItem y = true
  | [], _, y, hy => by cases hy
  | x :: xs, h, y, hy => by
    rw [show allNodesF (x :: xs) = allNodes x ++ allNodesF xs from rfl] at hy
    have h2 := cleanItems_cons h
    rcases List.mem_append.mp hy with hy2 | hy2
    · exact cleanItem_allNodes x h2.1 y hy2
    · exact cleanItems_allNodesF xs h2.2 y hy2

end

theorem allNodesF_joinL (F : List Item) : allNodesF F = joinL (F.map allNodes) := by
  induction F with
  | nil => rfl
  | cons x xs ih => simp [allNodesF, joinL, ih]

theorem flattenGo_nil : flattenGo false [] = [] := by
  simp [flattenGo]

theorem flattenGo_cons (e : Item) (q : List Item) :
    flattenGo false (e :: q) = e :: flattenGo false (q ++ e.children) := by
  rw [flattenGo]
  rw [if_neg (by decide)]

theorem flattenGo_split : ∀ (q r : List Item),
    flattenGo false (q ++ r) = q ++ flattenGo false (r ++ kidsF q) := by
  intro q
  induction q with
  | nil =>
    intro r
    rw [show kidsF [] = [] from rfl, List.append_nil]
    rfl
  | cons e q' ih =>
    intro r
    show flattenGo false (e :: (q' ++ r)) = _
    rw [flattenGo_cons, List.append_assoc, ih (r ++ e.children)]
    simp [kidsF, List.append_assoc]

theorem itemSize_pos (x : Item) : 1 ≤ itemSize x := by
  cases x with
  | mk nm u cs ho =>
    rw [show itemSize (.mk nm u cs ho) = 1 + itemsSize cs from rfl]
    omega

theorem flattenGo_perm : ∀ (n : Nat) (q : List Item), qMeasure q ≤ n →
    List.Perm (flattenGo false q) (joinL (q.map allNodes)) := by
  intro n
  induction n with
  | zero =>
    intro q hq
    cases q with
    | nil => rw [flattenGo_nil]; exact List.Perm.refl _
    | cons e q' =>
      exfalso
      have h1 := itemSize_pos e
      have h2 : qMeasure (e :: q') = itemSize e + qMeasure q' := by
        simp [qMeasure]
      omega
  | succ n ih =>
    intro q hq
    cases q with
    | nil => rw [flattenGo_nil]; exact List.Perm.refl _
    | cons e q' =>
      obtain ⟨nm, u, cs, ho⟩ := e
      rw [flattenGo_cons]
      have hm : qMeasure (q' ++ (Item.mk nm u cs ho).children) ≤ n := by
        have := qMeasure_step_bfs (Item.mk nm u cs ho) q'
        omega
      have hp := ih _ hm
      have hstep : List.Perm (flattenGo false (q' ++ (Item.mk nm u cs ho).children))
          (joinL (q'.map allNodes) ++ allNodesF cs) := by
        have he : joinL ((q' ++ (Item.mk nm u cs ho).children).map allNodes) =
            joinL (q'.map allNodes) ++ allNodesF cs := by
          rw [List.map_append, joinL_append, allNodesF_joinL]
          rfl
        rw [he] at hp
        exact hp
      have hgoal : joinL ((Item.mk nm u cs ho :: q').map allNodes) =
          Item.mk nm u cs ho :: (allNodesF cs ++ joinL (q'.map allNodes)) := by
        rw [List.map_cons, show joinL (allNodes (Item.mk nm u cs ho) :: q'.map allNodes)
          = allNodes (Item.mk nm u cs ho) ++ joinL (q'.map allNodes) from rfl,
          show allNodes (Item.mk nm u cs ho) = Item.mk nm u cs ho :: allNodesF cs from rfl]
        rfl

      rw [hgoal]
      exact List.Perm.cons _ (hstep.trans (List.perm_append_comm))

theorem flatten_perm (root : Item) : List.Perm (flatten root false) (allNodes root) := by
  unfold flatten
  have h := flattenGo_perm (qMeasure [root]) [root] (le_refl _)
  have he : joinL ([root].map allNodes) = allNodes root := by
    simp [joinL]
  rw [he] at h
  exact h

theorem hoistList_mem_allNodes {root : Item} {x : Item} (hx : x ∈ hoistList root) :
    x ∈ allNodes root ∧ x.hoisted = true := by
  unfold hoistList at hx
  have h2 := List.mem_filter.mp hx
  exact ⟨(flatten_perm root).mem_iff.mp h2.1, h2.2⟩

/- ===== Universal round trip: render to lines ===== -/

theorem itemLine_eq (i : Item) (d : Nat) :
    itemLine i d = List.replicate d '\t' ++ ("- ".data ++ contentOf i) := by
  unfold itemLine contentOf
  simp [List.append_assoc]

theorem noNl_contentOf {i : Item} (hC : ∀ ch ∈ i.name, cleanChar ch = true) :
    ∀ ch ∈ contentOf i, ch ≠ '\n' := by
  unfold contentOf
  have hn := noNl_of_clean hC
  have d2 : ∀ ch ∈ " [](uuid:".data, ch ≠ '\n' := by decide
  have d3 : ∀ ch ∈ ([')'] : Str), ch ≠ '\n' := by decide
  have d6 : ∀ ch ∈ "[[#".data, ch ≠ '\n' := by decide
  have d7 : ∀ ch ∈ "]]".data, ch ≠ '\n' := by decide
  refine noNl_append ?_ ?_
  · cases hho : i.hoisted
    · rw [if_neg (by decide)]
      exact hn
    · rw [if_pos (by decide)]
      exact noNl_append (noNl_append d6 hn) d7
  · cases hu : i.uuid with
    | none => intro ch hm; cases hm
    | some v =>
      exact noNl_append (noNl_append d2 (noNl_of_clean (str_uuid_clean v))) d3

theorem noNl_itemLine {x : Item} (d : Nat) (hC : ∀ ch ∈ x.name, cleanChar ch = true) :
    ∀ ch ∈ itemLine x d, ch ≠ '\n' := by
  rw [itemLine_eq]
  refine noNl_append ?_ (noNl_append (by decide) (noNl_contentOf hC))
  intro ch hm
  rw [List.eq_of_mem_replicate hm]
  decide

mutual

theorem noNl_itemLines : ∀ (x : Item) (d : Nat), cleanItem x = true →
    ∀ l ∈ itemLines x d, ∀ ch ∈ l, ch ≠ '\n'
  | .mk nm u cs ho, d, h, l, hl => by
    obtain ⟨hname, _, hkids⟩ := cleanItem_parts h
    rw [show itemLines (.mk nm u cs ho) d
      = itemLine (.mk nm u cs ho) d :: (if ho then [] else itemsLines cs (d + 1)) from rfl] at hl
    rcases List.mem_cons.mp hl with rfl | hl2
    · exact noNl_itemLine d (cleanName_parts hname).2.2
    · cases ho with
      | true => simp at hl2
      | false =>
        rw [if_neg (by exact Bool.false_ne_true)] at hl2
        exact noNl_itemsLines cs (d + 1) hkids l hl2

theorem noNl_itemsLines : ∀ (F : List Item) (d : Nat), cleanItems F = true →
    ∀ l ∈ itemsLines F d, ∀ ch ∈ l, ch ≠ '\n'
  | [], _, _, l, hl => by cases hl
  | x :: xs, d, h, l, hl => by
    rw [show itemsLines (x :: xs) d = itemLines x d ++ itemsLines xs d from rfl] at hl
    have h2 := cleanItems_cons h
    rcases List.mem_append.mp hl with hl2 | hl2
    · exact noNl_itemLines x d h2.1 l hl2
    · exact noNl_itemsLines xs d h2.2 l hl2

end

theorem noNl_secLines {h : Item} (hc : cleanItem h = true) :
    ∀ l ∈ secLines h, ∀ ch ∈ l, ch ≠ '\n' := by
  intro l hl
  obtain ⟨hname, _, hkids⟩ := cleanItem_parts hc
  rw [show secLines h = [] :: ("# ".data ++ h.name) :: itemsLines h.children 0 from rfl] at hl
  rcases List.mem_cons.mp hl with rfl | hl2
  · intro ch hm; cases hm
  · rcases List.mem_cons.mp hl2 with rfl | hl3
    · exact noNl_append (by decide) (noNl_of_clean (cleanName_parts hname).2.2)
    · exact noNl_itemsLines h.children 0 hkids l hl3

theorem noNl_secsLines {P : List Item} (hcs : ∀ h ∈ P, cleanItem h = true) :
    ∀ l ∈ secsLines P, ∀ ch ∈ l, ch ≠ '\n' := by
  induction P with
  | nil => intro l hl; cases hl
  | cons h hs ih =>
    intro l hl
    rw [show secsLines (h :: hs) = secLines h ++ secsLines hs from rfl] at hl
    rcases List.mem_append.mp hl with hl2 | hl2
    · exact noNl_secLines (hcs h (List.mem_cons_self _ _)) l hl2
    · exact ih (fun x hx => hcs x (List.mem_cons_of_mem _ hx)) l hl2

mutual

theorem render_join_item : ∀ (x : Item) (d : Nat),
    render_item x d = joinStr ((itemLines x d).map (· ++ ['\n']))
  | .mk nm u cs ho, d => by
    show itemLine (.mk nm u cs ho) d ++ '\n' :: (if ho then [] else render_items cs (d + 1)) = _
    rw [show itemLines (.mk nm u cs ho) d
      = itemLine (.mk nm u cs ho) d :: (if ho then [] else itemsLines cs (d + 1)) from rfl]
    cases ho with
    | true => simp [joinStr]
    | false =>
      rw [if_neg (by exact Bool.false_ne_true), if_neg (by exact Bool.false_ne_true),
        render_join_items cs (d + 1)]
      simp [joinStr_cons, List.append_assoc]

theorem render_join_items : ∀ (F : List Item) (d : Nat),
    render_items F d = joinStr ((itemsLines F d).map (· ++ ['\n']))
  | [], _ => rfl
  | x :: xs, d => by
    show render_item x d ++ render_items xs d = _
    rw [show itemsLines (x :: xs) d = itemLines x d ++ itemsLines xs d from rfl,
      List.map_append, joinStr_append, render_join_item x d, render_join_items xs d]

end

theorem hoistSection_join (h : Item) :
    hoistSection h = joinStr ((secLines h).map (· ++ ['\n'])) := by
  unfold hoistSection
  rw [show secLines h = [] :: ("# ".data ++ h.name) :: itemsLines h.children 0 from rfl,
    render_join_items h.children 0]
  simp [joinStr_cons, List.append_assoc]

theorem secsText_join (P : List Item) :
    joinStr (P.map hoistSection) = joinStr ((secsLines P).map (· ++ ['\n'])) := by
  induction P with
  | nil => rfl
  | cons h hs ih =>
    rw [List.map_cons, joinStr_cons, hoistSection_join, ih,
      show secsLines (h :: hs) = secLines h ++ secsLines hs from rfl,
      List.map_append, joinStr_append]

theorem save_as_lines (root : Item) :
    save_inventory_file root = joinStr ((allLines root).map (· ++ ['\n'])) := by
  unfold save_inventory_file allLines
  rw [render_join_items root.children 0, secsText_join,
    List.map_append, joinStr_append]
  rfl

theorem splitLines_joinNl : ∀ (L : List Str), (∀ l ∈ L, ∀ ch ∈ l, ch ≠ '\n') →
    splitLines (joinStr (L.map (· ++ ['\n']))) = L ++ [[]] := by
  intro L
  induction L with
  | nil => intro _; rfl
  | cons l ls ih =>
    intro h
    rw [List.map_cons, joinStr_cons,
      show (l ++ ['\n']) ++ joinStr (ls.map (· ++ ['\n']))
        = l ++ '\n' :: joinStr (ls.map (· ++ ['\n'])) by simp,
      splitLines_flat (h l (List.mem_cons_self _ _)),
      ih (fun x hx => h x (List.mem_cons_of_mem _ hx))]
    rfl

/-- Stage R: splitting the rendered text recovers exactly the line
list, with the empty final line. -/
theorem splitLines_save {root : Item} (hclean : cleanItem root = true) :
    splitLines (save_inventory_file root) = allLines root ++ [[]] := by
  rw [save_as_lines]
  apply splitLines_joinNl
  intro l hl
  unfold allLines at hl
  rcases List.mem_append.mp hl with hl2 | hl2
  · exact noNl_itemsLines root.children 0 (cleanItem_parts hclean).2.2 l hl2
  · refine noNl_secsLines ?_ l hl2
    intro x hx
    exact cleanItem_allNodes root hclean x (hoistList_mem_allNodes hx).1

/- ===== Universal round trip: line classification ===== -/

theorem pfxB_head_ne {p c : Char} (ps cs : Str) (h : (p == c) = false) :
    pfxB (p :: ps) (c :: cs) = false := by
  show (p == c && pfxB ps cs) = false
  rw [h, Bool.false_and]

theorem liContent_nil : liContent [] = none := rfl

theorem h1Content_nil : h1Content [] = none := rfl

theorem isBlank_nil : isBlankLine [] = true := rfl

theorem takeWhile_tabs (d : Nat) (s : Str) :
    (List.replicate d '\t' ++ ('-' :: s)).takeWhile (· == '\t') = List.replicate d '\t' := by
  induction d with
  | zero =>
    show (('-' :: s)).takeWhile (· == '\t') = []
    rw [List.takeWhile_cons_of_neg (by decide)]
  | succ n ih =>
    show ('\t' :: (List.replicate n '\t' ++ ('-' :: s))).takeWhile (· == '\t')
      = '\t' :: List.replicate n '\t'
    rw [List.takeWhile_cons_of_pos (by decide), ih]

theorem liContent_shape (d : Nat) (c : Str) :
    liContent (List.replicate d '\t' ++ ("- ".data ++ c)) = some (d, c) := by
  have ht : (List.replicate d '\t' ++ ("- ".data ++ c)).takeWhile (· == '\t')
      = List.replicate d '\t' := takeWhile_tabs d (' ' :: c)
  have hd : (List.replicate d '\t' ++ ("- ".data ++ c)).drop d = "- ".data ++ c := by
    have h1 : (List.replicate d '\t' ++ ("- ".data ++ c)).drop
        ((List.replicate d '\t').length + 0) = ("- ".data ++ c).drop 0 :=
      drop_len_add _ _ 0
    rw [List.length_replicate] at h1
    exact h1
  simp only [liContent]
  rw [ht, List.length_replicate, hd,
    if_pos (show pfxB "- ".data ("- ".data ++ c) = true from rfl)]
  rfl

theorem h1Content_shape (d : Nat) (c : Str) :
    h1Content (List.replicate d '\t' ++ ("- ".data ++ c)) = none := by
  unfold h1Content
  cases d with
  | zero =>
    have hf : pfxB "# ".data (List.replicate 0 '\t' ++ ("- ".data ++ c)) = false :=
      pfxB_head_ne _ _ (by decide)
    rw [if_neg (fun hcon => Bool.false_ne_true (hf ▸ hcon))]
  | succ n =>
    have hf : pfxB "# ".data (List.replicate (n + 1) '\t' ++ ("- ".data ++ c)) = false :=
      pfxB_head_ne _ _ (by decide)
    rw [if_neg (fun hcon => Bool.false_ne_true (hf ▸ hcon))]

theorem isBlank_shape (d : Nat) (c : Str) :
    isBlankLine (List.replicate d '\t' ++ ("- ".data ++ c)) = false := by
  unfold isBlankLine
  rw [List.all_append]
  have h2 : ("- ".data ++ c).all pySpace = false := by
    show (pySpace '-' && (' ' :: c).all pySpace) = false
    rw [show pySpace '-' = false from rfl, Bool.false_and]
  rw [h2, Bool.and_false]

theorem liContent_itemLine (x : Item) (d : Nat) :
    liContent (itemLine x d) = some (d, contentOf x) := by
  rw [itemLine_eq]
  exact liContent_shape d (contentOf x)

theorem h1Content_itemLine (x : Item) (d : Nat) : h1Content (itemLine x d) = none := by
  rw [itemLine_eq]
  exact h1Content_shape d (contentOf x)

theorem isBlank_itemLine (x : Item) (d : Nat) : isBlankLine (itemLine x d) = false := by
  rw [itemLine_eq]
  exact isBlank_shape d (contentOf x)

theorem h1Content_heading {nm : Str} (hs : pyStrip nm = nm) :
    h1Content ("# ".data ++ nm) = some nm := by
  unfold h1Content
  rw [if_pos (show pfxB "# ".data ("# ".data ++ nm) = true from rfl),
    show ("# ".data ++ nm).drop 2 = nm from rfl, hs]

theorem isBlank_heading (nm : Str) : isBlankLine ("# ".data ++ nm) = false := by
  show (pySpace '#' && (' ' :: nm).all pySpace) = false
  rw [show pySpace '#' = false from rfl, Bool.false_and]

theorem liContent_heading (nm : Str) : liContent ("# ".data ++ nm) = none := by
  simp only [liContent]
  rw [show ("# ".data ++ nm).takeWhile (· == '\t') = ([] : Str) from
    List.takeWhile_cons_of_neg (by decide)]
  have hf : pfxB "- ".data (("# ".data ++ nm).drop (List.length ([] : Str))) = false :=
    pfxB_head_ne _ _ (by decide)
  rw [if_neg (fun hcon => Bool.false_ne_true (hf ▸ hcon))]

/- ===== Universal round trip: content tokenization ===== -/

theorem uuidHref_clean (v : Nat) :
    ∀ ch ∈ "uuid:".data ++ str_uuid v, cleanChar ch = true := by
  intro ch hm
  rcases List.mem_append.mp hm with hm1 | hm2
  · have hl : ∀ c ∈ "uuid:".data, cleanChar c = true := by decide
    exact hl ch hm1
  · exact str_uuid_clean v ch hm2

theorem contentOf_plain (nm : Str) (cs : List Item) :
    contentOf (Item.mk nm none cs false) = nm := by
  unfold contentOf
  simp [Item.hoisted, Item.name, Item.uuid]

theorem contentOf_plainU (nm : Str) (v : Nat) (cs : List Item) :
    contentOf (Item.mk nm (some v) cs false) =
      nm ++ (" [](".data ++ (("uuid:".data ++ str_uuid v) ++ [')'])) := by
  unfold contentOf
  rw [show " [](uuid:".data = " [](".data ++ "uuid:".data from rfl]
  simp [Item.hoisted, Item.name, Item.uuid, List.append_assoc]

theorem contentOf_hoist (nm : Str) (cs : List Item) :
    contentOf (Item.mk nm none cs true) = "[[#".data ++ (nm ++ "]]".data) := by
  unfold contentOf
  simp [Item.hoisted, Item.name, Item.uuid, List.append_assoc]

theorem contentOf_hoistU (nm : Str) (v : Nat) (cs : List Item) :
    contentOf (Item.mk nm (some v) cs true) =
      "[[#".data ++ ((nm ++ "]]".data) ++
        (" [](".data ++ (("uuid:".data ++ str_uuid v) ++ [')']))) := by
  unfold contentOf
  rw [show " [](uuid:".data = " [](".data ++ "uuid:".data from rfl]
  simp [Item.hoisted, Item.name, Item.uuid, List.append_assoc]

theorem lastIdx_none_of_not_mem {p : Char} {pat l : Str} (hp : p ∈ pat)
    (h : ∀ ch ∈ l, ch ≠ p) : lastIdx pat l = none := by
  induction l with
  | nil =>
    unfold lastIdx
    rw [if_neg]
    intro he
    rw [List.isEmpty_iff] at he
    rw [he] at hp
    exact absurd hp (List.not_mem_nil p)
  | cons c cs ih =>
    show (match lastIdx pat cs with
      | some i => some (i + 1)
      | none => if pfxB pat (c :: cs) = true then some 0 else none) = none
    rw [ih (fun ch hm => h ch (List.mem_cons_of_mem _ hm))]
    rw [if_neg]
    intro hcon
    exact h p (pfxB_mem hcon p hp) rfl

theorem lastIdx_cons_none {pat : Str} {c : Char} {cs : Str}
    (h1 : lastIdx pat cs = none) (h2 : pfxB pat (c :: cs) = false) :
    lastIdx pat (c :: cs) = none := by
  show (match lastIdx pat cs with
    | some i => some (i + 1)
    | none => if pfxB pat (c :: cs) = true then some 0 else none) = none
  rw [h1, if_neg (fun hcon => Bool.false_ne_true (h2 ▸ hcon))]

theorem lastIdx_close_tail {tail : Str} (h0 : pfxB [']'] tail = false)
    (h1 : lastIdx "]]".data tail = none) :
    lastIdx "]]".data ("]]".data ++ tail) = some 0 := by
  have h2 : lastIdx "]]".data (']' :: tail) = none := by
    show (match lastIdx "]]".data tail with
      | some i => some (i + 1)
      | none => if pfxB "]]".data (']' :: tail) = true then some 0 else none) = none
    rw [h1]
    rw [if_neg]
    intro hcon
    have he : pfxB "]]".data (']' :: tail) = ((']' == ']') && pfxB [']'] tail) := rfl
    rw [he, h0, Bool.and_false] at hcon
    exact Bool.false_ne_true hcon
  show (match lastIdx "]]".data (']' :: tail) with
    | some i => some (i + 1)
    | none => if pfxB "]]".data (']' :: (']' :: tail)) = true then some 0 else none) = some 0
  rw [h2]
  rw [if_pos (show pfxB "]]".data (']' :: (']' :: tail)) = true from rfl)]

theorem linkParts_spaceLink {href : Str} (hhrp : ∀ ch ∈ href, ch ≠ ')') (fuel : Nat) :
    linkParts (fuel + 1) (" [](".data ++ (href ++ [')'])) =
      [PNode.nstr [' '], PNode.link href] := by
  have h2 : firstIdx "[](".data ("[](".data ++ (href ++ [')'])) = some 0 :=
    firstIdx_self_prefix '[' [']', '('] (href ++ [')'])
  have h1 : firstIdx "[](".data (" [](".data ++ (href ++ [')'])) = some 1 := by
    show firstIdx "[](".data (' ' :: ("[](".data ++ (href ++ [')']))) = some 1
    rw [firstIdx_cons_neg (pfxB_cons_ne _ _ (by decide)), h2]
    rfl
  have hk : firstIdx [')'] (href ++ [')']) = some (0 + href.length) := by
    have hsh := @firstIdx_append_shift ')' [] href hhrp [')']
    rw [show firstIdx [')'] (href ++ [')']) =
        (firstIdx [')'] [')']).map (· + href.length) from hsh]
    rfl
  have hdrop : (" [](".data ++ (href ++ [')'])).drop (1 + 3) = href ++ [')'] := rfl
  have htake1 : (" [](".data ++ (href ++ [')'])).take 1 = ([' '] : Str) := rfl
  have htk2 : (href ++ [')']).take (0 + href.length) = href := by
    rw [Nat.zero_add, List.take_left]
  have hdr2 : (href ++ [')']).drop (0 + href.length + 1) = ([] : Str) := by
    rw [Nat.zero_add, drop_len_add]
    rfl
  show (match firstIdx "[](".data (" [](".data ++ (href ++ [')'])) with
    | none => if (" [](".data ++ (href ++ [')'])).isEmpty then []
        else [PNode.nstr (" [](".data ++ (href ++ [')']))]
    | some i =>
      match firstIdx [')'] ((" [](".data ++ (href ++ [')'])).drop (i + 3)) with
      | none => if (" [](".data ++ (href ++ [')'])).isEmpty then []
          else [PNode.nstr (" [](".data ++ (href ++ [')']))]
      | some k =>
        (if ((" [](".data ++ (href ++ [')'])).take i).isEmpty then []
         else [PNode.nstr ((" [](".data ++ (href ++ [')'])).take i)]) ++
          PNode.link (((" [](".data ++ (href ++ [')'])).drop (i + 3)).take k) ::
            linkParts fuel (((" [](".data ++ (href ++ [')'])).drop (i + 3)).drop (k + 1))) = _
  simp only [h1, hdrop, hk, htk2, hdr2, linkParts_nil]
  rfl

theorem inlineParts_hoistLink {x href : Str} (hx0 : x ≠ [])
    (hxbr : ∀ ch ∈ x, ch ≠ ']') (hhbr : ∀ ch ∈ href, ch ≠ ']')
    (hhrp : ∀ ch ∈ href, ch ≠ ')') (fuel : Nat) :
    inlineParts (fuel + 1)
      ("[[#".data ++ ((x ++ "]]".data) ++ (" [](".data ++ (href ++ [')'])))) =
      [PNode.ref x, PNode.nstr [' '], PNode.link href] := by
  have hi : firstIdx "[[#".data
      ("[[#".data ++ ((x ++ "]]".data) ++ (" [](".data ++ (href ++ [')'])))) = some 0 :=
    firstIdx_self_prefix '[' ['[', '#'] _
  have hRnobr : ∀ ch ∈ href ++ [')'], ch ≠ ']' := by
    intro ch hm
    rcases List.mem_append.mp hm with hm1 | hm2
    · exact hhbr ch hm1
    · intro he; subst he; exact absurd hm2 (by decide)
  have hnone0 : lastIdx "]]".data (href ++ [')']) = none :=
    lastIdx_none_of_not_mem (show ']' ∈ "]]".data by decide) hRnobr
  have hnone1 : lastIdx "]]".data ('(' :: (href ++ [')'])) = none :=
    lastIdx_cons_none hnone0 (pfxB_head_ne _ _ (by decide))
  have hnone2 : lastIdx "]]".data (']' :: ('(' :: (href ++ [')']))) = none := by
    refine lastIdx_cons_none hnone1 ?_
    show ((']' == ']') && pfxB [']'] ('(' :: (href ++ [')']))) = false
    rw [@pfxB_cons_ne ']' [] '(' _ (by decide)]
    rfl
  have hnone3 : lastIdx "]]".data ('[' :: (']' :: ('(' :: (href ++ [')'])))) = none :=
    lastIdx_cons_none hnone2 (pfxB_head_ne _ _ (by decide))
  have hnone4 : lastIdx "]]".data (' ' :: ('[' :: (']' :: ('(' :: (href ++ [')']))))) =
      none :=
    lastIdx_cons_none hnone3 (pfxB_head_ne _ _ (by decide))
  have hbase : lastIdx "]]".data ("]]".data ++ (" [](".data ++ (href ++ [')']))) =
      some 0 :=
    lastIdx_close_tail (@pfxB_cons_ne ']' [] ' ' _ (by decide)) hnone4
  have hshape : "[[#".data ++ ((x ++ "]]".data) ++ (" [](".data ++ (href ++ [')']))) =
      ("[[#".data ++ x) ++ ("]]".data ++ (" [](".data ++ (href ++ [')']))) := by
    simp [List.append_assoc]
  have hj : lastIdx "]]".data
      ("[[#".data ++ ((x ++ "]]".data) ++ (" [](".data ++ (href ++ [')'])))) =
      some (("[[#".data ++ x).length + 0) := by
    rw [hshape]
    exact lastIdx_append_found hbase _
  have hlen : ("[[#".data ++ x).length + 0 = x.length + 3 := by
    simp
  have hdr : ("[[#".data ++ ((x ++ "]]".data) ++ (" [](".data ++ (href ++ [')'])))).drop
      (0 + 3) = (x ++ "]]".data) ++ (" [](".data ++ (href ++ [')'])) := rfl
  have htk : ((x ++ "]]".data) ++ (" [](".data ++ (href ++ [')']))).take
      (x.length + 3 - (0 + 3)) = x := by
    have hsh : x.length + 3 - (0 + 3) = x.length := by omega
    rw [hsh, List.append_assoc, List.take_left]
  have htk0 : ("[[#".data ++ ((x ++ "]]".data) ++ (" [](".data ++ (href ++ [')'])))).take 0
      = ([] : Str) := rfl
  have hdr2 : ("[[#".data ++ ((x ++ "]]".data) ++ (" [](".data ++ (href ++ [')'])))).drop
      (x.length + 3 + 2) = " [](".data ++ (href ++ [')']) := by
    have hshape2 : "[[#".data ++ ((x ++ "]]".data) ++ (" [](".data ++ (href ++ [')']))) =
        ("[[#".data ++ (x ++ "]]".data)) ++ (" [](".data ++ (href ++ [')'])) := by
      simp [List.append_assoc]
    have hlen2 : x.length + 3 + 2 = ("[[#".data ++ (x ++ "]]".data)).length + 0 := by
      simp [List.length_append]
    rw [hshape2, hlen2, drop_len_add]
    rfl
  have hxlen : 0 < x.length := List.length_pos.mpr hx0
  unfold inlineParts
  rw [hi, hj]
  simp only [hlen]
  rw [if_pos (show 0 + 3 < x.length + 3 by omega)]
  rw [hdr, htk, htk0, hdr2, linkParts_spaceLink hhrp fuel]
  rfl

theorem tokens_plain {nm : Str} (hc : cleanName nm = true) (cs : List Item) (fuel : Nat) :
    inlineParts fuel (contentOf (Item.mk nm none cs false)) =
      liPartsOf (Item.mk nm none cs false) := by
  obtain ⟨h0, _, hC⟩ := cleanName_parts hc
  rw [contentOf_plain,
    show liPartsOf (Item.mk nm none cs false) = [PNode.nstr nm] from rfl]
  exact inlineParts_plain h0 (fun ch hm => (cleanChar_ne (hC ch hm)).2.2.1) fuel

theorem tokens_plainU {nm : Str} (hc : cleanName nm = true) (v : Nat) (cs : List Item)
    (fuel : Nat) :
    inlineParts (fuel + 1) (contentOf (Item.mk nm (some v) cs false)) =
      liPartsOf (Item.mk nm (some v) cs false) := by
  obtain ⟨h0, _, hC⟩ := cleanName_parts hc
  rw [contentOf_plainU,
    show liPartsOf (Item.mk nm (some v) cs false)
      = [PNode.nstr (nm ++ [' ']), PNode.link ("uuid:".data ++ str_uuid v)] from rfl]
  exact inlineParts_link h0
    (fun ch hm => (cleanChar_ne (hC ch hm)).2.2.1)
    (fun ch hm => (cleanChar_ne (hC ch hm)).2.2.2.2.1)
    (fun ch hm => (cleanChar_ne (uuidHref_clean v ch hm)).2.2.1)
    (fun ch hm => (cleanChar_ne (uuidHref_clean v ch hm)).2.2.2.2.1)
    (fun ch hm => (cleanChar_ne (uuidHref_clean v ch hm)).2.2.2.2.2.2)
    fuel

theorem tokens_hoist {nm : Str} (hc : cleanName nm = true) (cs : List Item) (fuel : Nat) :
    inlineParts fuel (contentOf (Item.mk nm none cs true)) =
      liPartsOf (Item.mk nm none cs true) := by
  obtain ⟨h0, _, _⟩ := cleanName_parts hc
  rw [contentOf_hoist,
    show liPartsOf (Item.mk nm none cs true) = [PNode.ref nm] from rfl]
  exact inlineParts_hoist h0 fuel

theorem tokens_hoistU {nm : Str} (hc : cleanName nm = true) (v : Nat) (cs : List Item)
    (fuel : Nat) :
    inlineParts (fuel + 1) (contentOf (Item.mk nm (some v) cs true)) =
      liPartsOf (Item.mk nm (some v) cs true) := by
  obtain ⟨h0, _, hC⟩ := cleanName_parts hc
  rw [contentOf_hoistU,
    show liPartsOf (Item.mk nm (some v) cs true)
      = [PNode.ref nm, PNode.nstr [' '], PNode.link ("uuid:".data ++ str_uuid v)] from rfl]
  exact inlineParts_hoistLink h0
    (fun ch hm => (cleanChar_ne (hC ch hm)).2.2.2.1)
    (fun ch hm => (cleanChar_ne (uuidHref_clean v ch hm)).2.2.2.1)
    (fun ch hm => (cleanChar_ne (uuidHref_clean v ch hm)).2.2.2.2.2.2)
    fuel

/-- Any clean item's content re-tokenizes to exactly its token list. -/
theorem tokens_item (x : Item) (hc : cleanItem x = true) (fuel : Nat) :
    inlineParts (fuel + 1) (contentOf x) = liPartsOf x := by
  obtain ⟨nm, u, cs, ho⟩ := x
  have hn := (cleanItem_parts hc).1
  cases u with
  | none =>
    cases ho with
    | false => exact tokens_plain hn cs (fuel + 1)
    | true => exact tokens_hoist hn cs (fuel + 1)
  | some v =>
    cases ho with
    | false => exact tokens_plainU hn v cs fuel
    | true => exact tokens_hoistU hn v cs fuel

/- ===== Universal round trip: list grouping ===== -/

theorem takeWhile_append_pos {α : Type} (p : α → Bool) :
    ∀ (l1 l2 : List α), (∀ a ∈ l1, p a = true) →
      (l1 ++ l2).takeWhile p = l1 ++ l2.takeWhile p := by
  intro l1
  induction l1 with
  | nil => intro l2 _; rfl
  | cons a l ih =>
    intro l2 h
    rw [List.cons_append, List.takeWhile_cons_of_pos (h a (List.mem_cons_self a l)),
      ih l2 (fun b hb => h b (List.mem_cons_of_mem a hb))]
    rfl

theorem dropWhile_append_pos {α : Type} (p : α → Bool) :
    ∀ (l1 l2 : List α), (∀ a ∈ l1, p a = true) →
      (l1 ++ l2).dropWhile p = l2.dropWhile p := by
  intro l1
  induction l1 with
  | nil => intro l2 _; rfl
  | cons a l ih =>
    intro l2 h
    rw [List.cons_append, List.dropWhile_cons_of_pos (h a (List.mem_cons_self a l)),
      ih l2 (fun b hb => h b (List.mem_cons_of_mem a hb))]

theorem itemsPairs_head (y : Item) (ys : List Item) (d : Nat) :
    ∃ rest, itemsPairs (y :: ys) d = (d, contentOf y) :: rest := by
  obtain ⟨nm, u, cs, ho⟩ := y
  exact ⟨_, rfl⟩

mutual

theorem itemPairs_depth : ∀ (x : Item) (d : Nat), ∀ pr ∈ itemPairs x d, d ≤ pr.1
  | .mk nm u cs ho, d, pr, hm => by
    rw [show itemPairs (.mk nm u cs ho) d = (d, contentOf (.mk nm u cs ho)) ::
      (if ho then [] else itemsPairs cs (d + 1)) from rfl] at hm
    rcases List.mem_cons.mp hm with rfl | hm2
    · exact le_refl d
    · cases ho with
      | true => simp at hm2
      | false =>
        rw [if_neg (by decide)] at hm2
        have := itemsPairs_depth cs (d + 1) pr hm2
        omega

theorem itemsPairs_depth : ∀ (F : List Item) (d : Nat), ∀ pr ∈ itemsPairs F d, d ≤ pr.1
  | [], _, pr, hm => by cases hm
  | x :: xs, d, pr, hm => by
    rw [show itemsPairs (x :: xs) d = itemPairs x d ++ itemsPairs xs d from rfl] at hm
    rcases List.mem_append.mp hm with hm1 | hm2
    · exact itemPairs_depth x d pr hm1
    · exact itemsPairs_depth xs d pr hm2

end

theorem takeWhile_pairs_nil (xs : List Item) (d : Nat) :
    (itemsPairs xs d).takeWhile (fun p => d < p.1) = [] := by
  cases xs with
  | nil => rfl
  | cons y ys =>
    obtain ⟨rest, heq⟩ := itemsPairs_head y ys d
    rw [heq]
    apply List.takeWhile_cons_of_neg
    simp

theorem dropWhile_pairs_self (xs : List Item) (d : Nat) :
    (itemsPairs xs d).dropWhile (fun p => d < p.1) = itemsPairs xs d := by
  cases xs with
  | nil => rfl
  | cons y ys =>
    obtain ⟨rest, heq⟩ := itemsPairs_head y ys d
    rw [heq]
    apply List.dropWhile_cons_of_neg
    simp

theorem takeWhile_pairs_split (cs xs : List Item) (d : Nat) :
    (itemsPairs cs (d + 1) ++ itemsPairs xs d).takeWhile (fun p => d < p.1) =
      itemsPairs cs (d + 1) := by
  rw [takeWhile_append_pos]
  · rw [takeWhile_pairs_nil, List.append_nil]
  · intro a ha
    have h2 := itemsPairs_depth cs (d + 1) a ha
    exact decide_eq_true (by omega)

theorem dropWhile_pairs_split (cs xs : List Item) (d : Nat) :
    (itemsPairs cs (d + 1) ++ itemsPairs xs d).dropWhile (fun p => d < p.1) =
      itemsPairs xs d := by
  rw [dropWhile_append_pos]
  · exact dropWhile_pairs_self xs d
  · intro a ha
    have h2 := itemsPairs_depth cs (d + 1) a ha
    exact decide_eq_true (by omega)

theorem itemsPairs_ne_nil (y : Item) (ys : List Item) (d : Nat) :
    (itemsPairs (y :: ys) d).isEmpty = false := by
  obtain ⟨rest, heq⟩ := itemsPairs_head y ys d
  rw [heq]
  rfl

/-- The converter's list builder rebuilds exactly the document nodes of
a clean forest from its rendered `(depth, content)` pairs. -/
theorem buildUl_forest : ∀ (fuel : Nat) (F : List Item) (d : Nat),
    itemsSize F < fuel → cleanItems F = true →
    buildUl fuel d (itemsPairs F d) = docNodes F := by
  intro fuel
  induction fuel with
  | zero => intro F d h _; omega
  | succ f ih =>
    intro F d h hclean
    cases F with
    | nil => rfl
    | cons x xs =>
      obtain ⟨nm, u, cs, ho⟩ := x
      have hcx := cleanItems_cons hclean
      have hx1 : itemSize (Item.mk nm u cs ho) = 1 + itemsSize cs := rfl
      have hsz : itemsSize (Item.mk nm u cs ho :: xs)
          = itemSize (Item.mk nm u cs ho) + itemsSize xs := rfl
      have hname := (cleanItem_parts hcx.1).1
      have hf1 : 1 ≤ f := by omega
      obtain ⟨f', rfl⟩ : ∃ f', f = f' + 1 := ⟨f - 1, by omega⟩
      have htok : inlineParts (f' + 1) (contentOf (Item.mk nm u cs ho))
          = liPartsOf (Item.mk nm u cs ho) := tokens_item _ hcx.1 f'
      cases ho with
      | true =>
        have hpairs : itemsPairs (Item.mk nm u cs true :: xs) d =
            (d, contentOf (Item.mk nm u cs true)) :: itemsPairs xs d := rfl
        rw [hpairs, buildUl_step, takeWhile_pairs_nil, dropWhile_pairs_self,
          htok, ih xs d (by omega) hcx.2]
        show PNode.li (liPartsOf (Item.mk nm u cs true) ++ []) :: docNodes xs = _
        rw [show docNodes (Item.mk nm u cs true :: xs)
          = PNode.li (liPartsOf (Item.mk nm u cs true) ++ []) :: docNodes xs from rfl]
      | false =>
        have hpairs : itemsPairs (Item.mk nm u cs false :: xs) d =
            (d, contentOf (Item.mk nm u cs false)) ::
              (itemsPairs cs (d + 1) ++ itemsPairs xs d) := rfl
        rw [hpairs, buildUl_step, takeWhile_pairs_split, dropWhile_pairs_split,
          htok, ih xs d (by omega) hcx.2]
        cases cs with
        | nil =>
          show PNode.li (liPartsOf (Item.mk nm u [] false) ++ []) :: docNodes xs = _
          rw [show docNodes (Item.mk nm u [] false :: xs)
            = PNode.li (liPartsOf (Item.mk nm u [] false) ++ []) :: docNodes xs from rfl]
        | cons c cs' =>
          rw [show (itemsPairs (c :: cs') (d + 1)).isEmpty = false from
            itemsPairs_ne_nil c cs' (d + 1)]
          rw [if_neg (by decide)]
          rw [ih (c :: cs') (d + 1) (by omega) (cleanItem_parts hcx.1).2.2]
          show PNode.li (liPartsOf (Item.mk nm u (c :: cs') false) ++
            [PNode.ulist (docNodes (c :: cs'))]) :: docNodes xs = _
          rw [show docNodes (Item.mk nm u (c :: cs') false :: xs)
            = docNode (Item.mk nm u (c :: cs') false) :: docNodes xs from rfl]
          rw [show docNode (Item.mk nm u (c :: cs') false)
            = PNode.li (liPartsOf (Item.mk nm u (c :: cs') false) ++
              (if (c :: cs').isEmpty then [] else [PNode.ulist (docNodes (c :: cs'))]))
              from rfl]
          rw [show ((c :: cs') : List Item).isEmpty = false from rfl, if_neg (by decide)]

mutual

theorem itemLines_pairs : ∀ (x : Item) (d : Nat), cleanItem x = true →
    (itemLines x d).filterMap liContent = itemPairs x d ∧
    ∀ l ∈ itemLines x d, (liContent l).isSome = true
  | .mk nm u cs ho, d, hc => by
    have hrec : (if ho then ([] : List Str) else itemsLines cs (d + 1)).filterMap liContent
        = (if ho then [] else itemsPairs cs (d + 1)) ∧
        ∀ l ∈ (if ho then ([] : List Str) else itemsLines cs (d + 1)),
          (liContent l).isSome = true := by
      cases ho with
      | true => exact ⟨rfl, fun l hl => by simp at hl⟩
      | false =>
        rw [if_neg (by decide), if_neg (by decide)]
        exact itemsLines_pairs cs (d + 1) (cleanItem_parts hc).2.2
    constructor
    · show (itemLine (.mk nm u cs ho) d ::
        (if ho then [] else itemsLines cs (d + 1))).filterMap liContent = _
      rw [List.filterMap_cons, liContent_itemLine, hrec.1]
      rfl
    · intro l hl
      rw [show itemLines (.mk nm u cs ho) d = itemLine (.mk nm u cs ho) d ::
        (if ho then [] else itemsLines cs (d + 1)) from rfl] at hl
      rcases List.mem_cons.mp hl with rfl | hl2
      · rw [liContent_itemLine]
        rfl
      · exact hrec.2 l hl2

theorem itemsLines_pairs : ∀ (F : List Item) (d : Nat), cleanItems F = true →
    (itemsLines F d).filterMap liContent = itemsPairs F d ∧
    ∀ l ∈ itemsLines F d, (liContent l).isSome = true
  | [], _, _ => ⟨rfl, fun l hl => by cases hl⟩
  | x :: xs, d, hc => by
    have h2 := cleanItems_cons hc
    have hx := itemLines_pairs x d h2.1
    have hxs := itemsLines_pairs xs d h2.2
    constructor
    · show (itemLines x d ++ itemsLines xs d).filterMap liContent = _
      rw [List.filterMap_append, hx.1, hxs.1]
      rfl
    · intro l hl
      rw [show itemsLines (x :: xs) d = itemLines x d ++ itemsLines xs d from rfl] at hl
      rcases List.mem_append.mp hl with hl2 | hl2
      · exact hx.2 l hl2
      · exact hxs.2 l hl2

end

theorem itemsLines_head (y : Item) (ys : List Item) (d : Nat) :
    ∃ rest, itemsLines (y :: ys) d = itemLine y d :: rest := by
  obtain ⟨nm, u, cs, ho⟩ := y
  exact ⟨_, rfl⟩

/-- One rendered list block groups into one `ul` of exactly the
forest's document nodes. -/
theorem groupTop_mainBlock (fuel : Nat) (F : List Item) (rest : List Str)
    (hF : F ≠ []) (hclean : cleanItems F = true) (hfuel : itemsSize F < fuel)
    (hrest : rest = [] ∨ ∃ hd tl, rest = hd :: tl ∧ liContent hd = none) :
    groupTop (fuel + 1) (itemsLines F 0 ++ rest) =
      TopNode.ul (docNodes F) :: groupTop fuel rest := by
  obtain ⟨y, ys, rfl⟩ : ∃ y ys, F = y :: ys := by
    cases F with
    | nil => exact absurd rfl hF
    | cons y ys => exact ⟨y, ys, rfl⟩
  obtain ⟨tail, hhead⟩ := itemsLines_head y ys 0
  have hlp := itemsLines_pairs (y :: ys) 0 hclean
  have htwr : rest.takeWhile (fun x => (liContent x).isSome) = [] := by
    rcases hrest with rfl | ⟨hd, tl, rfl, hno⟩
    · rfl
    · apply List.takeWhile_cons_of_neg
      rw [hno]
      decide
  have hdwr : rest.dropWhile (fun x => (liContent x).isSome) = rest := by
    rcases hrest with rfl | ⟨hd, tl, rfl, hno⟩
    · rfl
    · apply List.dropWhile_cons_of_neg
      rw [hno]
      decide
  have htw : (itemsLines (y :: ys) 0 ++ rest).takeWhile (fun x => (liContent x).isSome)
      = itemsLines (y :: ys) 0 := by
    rw [takeWhile_append_pos _ _ _ hlp.2, htwr, List.append_nil]
  have hdw : (itemsLines (y :: ys) 0 ++ rest).dropWhile (fun x => (liContent x).isSome)
      = rest := by
    rw [dropWhile_append_pos _ _ _ hlp.2, hdwr]
  have hline : itemsLines (y :: ys) 0 ++ rest = itemLine y 0 :: (tail ++ rest) := by
    rw [hhead]
    rfl
  rw [hline]
  rw [groupTop_li (isBlank_itemLine y 0) (h1Content_itemLine y 0)
    (liContent_itemLine y 0) fuel (tail ++ rest)]
  rw [show itemLine y 0 :: (tail ++ rest) = itemsLines (y :: ys) 0 ++ rest from by
    rw [hhead]; rfl]
  rw [htw, hdw, hlp.1, buildUl_forest fuel (y :: ys) 0 hfuel hclean]

/-- The fuel one section run consumes. -/
def secsMeasure : List Item → Nat
  | [] => 0
  | h :: hs => 3 + itemsSize h.children + secsMeasure hs

/-- The rendered hoist sections group into headings and section lists. -/
theorem groupTop_sections : ∀ (P : List Item) (fuel : Nat),
    (∀ h ∈ P, cleanItem h = true) → secsMeasure P + 2 ≤ fuel →
    groupTop fuel (secsLines P ++ [[]]) = secsDoc P := by
  intro P
  induction P with
  | nil =>
    intro fuel _ hfuel
    obtain ⟨g, rfl⟩ : ∃ g, fuel = g + 1 := ⟨fuel - 1, by omega⟩
    show groupTop (g + 1) ([] :: []) = []
    rw [groupTop_blank isBlank_nil]
    obtain ⟨g', rfl⟩ : ∃ g', g = g' + 1 := ⟨g - 1, by omega⟩
    exact groupTop_nil g'
  | cons h hs ih =>
    intro fuel hclean hfuel
    have hch := hclean h (List.mem_cons_self _ _)
    obtain ⟨hname, huuid, hkids⟩ := cleanItem_parts hch
    obtain ⟨hn0, hnstrip, hnC⟩ := cleanName_parts hname
    obtain ⟨g, rfl⟩ : ∃ g, fuel = g + 1 := ⟨fuel - 1, by omega⟩
    have hm1 : secsMeasure (h :: hs) = 3 + itemsSize h.children + secsMeasure hs := rfl
    have hsplit : secsLines (h :: hs) ++ [[]] = ([] : Str) :: (("# ".data ++ h.name) ::
        (itemsLines h.children 0 ++ (secsLines hs ++ [[]]))) := by
      show (secLines h ++ secsLines hs) ++ [[]] = _
      rw [List.append_assoc]
      rfl
    rw [hsplit]
    rw [groupTop_blank isBlank_nil]
    obtain ⟨g', rfl⟩ : ∃ g', g = g' + 1 := ⟨g - 1, by omega⟩
    rw [groupTop_h1 (isBlank_heading h.name) (h1Content_heading hnstrip)]
    have hrestb : secsLines hs ++ [[]] = [] ∨
        ∃ hd tl, secsLines hs ++ [[]] = hd :: tl ∧ liContent hd = none := by
      right
      cases hs with
      | nil => exact ⟨[], [], rfl, liContent_nil⟩
      | cons h2 hs2 => exact ⟨[], _, rfl, liContent_nil⟩
    cases hck : h.children with
    | nil =>
      show TopNode.h1 h.name :: groupTop g' (secsLines hs ++ [[]]) = _
      rw [ih g' (fun x hx => hclean x (List.mem_cons_of_mem _ hx)) (by omega)]
      show _ = (TopNode.h1 h.name :: (if (h.children).isEmpty then []
        else [TopNode.ul (docNodes h.children)])) ++ secsDoc hs
      rw [hck]
      rfl
    | cons c cs' =>
      obtain ⟨g'', rfl⟩ : ∃ g'', g' = g'' + 1 := ⟨g' - 1, by omega⟩
      rw [← hck]
      rw [groupTop_mainBlock g'' h.children (secsLines hs ++ [[]])
        (by rw [hck]; exact List.cons_ne_nil c cs') hkids
        (by omega) hrestb]
      rw [ih g'' (fun x hx => hclean x (List.mem_cons_of_mem _ hx)) (by omega)]
      show TopNode.h1 h.name :: (TopNode.ul (docNodes h.children) :: secsDoc hs) =
        (TopNode.h1 h.name :: (if (h.children).isEmpty then []
          else [TopNode.ul (docNodes h.children)])) ++ secsDoc hs
      rw [hck]
      rfl

/-- Stage G: the whole line list groups into the document soup. -/
theorem groupTop_doc (cs : List Item) (P : List Item) (fuel : Nat)
    (hclean : cleanItems cs = true) (hcleanP : ∀ h ∈ P, cleanItem h = true)
    (hfuel : itemsSize cs + secsMeasure P + 3 ≤ fuel) :
    groupTop fuel (itemsLines cs 0 ++ (secsLines P ++ [[]])) = docTop cs P := by
  cases cs with
  | nil =>
    show groupTop fuel (secsLines P ++ [[]]) = _
    rw [groupTop_sections P fuel hcleanP (by omega)]
    rfl
  | cons y ys =>
    obtain ⟨g, rfl⟩ : ∃ g, fuel = g + 1 := ⟨fuel - 1, by omega⟩
    have hrestb : secsLines P ++ [[]] = [] ∨
        ∃ hd tl, secsLines P ++ [[]] = hd :: tl ∧ liContent hd = none := by
      right
      cases P with
      | nil => exact ⟨[], [], rfl, liContent_nil⟩
      | cons h2 hs2 => exact ⟨[], _, rfl, liContent_nil⟩
    rw [groupTop_mainBlock g (y :: ys) (secsLines P ++ [[]])
      (List.cons_ne_nil y ys) hclean (by omega) hrestb]
    rw [groupTop_sections P g hcleanP (by omega)]
    rfl

/- ===== Universal round trip: list-item parse steps ===== -/

theorem set_append_len {α : Type} : ∀ (s : List α) (x y : α),
    (s ++ [x]).set s.length y = s ++ [y] := by
  intro s
  induction s with
  | nil => intro x y; rfl
  | cons a t ih =>
    intro x y
    show a :: ((t ++ [x]).set t.length y) = a :: (t ++ [y])
    rw [ih]

theorem modifyH_append_self (s : Store) (x : HItem) (f : HItem → HItem) :
    modifyH (s ++ [x]) s.length f = s ++ [f x] := by
  unfold modifyH
  rw [show (s ++ [x]).get? s.length = some x from getH_append_length s x]
  exact set_append_len s x (f x)

/-- Parsing `name` with one sublist: a plain item whose children are
the sublist's items. -/
theorem strSubLi_step (fuel : Nat) (s0 : Str) (cs : List PNode)
    (st : PState) (ids : List Nat) (st2 : PState)
    (hsub : parse_list_f fuel cs
      ⟨st.store ++ [⟨pyStrip s0, none, [], none, false⟩], st.hoists⟩ = some (ids, st2)) :
    parse_list_item_f fuel [PNode.nstr s0, PNode.ulist cs] st =
      some (st.store.length,
        ⟨modifyH st2.store st.store.length (fun it => { it with children := ids }),
          st2.hoists⟩) := by
  show parse_list_item_body (parse_list_f fuel) [PNode.nstr s0, PNode.ulist cs] st = _
  unfold parse_list_item_body
  show (parseSub (parse_list_f fuel) [PNode.nstr s0, PNode.ulist cs]
      st.store.length ⟨st.store ++ [⟨pyStrip s0, none, [], none, false⟩], st.hoists⟩).bind
    (fun st3 => attachUuid [] st.store.length st3) = _
  have hps : parseSub (parse_list_f fuel) [PNode.nstr s0, PNode.ulist cs]
      st.store.length ⟨st.store ++ [⟨pyStrip s0, none, [], none, false⟩], st.hoists⟩ =
      some ⟨modifyH st2.store st.store.length (fun it => { it with children := ids }),
        st2.hoists⟩ := by
    show (parse_list_f fuel cs
      ⟨st.store ++ [⟨pyStrip s0, none, [], none, false⟩], st.hoists⟩).map (fun r =>
        PState.mk (modifyH r.2.store st.store.length
          (fun it => { it with children := r.1 })) r.2.hoists) = _
    rw [hsub]
    rfl
  rw [hps]
  rfl

/-- Parsing `name [](href)` with no sublist: a plain childless item with
the decoded identifier. -/
theorem linkLi_step (fuel : Nat) (s0 href : Str) (u' : Nat) (st : PState)
    (hhref : parse_uuid href = some u') :
    parse_list_item_f fuel [PNode.nstr s0, PNode.link href] st =
      some (st.store.length,
        ⟨modifyH (st.store ++ [⟨pyStrip s0, none, [], none, false⟩]) st.store.length
          (fun it => { it with uuid := some u' }), st.hoists⟩) := by
  show parse_list_item_body (parse_list_f fuel) [PNode.nstr s0, PNode.link href] st = _
  unfold parse_list_item_body
  show (seqOpt [parse_uuid href]).bind (fun uuids =>
    (allocItem [PNode.nstr s0, PNode.link href] st).bind fun r =>
      (parseSub (parse_list_f fuel) [PNode.nstr s0, PNode.link href] r.1 r.2).bind
        fun st3 => attachUuid uuids r.1 st3) = _
  rw [show seqOpt [parse_uuid href] = some [u'] by rw [hhref]; rfl]
  rfl

/-- Parsing `[[#name]] [](href)`: a hoist item, registered, with the
decoded identifier. -/
theorem refLinkLi_step (fuel : Nat) (n s0 href : Str) (u' : Nat) (st : PState)
    (hhref : parse_uuid href = some u') :
    parse_list_item_f fuel [PNode.ref n, PNode.nstr s0, PNode.link href] st =
      some (st.store.length,
        ⟨modifyH (st.store ++ [⟨pyStrip n, none, [], none, true⟩]) st.store.length
          (fun it => { it with uuid := some u' }),
          (pyStrip n, st.store.length) :: st.hoists⟩) := by
  show parse_list_item_body (parse_list_f fuel)
    [PNode.ref n, PNode.nstr s0, PNode.link href] st = _
  unfold parse_list_item_body
  show (seqOpt [parse_uuid href]).bind (fun uuids =>
    (allocItem [PNode.ref n, PNode.nstr s0, PNode.link href] st).bind fun r =>
      (parseSub (parse_list_f fuel) [PNode.ref n, PNode.nstr s0, PNode.link href]
        r.1 r.2).bind fun st3 => attachUuid uuids r.1 st3) = _
  rw [show seqOpt [parse_uuid href] = some [u'] by rw [hhref]; rfl]
  rfl

/- ===== Universal round trip: forest parse ===== -/

mutual

/-- How many heap objects parsing a forest allocates: every node down
to (and including) hoist references, whose children wait for their
sections. -/
def aSize : Item → Nat
  | .mk _ _ cs ho => 1 + (if ho then 0 else aSizeF cs)

def aSizeF : List Item → Nat
  | [] => 0
  | x :: xs => aSize x + aSizeF xs

end

theorem hoistGet_cons_self (nm : Str) (i : Nat) (h : List (Str × Nat)) :
    hoistGet ((nm, i) :: h) nm = some i := by
  unfold hoistGet
  rw [List.find?_cons_of_pos]
  · rfl
  · exact beq_self_eq_true nm

theorem hoistGet_cons_ne {nm t : Str} (hne : nm ≠ t) (i : Nat) (h : List (Str × Nat)) :
    hoistGet ((nm, i) :: h) t = hoistGet h t := by
  unfold hoistGet
  rw [List.find?_cons_of_neg]
  intro hcon
  exact hne (eq_of_beq hcon)

theorem sReal_hoist_eq (st : PState) (nm : Str) (u : Option Nat) (cs : List Item)
    (i : Nat) (ts : List ITree) :
    sReal st (.mk nm u cs true) (.mk i ts) =
      (ts = [] ∧ hoistGet st.hoists nm = some i ∧
        ∃ p, getH st.store i = some ⟨nm, u, [], p, true⟩) := rfl

theorem sReal_plain_eq (st : PState) (nm : Str) (u : Option Nat) (cs : List Item)
    (i : Nat) (ts : List ITree) :
    sReal st (.mk nm u cs false) (.mk i ts) =
      ((∃ p, getH st.store i = some ⟨nm, u, ts.map ITree.id, p, false⟩) ∧
        sRealF st cs ts) := rfl

theorem sRealF_cons_eq (st : PState) (x : Item) (xs : List Item) (t : ITree)
    (ts : List ITree) :
    sRealF st (x :: xs) (t :: ts) = (sReal st x t ∧ sRealF st xs ts) := rfl

mutual

theorem hoistPairs_mem : ∀ (x : Item) (t : ITree), ∀ pr ∈ hoistPairs x t,
    pr.1 ∈ dHoists x
  | .mk nm u cs true, t, pr, hm => by
    rw [show hoistPairs (.mk nm u cs true) t = [(Item.mk nm u cs true, t.id)] from rfl]
      at hm
    rw [List.mem_singleton] at hm
    subst hm
    rw [show dHoists (.mk nm u cs true) = [Item.mk nm u cs true] from by
      show (if true then [Item.mk nm u cs true] else dHoistsF cs) = _
      rw [if_pos rfl]]
    exact List.mem_singleton_self _
  | .mk nm u cs false, t, pr, hm => by
    rw [show hoistPairs (.mk nm u cs false) t = hoistPairsF cs t.children from rfl] at hm
    rw [show dHoists (.mk nm u cs false) = dHoistsF cs from by
      show (if false then [Item.mk nm u cs false] else dHoistsF cs) = _
      rw [if_neg (by decide)]]
    exact hoistPairsF_mem cs t.children pr hm

theorem hoistPairsF_mem : ∀ (F : List Item) (ts : List ITree), ∀ pr ∈ hoistPairsF F ts,
    pr.1 ∈ dHoistsF F
  | [], ts, pr, hm => by cases ts <;> cases hm
  | x :: xs, [], pr, hm => by cases hm
  | x :: xs, t :: ts, pr, hm => by
    rw [show hoistPairsF (x :: xs) (t :: ts) = hoistPairs x t ++ hoistPairsF xs ts
      from rfl] at hm
    rw [show dHoistsF (x :: xs) = dHoists x ++ dHoistsF xs from rfl]
    rcases List.mem_append.mp hm with hm1 | hm2
    · exact List.mem_append_left _ (hoistPairs_mem x t pr hm1)
    · exact List.mem_append_right _ (hoistPairsF_mem xs ts pr hm2)

end

mutual

theorem hoistPairs_fst : ∀ (x : Item) (t : ITree) (st : PState), sReal st x t →
    (hoistPairs x t).map Prod.fst = dHoists x
  | .mk nm u cs true, .mk i ts, st, _ => by
    show [Item.mk nm u cs true] = _
    rw [show dHoists (.mk nm u cs true) = [Item.mk nm u cs true] from by
      show (if true then [Item.mk nm u cs true] else dHoistsF cs) = _
      rw [if_pos rfl]]
  | .mk nm u cs false, .mk i ts, st, hr => by
    show (hoistPairsF cs ts).map Prod.fst = _
    rw [show dHoists (.mk nm u cs false) = dHoistsF cs from by
      show (if false then [Item.mk nm u cs false] else dHoistsF cs) = _
      rw [if_neg (by decide)]]
    rw [sReal_plain_eq] at hr
    exact hoistPairsF_fst cs ts st hr.2

theorem hoistPairsF_fst : ∀ (F : List Item) (ts : List ITree) (st : PState),
    sRealF st F ts → (hoistPairsF F ts).map Prod.fst = dHoistsF F
  | [], [], _, _ => rfl
  | [], t :: ts, _, hr => absurd hr (by rw [show sRealF _ [] (t :: ts) = False from rfl]; exact id)
  | x :: xs, [], _, hr => absurd hr (by rw [show sRealF _ (x :: xs) [] = False from rfl]; exact id)
  | x :: xs, t :: ts, st, hr => by
    rw [sRealF_cons_eq] at hr
    show ((hoistPairs x t ++ hoistPairsF xs ts).map Prod.fst) = dHoistsF (x :: xs)
    rw [List.map_append, hoistPairs_fst x t st hr.1, hoistPairsF_fst xs ts st hr.2]
    rfl

end

mutual

theorem sReal_pending : ∀ (x : Item) (t : ITree) (st : PState), sReal st x t →
    ∀ pr ∈ hoistPairs x t, hoistGet st.hoists pr.1.name = some pr.2 ∧
      ∃ p, getH st.store pr.2 = some ⟨pr.1.name, pr.1.uuid, [], p, true⟩
  | .mk nm u cs true, .mk i ts, st, hr, pr, hm => by
    rw [show hoistPairs (.mk nm u cs true) (.mk i ts)
      = [(Item.mk nm u cs true, (ITree.mk i ts).id)] from rfl, List.mem_singleton] at hm
    subst hm
    rw [sReal_hoist_eq] at hr
    exact ⟨hr.2.1, hr.2.2⟩
  | .mk nm u cs false, .mk i ts, st, hr, pr, hm => by
    rw [show hoistPairs (.mk nm u cs false) (.mk i ts) = hoistPairsF cs ts from rfl] at hm
    rw [sReal_plain_eq] at hr
    exact sRealF_pending cs ts st hr.2 pr hm

theorem sRealF_pending : ∀ (F : List Item) (ts : List ITree) (st : PState),
    sRealF st F ts → ∀ pr ∈ hoistPairsF F ts,
      hoistGet st.hoists pr.1.name = some pr.2 ∧
      ∃ p, getH st.store pr.2 = some ⟨pr.1.name, pr.1.uuid, [], p, true⟩
  | [], ts, _, _, pr, hm => by cases ts <;> cases hm
  | x :: xs, [], _, _, pr, hm => by cases hm
  | x :: xs, t :: ts, st, hr, pr, hm => by
    rw [sRealF_cons_eq] at hr
    rw [show hoistPairsF (x :: xs) (t :: ts) = hoistPairs x t ++ hoistPairsF xs ts
      from rfl] at hm
    rcases List.mem_append.mp hm with hm1 | hm2
    · exact sReal_pending x t st hr.1 pr hm1
    · exact sRealF_pending xs ts st hr.2 pr hm2

end

mutual

theorem sReal_stable : ∀ (x : Item) (t : ITree) (st st' : PState), sReal st x t →
    (∀ j ∈ itreeIds t, getH st'.store j = getH st.store j) →
    (∀ pr ∈ hoistPairs x t, hoistGet st'.hoists pr.1.name = hoistGet st.hoists pr.1.name) →
    sReal st' x t
  | .mk nm u cs true, .mk i ts, st, st', hr, hg, hh => by
    rw [sReal_hoist_eq] at hr
    rw [sReal_hoist_eq]
    have hmem : (Item.mk nm u cs true, (ITree.mk i ts).id) ∈
        hoistPairs (Item.mk nm u cs true) (ITree.mk i ts) := by
      rw [show hoistPairs (.mk nm u cs true) (.mk i ts)
        = [(Item.mk nm u cs true, (ITree.mk i ts).id)] from rfl]
      exact List.mem_singleton_self _
    have h2 := hh _ hmem
    refine ⟨hr.1, ?_, ?_⟩
    · exact h2.trans hr.2.1
    · rw [hg i (root_mem_itreeIds (.mk i ts))]
      exact hr.2.2
  | .mk nm u cs false, .mk i ts, st, st', hr, hg, hh => by
    rw [sReal_plain_eq] at hr ⊢
    constructor
    · rw [hg i (root_mem_itreeIds (.mk i ts))]
      exact hr.1
    · refine sRealF_stable cs ts st st' hr.2 ?_ ?_
      · intro j hj
        exact hg j (children_ids_subset (.mk i ts) hj)
      · intro pr hpr
        exact hh pr (by rw [show hoistPairs (.mk nm u cs false) (.mk i ts)
          = hoistPairsF cs ts from rfl]; exact hpr)

theorem sRealF_stable : ∀ (F : List Item) (ts : List ITree) (st st' : PState),
    sRealF st F ts →
    (∀ j ∈ itreesIds ts, getH st'.store j = getH st.store j) →
    (∀ pr ∈ hoistPairsF F ts, hoistGet st'.hoists pr.1.name = hoistGet st.hoists pr.1.name) →
    sRealF st' F ts
  | [], [], _, _, _, _, _ => trivial
  | [], t :: ts, _, _, hr, _, _ =>
    absurd hr (by rw [show sRealF _ [] (t :: ts) = False from rfl]; exact id)
  | x :: xs, [], _, _, hr, _, _ =>
    absurd hr (by rw [show sRealF _ (x :: xs) [] = False from rfl]; exact id)
  | x :: xs, t :: ts, st, st', hr, hg, hh => by
    rw [sRealF_cons_eq] at hr ⊢
    constructor
    · refine sReal_stable x t st st' hr.1 ?_ ?_
      · intro j hj
        refine hg j ?_
        rw [itreesIds_cons, List.mem_append]
        exact Or.inl hj
      · intro pr hpr
        refine hh pr ?_
        rw [show hoistPairsF (x :: xs) (t :: ts) = hoistPairs x t ++ hoistPairsF xs ts
          from rfl, List.mem_append]
        exact Or.inl hpr
    · refine sRealF_stable xs ts st st' hr.2 ?_ ?_
      · intro j hj
        refine hg j ?_
        rw [itreesIds_cons, List.mem_append]
        exact Or.inr hj
      · intro pr hpr
        refine hh pr ?_
        rw [show hoistPairsF (x :: xs) (t :: ts) = hoistPairs x t ++ hoistPairsF xs ts
          from rfl, List.mem_append]
        exact Or.inr hpr

end

/-- The token list inside one item's `li` node. -/
def docParts (x : Item) : List PNode :=
  liPartsOf x ++ (if x.hoisted then []
    else if x.children.isEmpty then [] else [PNode.ulist (docNodes x.children)])

theorem docNode_eq_li (x : Item) : docNode x = PNode.li (docParts x) := by
  obtain ⟨nm, u, cs, ho⟩ := x
  rfl

/-- The forest-parse induction statement: parsing the document nodes of
a clean forest succeeds, purely extends the store, registers exactly the
direct hoists, and shallowly realizes the forest at fresh distinct
ids. -/
def PF (N : Nat) : Prop :=
  ∀ (F : List Item) (fuel : Nat) (st : PState),
    itemsSize F ≤ N → itemsSize F < fuel → cleanItems F = true →
    ((dHoistsF F).map Item.name).Nodup →
    ∃ ts : List ITree, ∃ st' : PState,
      parse_list_f fuel (docNodes F) st = some (ts.map ITree.id, st') ∧
      st'.store.length = st.store.length + aSizeF F ∧
      (∀ j, j < st.store.length → getH st'.store j = getH st.store j) ∧
      (∀ nm, nm ∉ (dHoistsF F).map Item.name →
        hoistGet st'.hoists nm = hoistGet st.hoists nm) ∧
      sRealF st' F ts ∧
      (∀ j ∈ itreesIds ts, st.store.length ≤ j ∧ j < st'.store.length) ∧
      (itreesIds ts).Nodup

theorem len_lt_append (s : Store) (e : HItem) : s.length < (s ++ [e]).length := by
  rw [List.length_append]
  simp

/-- One list item's parse step, uniformly over the six token shapes. -/
theorem parse_item_step (N : Nat) (ihF : PF N) (x : Item) (f : Nat) (st : PState)
    (hfuel : itemSize x ≤ f) (hN : itemSize x ≤ N + 1) (hclean : cleanItem x = true)
    (hnd : ((dHoists x).map Item.name).Nodup) :
    ∃ tx : ITree, ∃ stA : PState,
      parse_list_item_f f (docParts x) st = some (ITree.id tx, stA) ∧
      ITree.id tx = st.store.length ∧
      stA.store.length = st.store.length + aSize x ∧
      (∀ j, j < st.store.length → getH stA.store j = getH st.store j) ∧
      (∀ nm', nm' ∉ (dHoists x).map Item.name →
        hoistGet stA.hoists nm' = hoistGet st.hoists nm') ∧
      sReal stA x tx ∧
      (∀ j ∈ itreeIds tx, st.store.length ≤ j ∧ j < stA.store.length) ∧
      (itreeIds tx).Nodup := by
  obtain ⟨nm, u, cs, ho⟩ := x
  obtain ⟨hnameC, huuid, hkidsC⟩ := cleanItem_parts hclean
  obtain ⟨hn0, hnstrip, hnC⟩ := cleanName_parts hnameC
  have hstrip2 : pyStrip nm = nm := hnstrip
  have hkids2 : cleanItems cs = true := hkidsC
  cases ho with
  | true =>
    have hdn : (dHoists (Item.mk nm u cs true)).map Item.name = [nm] := rfl
    have hsz : aSize (Item.mk nm u cs true) = 1 := rfl
    have htid : ITree.id (ITree.mk st.store.length []) = st.store.length := rfl
    have hids : itreeIds (ITree.mk st.store.length []) = [st.store.length] := rfl
    cases u with
    | none =>
      refine ⟨ITree.mk st.store.length [],
        ⟨st.store ++ [⟨nm, none, [], none, true⟩],
          (nm, st.store.length) :: st.hoists⟩, ?_, rfl, ?_, ?_, ?_, ?_, ?_, ?_⟩
      · rw [show docParts (Item.mk nm none cs true) = [PNode.ref nm] from rfl,
          refLi_step f nm st, hstrip2]
        rfl
      · show (st.store ++ ([⟨nm, none, [], none, true⟩] : Store)).length = _
        rw [List.length_append, hsz]
        rfl
      · intro j hj
        exact getH_append_lt _ hj
      · intro nm' hnm'
        rw [hdn, List.mem_singleton] at hnm'
        exact hoistGet_cons_ne (fun he => hnm' he.symm) _ _
      · rw [sReal_hoist_eq]
        exact ⟨rfl, hoistGet_cons_self nm _ _, ⟨none, getH_append_length st.store _⟩⟩
      · intro j hj
        rw [hids, List.mem_singleton] at hj
        subst hj
        exact ⟨le_refl _, len_lt_append st.store _⟩
      · rw [hids]
        exact List.nodup_singleton _
    | some v =>
      have hv : v < 2 ^ 128 := huuid v rfl
      refine ⟨ITree.mk st.store.length [],
        ⟨st.store ++ [⟨nm, some v, [], none, true⟩],
          (nm, st.store.length) :: st.hoists⟩, ?_, rfl, ?_, ?_, ?_, ?_, ?_, ?_⟩
      · rw [show docParts (Item.mk nm (some v) cs true)
          = [PNode.ref nm, PNode.nstr [' '],
             PNode.link ("uuid:".data ++ str_uuid v)] from rfl,
          refLinkLi_step f nm [' '] ("uuid:".data ++ str_uuid v) v st
            (parse_uuid_link hv), hstrip2, modifyH_append_self]
        rfl
      · show (st.store ++ ([⟨nm, some v, [], none, true⟩] : Store)).length = _
        rw [List.length_append, hsz]
        rfl
      · intro j hj
        exact getH_append_lt _ hj
      · intro nm' hnm'
        rw [hdn, List.mem_singleton] at hnm'
        exact hoistGet_cons_ne (fun he => hnm' he.symm) _ _
      · rw [sReal_hoist_eq]
        exact ⟨rfl, hoistGet_cons_self nm _ _, ⟨none, getH_append_length st.store _⟩⟩
      · intro j hj
        rw [hids, List.mem_singleton] at hj
        subst hj
        exact ⟨le_refl _, len_lt_append st.store _⟩
      · rw [hids]
        exact List.nodup_singleton _
  | false =>
    have hdn : (dHoists (Item.mk nm u cs false)).map Item.name
        = (dHoistsF cs).map Item.name := rfl
    cases cs with
    | nil =>
      have hsz : aSize (Item.mk nm u [] false) = 1 := rfl
      have hids : itreeIds (ITree.mk st.store.length []) = [st.store.length] := rfl
      cases u with
      | none =>
        refine ⟨ITree.mk st.store.length [],
          ⟨st.store ++ [⟨nm, none, [], none, false⟩], st.hoists⟩,
          ?_, rfl, ?_, ?_, ?_, ?_, ?_, ?_⟩
        · rw [show docParts (Item.mk nm none [] false) = [PNode.nstr nm] from rfl,
            strLi_step f nm st, hstrip2]
          rfl
        · show (st.store ++ ([⟨nm, none, [], none, false⟩] : Store)).length = _
          rw [List.length_append, hsz]
          rfl
        · intro j hj
          exact getH_append_lt _ hj
        · intro nm' _
          rfl
        · rw [sReal_plain_eq]
          exact ⟨⟨none, getH_append_length st.store _⟩, trivial⟩
        · intro j hj
          rw [hids, List.mem_singleton] at hj
          subst hj
          exact ⟨le_refl _, len_lt_append st.store _⟩
        · rw [hids]
          exact List.nodup_singleton _
      | some v =>
        have hv : v < 2 ^ 128 := huuid v rfl
        refine ⟨ITree.mk st.store.length [],
          ⟨st.store ++ [⟨nm, some v, [], none, false⟩], st.hoists⟩,
          ?_, rfl, ?_, ?_, ?_, ?_, ?_, ?_⟩
        · rw [show docParts (Item.mk nm (some v) [] false)
            = [PNode.nstr (nm ++ [' ']), PNode.link ("uuid:".data ++ str_uuid v)] from rfl,
            linkLi_step f (nm ++ [' ']) ("uuid:".data ++ str_uuid v) v st
              (parse_uuid_link hv),
            pyStrip_append_space, hstrip2, modifyH_append_self]
          rfl
        · show (st.store ++ ([⟨nm, some v, [], none, false⟩] : Store)).length = _
          rw [List.length_append, hsz]
          rfl
        · intro j hj
          exact getH_append_lt _ hj
        · intro nm' _
          rfl
        · rw [sReal_plain_eq]
          exact ⟨⟨none, getH_append_length st.store _⟩, trivial⟩
        · intro j hj
          rw [hids, List.mem_singleton] at hj
          subst hj
          exact ⟨le_refl _, len_lt_append st.store _⟩
        · rw [hids]
          exact List.nodup_singleton _
    | cons c cs' =>
      have hsz : aSize (Item.mk nm u (c :: cs') false) = 1 + aSizeF (c :: cs') := rfl
      have hszI : itemSize (Item.mk nm u (c :: cs') false)
          = 1 + itemsSize (c :: cs') := rfl
      obtain ⟨tsc, stB, hB1, hB2, hB3, hB4, hB5, hB6, hB7⟩ :=
        ihF (c :: cs') f ⟨st.store ++ [⟨nm, none, [], none, false⟩], st.hoists⟩
          (by omega) (by omega) hkids2 (by exact hnd)
      have hstPlen : (⟨st.store ++ [⟨nm, none, [], none, false⟩],
          st.hoists⟩ : PState).store.length = st.store.length + 1 := by
        show (st.store ++ ([⟨nm, none, [], none, false⟩] : Store)).length = _
        rw [List.length_append]
        rfl
      have hixlt : st.store.length <
          (⟨st.store ++ [⟨nm, none, [], none, false⟩], st.hoists⟩ : PState).store.length := by
        omega
      have hentry : getH stB.store st.store.length
          = some ⟨nm, none, [], none, false⟩ := by
        rw [hB3 st.store.length hixlt]
        exact getH_append_length st.store _
      have hcsids : ∀ j ∈ itreesIds tsc, st.store.length + 1 ≤ j ∧ j < stB.store.length := by
        intro j hj
        have := hB6 j hj
        omega
      cases u with
      | none =>
        refine ⟨ITree.mk st.store.length tsc,
          ⟨modifyH stB.store st.store.length
            (fun it => { it with children := tsc.map ITree.id }), stB.hoists⟩,
          ?_, rfl, ?_, ?_, ?_, ?_, ?_, ?_⟩
        · rw [show docParts (Item.mk nm none (c :: cs') false)
            = [PNode.nstr nm, PNode.ulist (docNodes (c :: cs'))] from rfl]
          exact strSubLi_step f nm (docNodes (c :: cs')) st (tsc.map ITree.id) stB
            (by rw [hstrip2]; exact hB1)
        · show (modifyH stB.store st.store.length _).length = _
          rw [modifyH_length, hB2, hstPlen, hsz]
          omega
        · intro j hj
          rw [getH_modifyH_other _ (by omega)]
          rw [hB3 j (by omega)]
          exact getH_append_lt _ hj
        · intro nm' hnm'
          exact hB4 nm' (by rw [hdn] at hnm'; exact hnm')
        · rw [sReal_plain_eq]
          constructor
          · exact ⟨none, getH_modifyH_self _ hentry⟩
          · refine sRealF_stable (c :: cs') tsc stB _ hB5 ?_ ?_
            · intro j hj
              show getH (modifyH stB.store st.store.length _) j = getH stB.store j
              exact getH_modifyH_other _ (by have := hcsids j hj; omega)
            · intro pr _
              rfl
        · intro j hj
          rw [itreeIds_mk, List.mem_cons] at hj
          have hlen : (modifyH stB.store st.store.length
              (fun it => { it with children := tsc.map ITree.id })).length
              = stB.store.length := modifyH_length _ _ _
          rcases hj with rfl | hj2
          · refine ⟨le_refl _, ?_⟩
            show List.length st.store < (modifyH stB.store (List.length st.store)
              (fun it => { it with children := tsc.map ITree.id })).length
            rw [hlen]
            omega
          · have h9 := hcsids j hj2
            refine ⟨by omega, ?_⟩
            show j < (modifyH stB.store (List.length st.store)
              (fun it => { it with children := tsc.map ITree.id })).length
            rw [hlen]
            omega
        · rw [itreeIds_mk, List.nodup_cons]
          refine ⟨?_, hB7⟩
          intro hmem
          have := hcsids _ hmem
          omega
      | some v =>
        have hv : v < 2 ^ 128 := huuid v rfl
        refine ⟨ITree.mk st.store.length tsc,
          ⟨modifyH (modifyH stB.store st.store.length
              (fun it => { it with children := tsc.map ITree.id })) st.store.length
            (fun it => { it with uuid := some v }), stB.hoists⟩,
          ?_, rfl, ?_, ?_, ?_, ?_, ?_, ?_⟩
        · rw [show docParts (Item.mk nm (some v) (c :: cs') false)
            = [PNode.nstr (nm ++ [' ']), PNode.link ("uuid:".data ++ str_uuid v),
               PNode.ulist (docNodes (c :: cs'))] from rfl]
          exact linkSubLi_step f (nm ++ [' ']) ("uuid:".data ++ str_uuid v) v
            (docNodes (c :: cs')) st (tsc.map ITree.id) stB (parse_uuid_link hv)
            (by rw [pyStrip_append_space, hstrip2]; exact hB1)
        · show (modifyH (modifyH stB.store st.store.length _) st.store.length _).length = _
          rw [modifyH_length, modifyH_length, hB2, hstPlen, hsz]
          omega
        · intro j hj
          rw [getH_modifyH_other _ (by omega), getH_modifyH_other _ (by omega)]
          rw [hB3 j (by omega)]
          exact getH_append_lt _ hj
        · intro nm' hnm'
          exact hB4 nm' (by rw [hdn] at hnm'; exact hnm')
        · rw [sReal_plain_eq]
          constructor
          · refine ⟨none, ?_⟩
            rw [getH_modifyH_self _ (getH_modifyH_self _ hentry)]
          · refine sRealF_stable (c :: cs') tsc stB _ hB5 ?_ ?_
            · intro j hj
              show getH (modifyH (modifyH stB.store st.store.length _)
                st.store.length _) j = getH stB.store j
              rw [getH_modifyH_other _ (by have := hcsids j hj; omega),
                getH_modifyH_other _ (by have := hcsids j hj; omega)]
            · intro pr _
              rfl
        · intro j hj
          rw [itreeIds_mk, List.mem_cons] at hj
          have hlen : (modifyH (modifyH stB.store st.store.length
              (fun it => { it with children := tsc.map ITree.id })) st.store.length
              (fun it => { it with uuid := some v })).length
              = stB.store.length := by
            rw [modifyH_length, modifyH_length]
          rcases hj with rfl | hj2
          · refine ⟨le_refl _, ?_⟩
            show List.length st.store < (modifyH (modifyH stB.store (List.length st.store)
                (fun it => { it with children := tsc.map ITree.id })) (List.length st.store)
              (fun it => { it with uuid := some v })).length
            rw [hlen]
            omega
          · have h9 := hcsids j hj2
            refine ⟨by omega, ?_⟩
            show j < (modifyH (modifyH stB.store (List.length st.store)
                (fun it => { it with children := tsc.map ITree.id })) (List.length st.store)
              (fun it => { it with uuid := some v })).length
            rw [hlen]
            omega
        · rw [itreeIds_mk, List.nodup_cons]
          refine ⟨?_, hB7⟩
          intro hmem
          have := hcsids _ hmem
          omega

theorem parse_forest : ∀ (N : Nat), PF N := by
  intro N
  induction N with
  | zero =>
    intro F fuel st hN hfuel hclean hnd
    cases F with
    | nil =>
      obtain ⟨f, rfl⟩ : ∃ f, fuel = f + 1 := ⟨fuel - 1, by omega⟩
      exact ⟨[], st, rfl, rfl, fun j _ => rfl, fun nm _ => rfl, trivial,
        fun j hj => absurd hj (List.not_mem_nil j), List.nodup_nil⟩
    | cons x xs =>
      exfalso
      have h1 := itemSize_pos x
      have h2 : itemsSize (x :: xs) = itemSize x + itemsSize xs := rfl
      omega
  | succ n ih =>
    intro F fuel st hN hfuel hclean hnd
    cases F with
    | nil =>
      obtain ⟨f, rfl⟩ : ∃ f, fuel = f + 1 := ⟨fuel - 1, by omega⟩
      exact ⟨[], st, rfl, rfl, fun j _ => rfl, fun nm _ => rfl, trivial,
        fun j hj => absurd hj (List.not_mem_nil j), List.nodup_nil⟩
    | cons x xs =>
      have hclean2 := cleanItems_cons hclean
      have hndsplit : (dHoistsF (x :: xs)).map Item.name
          = (dHoists x).map Item.name ++ (dHoistsF xs).map Item.name := by
        rw [show dHoistsF (x :: xs) = dHoists x ++ dHoistsF xs from rfl, List.map_append]
      rw [hndsplit, List.nodup_append] at hnd
      obtain ⟨hndx, hndxs, hdisj⟩ := hnd
      have hsx : itemsSize (x :: xs) = itemSize x + itemsSize xs := rfl
      have hx1 := itemSize_pos x
      obtain ⟨f, rfl⟩ : ∃ f, fuel = f + 1 := ⟨fuel - 1, by omega⟩
      obtain ⟨tx, stA, hI1, hI2, hI3, hI4, hI5, hI6, hI7, hI8⟩ :=
        parse_item_step n ih x f st (by omega) (by omega) hclean2.1 hndx
      obtain ⟨tsX, st', hS1, hS2, hS3, hS4, hS5, hS6, hS7⟩ :=
        ih xs (f + 1) stA (by omega) (by omega) hclean2.2 hndxs
      have hsizeA : 0 ≤ aSize x := Nat.zero_le _
      refine ⟨tx :: tsX, st', ?_, ?_, ?_, ?_, ?_, ?_, ?_⟩
      · rw [show docNodes (x :: xs) = PNode.li (docParts x) :: docNodes xs from by
          rw [show docNodes (x :: xs) = docNode x :: docNodes xs from rfl, docNode_eq_li]]
        rw [parse_list_f_cons_li, hI1]
        show (parse_list_f (f + 1) (docNodes xs) stA).map
          (fun q => (ITree.id tx :: q.1, q.2)) = _
        rw [hS1]
        rfl
      · have ha : aSizeF (x :: xs) = aSize x + aSizeF xs := rfl
        omega
      · intro j hj
        rw [hS3 j (by omega)]
        exact hI4 j hj
      · intro nm' hnm'
        rw [hndsplit, List.mem_append] at hnm'
        push_neg at hnm'
        rw [hS4 nm' hnm'.2]
        exact hI5 nm' hnm'.1
      · rw [sRealF_cons_eq]
        refine ⟨sReal_stable x tx stA st' hI6 ?_ ?_, hS5⟩
        · intro j hj
          have := hI7 j hj
          exact hS3 j (by omega)
        · intro pr hpr
          have hprm := hoistPairs_mem x tx pr hpr
          refine hS4 pr.1.name ?_
          intro hcon
          exact hdisj (List.mem_map_of_mem Item.name hprm) hcon
      · intro j hj
        rw [show itreesIds (tx :: tsX) = itreeIds tx ++ itreesIds tsX from rfl,
          List.mem_append] at hj
        rcases hj with hj1 | hj2
        · have := hI7 j hj1
          exact ⟨by omega, by omega⟩
        · have := hS6 j hj2
          exact ⟨by omega, by omega⟩
      · rw [show itreesIds (tx :: tsX) = itreeIds tx ++ itreesIds tsX from rfl,
          List.nodup_append]
        refine ⟨hI8, hS7, ?_⟩
        intro a ha hacon
        have h1 := hI7 a ha
        have h2 := hS6 a hacon
        omega

/- ===== Universal round trip: full realization and readout ===== -/

theorem fReal_eq (s : Store) (nm : Str) (u : Option Nat) (cs : List Item)
    (ho : Bool) (i : Nat) (ts : List ITree) :
    fReal s (.mk nm u cs ho) (.mk i ts) =
      ((∃ p, getH s i = some ⟨nm, u, ts.map ITree.id, p, ho⟩) ∧ fRealF s cs ts) := rfl

theorem fRealF_cons_eq (s : Store) (x : Item) (xs : List Item) (t : ITree)
    (ts : List ITree) :
    fRealF s (x :: xs) (t :: ts) = (fReal s x t ∧ fRealF s xs ts) := rfl

mutual

theorem fReal_stable : ∀ (x : Item) (t : ITree) (s s' : Store), fReal s x t →
    (∀ j ∈ itreeIds t, getH s' j = getH s j) → fReal s' x t
  | .mk nm u cs ho, .mk i ts, s, s', hr, hg => by
    rw [fReal_eq] at hr
    rw [fReal_eq]
    constructor
    · rw [hg i (root_mem_itreeIds (.mk i ts))]
      exact hr.1
    · refine fRealF_stable cs ts s s' hr.2 ?_
      intro j hj
      exact hg j (children_ids_subset (.mk i ts) hj)

theorem fRealF_stable : ∀ (F : List Item) (ts : List ITree) (s s' : Store),
    fRealF s F ts → (∀ j ∈ itreesIds ts, getH s' j = getH s j) → fRealF s' F ts
  | [], [], _, _, _, _ => trivial
  | [], t :: ts, _, _, hr, _ =>
    absurd hr (by rw [show fRealF _ [] (t :: ts) = False from rfl]; exact id)
  | x :: xs, [], _, _, hr, _ =>
    absurd hr (by rw [show fRealF _ (x :: xs) [] = False from rfl]; exact id)
  | x :: xs, t :: ts, s, s', hr, hg => by
    rw [fRealF_cons_eq] at hr
    rw [fRealF_cons_eq]
    constructor
    · refine fReal_stable x t s s' hr.1 ?_
      intro j hj
      refine hg j ?_
      rw [itreesIds_cons, List.mem_append]
      exact Or.inl hj
    · refine fRealF_stable xs ts s s' hr.2 ?_
      intro j hj
      refine hg j ?_
      rw [itreesIds_cons, List.mem_append]
      exact Or.inr hj

end

mutual

/-- Upgrading a shallow realization to a full one: once every pending
hoist's children have been attached (in the final store), the whole
subtree is fully realized with the same root id. -/
theorem upgrade : ∀ (x : Item) (t : ITree) (st : PState) (s' : Store),
    sReal st x t →
    (∀ j e, getH st.store j = some e → e.hoisted = false →
      getH s' j = getH st.store j) →
    (∀ pr ∈ hoistPairs x t, ∃ ts2 p, getH s' pr.2 =
        some ⟨pr.1.name, pr.1.uuid, ts2.map ITree.id, p, true⟩ ∧
        fRealF s' pr.1.children ts2) →
    ∃ t', fReal s' x t' ∧ ITree.id t' = ITree.id t
  | .mk nm u cs true, .mk i ts, st, s', hr, hpres, hdone => by
    have hmem : (Item.mk nm u cs true, (ITree.mk i ts).id) ∈
        hoistPairs (Item.mk nm u cs true) (ITree.mk i ts) := by
      rw [show hoistPairs (.mk nm u cs true) (.mk i ts)
        = [(Item.mk nm u cs true, (ITree.mk i ts).id)] from rfl]
      exact List.mem_singleton_self _
    obtain ⟨ts2, p, hget, hfr⟩ := hdone _ hmem
    refine ⟨ITree.mk i ts2, ?_, rfl⟩
    rw [fReal_eq]
    exact ⟨⟨p, hget⟩, hfr⟩
  | .mk nm u cs false, .mk i ts, st, s', hr, hpres, hdone => by
    rw [sReal_plain_eq] at hr
    obtain ⟨⟨p, hget⟩, hsr⟩ := hr
    obtain ⟨ts', hfr, hids⟩ := upgradeF cs ts st s' hsr hpres
      (fun pr hpr => hdone pr (by
        rw [show hoistPairs (.mk nm u cs false) (.mk i ts)
          = hoistPairsF cs ts from rfl]
        exact hpr))
    refine ⟨ITree.mk i ts', ?_, rfl⟩
    rw [fReal_eq]
    refine ⟨⟨p, ?_⟩, hfr⟩
    rw [hpres i _ hget rfl, hget, hids]

theorem upgradeF : ∀ (F : List Item) (ts : List ITree) (st : PState) (s' : Store),
    sRealF st F ts →
    (∀ j e, getH st.store j = some e → e.hoisted = false →
      getH s' j = getH st.store j) →
    (∀ pr ∈ hoistPairsF F ts, ∃ ts2 p, getH s' pr.2 =
        some ⟨pr.1.name, pr.1.uuid, ts2.map ITree.id, p, true⟩ ∧
        fRealF s' pr.1.children ts2) →
    ∃ ts', fRealF s' F ts' ∧ ts'.map ITree.id = ts.map ITree.id
  | [], [], _, _, _, _, _ => ⟨[], trivial, rfl⟩
  | [], t :: ts, _, _, hr, _, _ =>
    absurd hr (by rw [show sRealF _ [] (t :: ts) = False from rfl]; exact id)
  | x :: xs, [], _, _, hr, _, _ =>
    absurd hr (by rw [show sRealF _ (x :: xs) [] = False from rfl]; exact id)
  | x :: xs, t :: ts, st, s', hr, hpres, hdone => by
    rw [sRealF_cons_eq] at hr
    obtain ⟨t', hf1, hid1⟩ := upgrade x t st s' hr.1 hpres
      (fun pr hpr => hdone pr (by
        rw [show hoistPairsF (x :: xs) (t :: ts)
          = hoistPairs x t ++ hoistPairsF xs ts from rfl, List.mem_append]
        exact Or.inl hpr))
    obtain ⟨ts', hf2, hid2⟩ := upgradeF xs ts st s' hr.2 hpres
      (fun pr hpr => hdone pr (by
        rw [show hoistPairsF (x :: xs) (t :: ts)
          = hoistPairs x t ++ hoistPairsF xs ts from rfl, List.mem_append]
        exact Or.inr hpr))
    refine ⟨t' :: ts', ?_, ?_⟩
    · rw [fRealF_cons_eq]
      exact ⟨hf1, hf2⟩
    · rw [List.map_cons, List.map_cons, hid1, hid2]

end

mutual

theorem fReal_readout : ∀ (x : Item) (t : ITree) (s : Store) (fuel : Nat),
    fReal s x t → itemSize x ≤ fuel → readout s fuel (ITree.id t) = some x
  | .mk nm u cs ho, .mk i ts, s, fuel, hr, hsz => by
    rw [fReal_eq] at hr
    obtain ⟨⟨p, hget⟩, hfr⟩ := hr
    have h1 : 1 ≤ itemSize (Item.mk nm u cs ho) := itemSize_pos _
    obtain ⟨f, rfl⟩ : ∃ f, fuel = f + 1 := ⟨fuel - 1, by omega⟩
    show (getH s i).bind (fun it =>
      (seqOpt (it.children.map (readout s f))).map fun cs2 =>
        Item.mk it.name it.uuid cs2 it.hoisted) = some (Item.mk nm u cs ho)
    rw [hget]
    show (seqOpt ((ts.map ITree.id).map (readout s f))).map (fun cs2 =>
      Item.mk nm u cs2 ho) = some (Item.mk nm u cs ho)
    rw [fRealF_readout cs ts s f hfr (by
      have : itemSize (Item.mk nm u cs ho) = 1 + itemsSize cs := rfl
      omega)]
    rfl

theorem fRealF_readout : ∀ (F : List Item) (ts : List ITree) (s : Store) (fuel : Nat),
    fRealF s F ts → itemsSize F ≤ fuel →
    seqOpt ((ts.map ITree.id).map (readout s fuel)) = some F
  | [], [], _, _, _, _ => rfl
  | [], t :: ts, _, _, hr, _ =>
    absurd hr (by rw [show fRealF _ [] (t :: ts) = False from rfl]; exact id)
  | x :: xs, [], _, _, hr, _ =>
    absurd hr (by rw [show fRealF _ (x :: xs) [] = False from rfl]; exact id)
  | x :: xs, t :: ts, s, fuel, hr, hsz => by
    rw [fRealF_cons_eq] at hr
    have hx1 := itemSize_pos x
    have hs1 : itemsSize (x :: xs) = itemSize x + itemsSize xs := rfl
    show (readout s fuel (ITree.id t)).bind (fun b =>
      (seqOpt ((ts.map ITree.id).map (readout s fuel))).map (b :: ·)) = some (x :: xs)
    rw [fReal_readout x t s fuel hr.1 (by omega),
      fRealF_readout xs ts s fuel hr.2 (by omega)]
    rfl

end

theorem readout_stripEq : ∀ (fuel : Nat) {s s' : Store}, stripEq s' s →
    ∀ i, readout s' fuel i = readout s fuel i := by
  intro fuel
  induction fuel with
  | zero => intro s s' _ i; rfl
  | succ f ih =>
    intro s s' hse i
    have hfun : readout s' f = readout s f := funext (ih hse)
    show (getH s' i).bind (fun it =>
      (seqOpt (it.children.map (readout s' f))).map fun cs2 =>
        Item.mk it.name it.uuid cs2 it.hoisted) =
      (getH s i).bind (fun it =>
        (seqOpt (it.children.map (readout s f))).map fun cs2 =>
          Item.mk it.name it.uuid cs2 it.hoisted)
    have hsp := hse i
    cases h1 : getH s' i with
    | none =>
      rw [h1] at hsp
      cases h2 : getH s i with
      | none => rfl
      | some v => rw [h2] at hsp; simp at hsp
    | some v' =>
      rw [h1] at hsp
      cases h2 : getH s i with
      | none => rw [h2] at hsp; simp at hsp
      | some v =>
        rw [h2] at hsp
        have hv : stripParent v' = stripParent v := Option.some.inj hsp
        have hnm0 := congrArg HItem.name hv
        have hu0 := congrArg HItem.uuid hv
        have hc0 := congrArg HItem.children hv
        have hh0 := congrArg HItem.hoisted hv
        have hnm : v'.name = v.name := hnm0
        have hu : v'.uuid = v.uuid := hu0
        have hc : v'.children = v.children := hc0
        have hh : v'.hoisted = v.hoisted := hh0
        show (seqOpt (v'.children.map (readout s' f))).map (fun cs2 =>
          Item.mk v'.name v'.uuid cs2 v'.hoisted) = _
        rw [hfun, hnm, hu, hc, hh]
        rfl

/- ===== Universal round trip: hoist schedule structure ===== -/

theorem getH_some_lt {s : Store} {j : Nat} {e : HItem} (h : getH s j = some e) :
    j < s.length := by
  unfold getH at h
  rw [List.get?_eq_getElem?] at h
  exact (List.getElem?_eq_some_iff.mp h).1

theorem mem_joinL {α : Type} {x : α} : ∀ {ls : List (List α)},
    x ∈ joinL ls ↔ ∃ l ∈ ls, x ∈ l := by
  intro ls
  induction ls with
  | nil => simp [joinL]
  | cons l ls ih =>
    rw [show joinL (l :: ls) = l ++ joinL ls from rfl, List.mem_append, ih]
    simp

theorem hoistsOf_true (nm : Str) (u : Option Nat) (cs : List Item) :
    hoistsOf (.mk nm u cs true) = Item.mk nm u cs true :: hoistsOfF cs := by
  show (if true then [Item.mk nm u cs true] else []) ++ hoistsOfF cs = _
  rw [if_pos rfl]
  rfl

theorem hoistsOf_false (nm : Str) (u : Option Nat) (cs : List Item) :
    hoistsOf (.mk nm u cs false) = hoistsOfF cs := by
  show (if false then [Item.mk nm u cs false] else []) ++ hoistsOfF cs = _
  rw [if_neg (by decide)]
  rfl

theorem hoistsOfF_cons (x : Item) (xs : List Item) :
    hoistsOfF (x :: xs) = hoistsOf x ++ hoistsOfF xs := rfl

theorem dHoists_true (nm : Str) (u : Option Nat) (cs : List Item) :
    dHoists (.mk nm u cs true) = [Item.mk nm u cs true] := by
  show (if true then [Item.mk nm u cs true] else dHoistsF cs) = _
  rw [if_pos rfl]

theorem dHoists_false (nm : Str) (u : Option Nat) (cs : List Item) :
    dHoists (.mk nm u cs false) = dHoistsF cs := by
  show (if false then [Item.mk nm u cs false] else dHoistsF cs) = _
  rw [if_neg (by decide)]

theorem dHoistsF_cons (x : Item) (xs : List Item) :
    dHoistsF (x :: xs) = dHoists x ++ dHoistsF xs := rfl

mutual

theorem size_mem_hoistsOf : ∀ (x : Item), ∀ y ∈ hoistsOf x, itemSize y ≤ itemSize x
  | .mk nm u cs true, y, hy => by
    rw [hoistsOf_true] at hy
    rcases List.mem_cons.mp hy with rfl | hy2
    · exact le_refl _
    · have h1 := size_mem_hoistsOfF cs y hy2
      have h2 : itemSize (Item.mk nm u cs true) = 1 + itemsSize cs := rfl
      omega
  | .mk nm u cs false, y, hy => by
    rw [hoistsOf_false] at hy
    have h1 := size_mem_hoistsOfF cs y hy
    have h2 : itemSize (Item.mk nm u cs false) = 1 + itemsSize cs := rfl
    omega

theorem size_mem_hoistsOfF : ∀ (F : List Item), ∀ y ∈ hoistsOfF F,
    itemSize y ≤ itemsSize F
  | [], y, hy => by cases hy
  | x :: xs, y, hy => by
    rw [hoistsOfF_cons] at hy
    have h2 : itemsSize (x :: xs) = itemSize x + itemsSize xs := rfl
    rcases List.mem_append.mp hy with hy2 | hy2
    · have h1 := size_mem_hoistsOf x y hy2
      omega
    · have h1 := size_mem_hoistsOfF xs y hy2
      omega

end

theorem not_below_self (x : Item) : x ∉ hoistsOfF x.children := by
  intro hx
  have h1 := size_mem_hoistsOfF x.children x hx
  obtain ⟨nm, u, cs, ho⟩ := x
  have h2 : itemSize (Item.mk nm u cs ho) = 1 + itemsSize cs := rfl
  have h3 : (Item.mk nm u cs ho).children = cs := rfl
  rw [h3] at h1
  omega

mutual

/-- Every hoist of a subtree is either a direct hoist or a hoist inside
a direct hoist's children. -/
theorem hoists_decomp : ∀ (x : Item), List.Perm (hoistsOf x)
    (dHoists x ++ joinL ((dHoists x).map (fun d => hoistsOfF d.children)))
  | .mk nm u cs true => by
    rw [hoistsOf_true, dHoists_true]
    rw [show joinL ([Item.mk nm u cs true].map (fun d => hoistsOfF d.children))
      = hoistsOfF cs ++ [] from rfl, List.append_nil]
    exact List.Perm.refl _
  | .mk nm u cs false => by
    rw [hoistsOf_false, dHoists_false]
    exact hoistsF_decomp cs

theorem hoistsF_decomp : ∀ (F : List Item), List.Perm (hoistsOfF F)
    (dHoistsF F ++ joinL ((dHoistsF F).map (fun d => hoistsOfF d.children)))
  | [] => List.Perm.refl _
  | x :: xs => by
    rw [hoistsOfF_cons, dHoistsF_cons, List.map_append, joinL_append]
    refine ((hoists_decomp x).append (hoistsF_decomp xs)).trans ?_
    rw [List.append_assoc, List.append_assoc]
    refine List.Perm.append_left _ ?_
    rw [← List.append_assoc, ← List.append_assoc]
    refine List.Perm.append_right _ ?_
    exact List.perm_append_comm

end

mutual

theorem hoistPairs_id_mem : ∀ (x : Item) (t : ITree), ∀ pr ∈ hoistPairs x t,
    pr.2 ∈ itreeIds t
  | .mk nm u cs true, t, pr, hm => by
    rw [show hoistPairs (.mk nm u cs true) t = [(Item.mk nm u cs true, t.id)] from rfl,
      List.mem_singleton] at hm
    subst hm
    exact root_mem_itreeIds t
  | .mk nm u cs false, t, pr, hm => by
    rw [show hoistPairs (.mk nm u cs false) t = hoistPairsF cs t.children from rfl] at hm
    exact children_ids_subset t (hoistPairsF_id_mem cs t.children pr hm)

theorem hoistPairsF_id_mem : ∀ (F : List Item) (ts : List ITree),
    ∀ pr ∈ hoistPairsF F ts, pr.2 ∈ itreesIds ts
  | [], ts, pr, hm => by cases ts <;> cases hm
  | x :: xs, [], pr, hm => by cases hm
  | x :: xs, t :: ts, pr, hm => by
    rw [show hoistPairsF (x :: xs) (t :: ts) = hoistPairs x t ++ hoistPairsF xs ts
      from rfl] at hm
    rw [itreesIds_cons, List.mem_append]
    rcases List.mem_append.mp hm with hm1 | hm2
    · exact Or.inl (hoistPairs_id_mem x t pr hm1)
    · exact Or.inr (hoistPairsF_id_mem xs ts pr hm2)

end

theorem hoistsOfF_sub {z : Item} : ∀ (x : Item), z ∈ hoistsOfF x.children →
    z ∈ hoistsOf x
  | .mk nm u cs true, hz => by
    rw [hoistsOf_true]
    exact List.mem_cons_of_mem _ hz
  | .mk nm u cs false, hz => by
    rw [hoistsOf_false]
    exact hz

mutual

theorem allNodes_hoistsOf : ∀ (k : Item), ∀ y ∈ allNodes k, ∀ z ∈ hoistsOf y,
    z ∈ hoistsOf k
  | .mk nm u cs ho, y, hy, z, hz => by
    rw [show allNodes (.mk nm u cs ho) = Item.mk nm u cs ho :: allNodesF cs from rfl]
      at hy
    rcases List.mem_cons.mp hy with rfl | hy2
    · exact hz
    · refine hoistsOfF_sub (Item.mk nm u cs ho) ?_
      exact allNodesF_hoistsOfF cs y hy2 z hz

theorem allNodesF_hoistsOfF : ∀ (F : List Item), ∀ y ∈ allNodesF F, ∀ z ∈ hoistsOf y,
    z ∈ hoistsOfF F
  | [], y, hy, _, _ => by cases hy
  | x :: xs, y, hy, z, hz => by
    rw [show allNodesF (x :: xs) = allNodes x ++ allNodesF xs from rfl] at hy
    rw [hoistsOfF_cons, List.mem_append]
    rcases List.mem_append.mp hy with hy2 | hy2
    · exact Or.inl (allNodes_hoistsOf x y hy2 z hz)
    · exact Or.inr (allNodesF_hoistsOfF xs y hy2 z hz)

end

theorem chainOK_cons (x : Item) (xs : List Item) :
    chainOK (x :: xs) = ((∀ y ∈ xs, x ∉ hoistsOfF y.children) ∧ chainOK xs) := rfl

theorem chainOK_append : ∀ (a b : List Item), chainOK a → chainOK b →
    (∀ x ∈ a, ∀ y ∈ b, x ∉ hoistsOfF y.children) → chainOK (a ++ b)
  | [], b, _, hb, _ => hb
  | x :: a', b, ha, hb, hcross => by
    rw [chainOK_cons] at ha
    rw [List.cons_append, chainOK_cons]
    constructor
    · intro y hy
      rcases List.mem_append.mp hy with hy2 | hy2
      · exact ha.1 y hy2
      · exact hcross x (List.mem_cons_self x a') y hy2
    · exact chainOK_append a' b ha.2 hb
        (fun z hz y hy => hcross z (List.mem_cons_of_mem x hz) y hy)

theorem perm_shuffle {α : Type} (A D B1 B2 E : List α) :
    List.Perm (A ++ (B1 ++ ((D ++ E) ++ B2))) ((A ++ D) ++ ((B1 ++ B2) ++ E)) := by
  rw [List.append_assoc A D]
  refine List.Perm.append_left A ?_
  have h1 : List.Perm (B1 ++ ((D ++ E) ++ B2)) (((D ++ E) ++ B2) ++ B1) :=
    List.perm_append_comm
  refine h1.trans ?_
  have h2 : List.Perm (((D ++ E) ++ B2) ++ B1) ((D ++ E) ++ (B2 ++ B1)) := by
    rw [List.append_assoc]
  refine h2.trans ?_
  rw [List.append_assoc]
  refine List.Perm.append_left D ?_
  have h3 : List.Perm (E ++ (B2 ++ B1)) (E ++ (B1 ++ B2)) :=
    List.Perm.append_left E List.perm_append_comm
  refine h3.trans ?_
  have h4 : List.Perm (E ++ (B1 ++ B2)) ((B1 ++ B2) ++ E) := List.perm_append_comm
  exact h4

theorem parse_top_h1 {fuel : Nat} {t : Str} {rest : List TopNode} {st : PState}
    {cur i : Nat} (h : hoistGet st.hoists t = some i) :
    parse_top fuel (.h1 t :: rest) st cur = parse_top fuel rest st i := by
  show (match hoistGet st.hoists t with
    | none => none
    | some i => parse_top fuel rest st i) = _
  rw [h]

theorem parse_top_ul {fuel : Nat} {cs : List PNode} {rest : List TopNode} {st : PState}
    {cur : Nat} {ids : List Nat} {st' : PState}
    (h : parse_list_f fuel cs st = some (ids, st')) :
    parse_top fuel (.ul cs :: rest) st cur = parse_top fuel rest
      (PState.mk (modifyH st'.store cur (fun it => { it with children := it.children ++ ids }))
        st'.hoists) cur := by
  show (match parse_list_f fuel cs st with
    | none => none
    | some (ids, st') =>
      parse_top fuel rest
        (PState.mk (modifyH st'.store cur (fun it => { it with children := it.children ++ ids }))
          st'.hoists) cur) = _
  rw [h]

/-- All hoist-reference nodes of the subtrees of a queue, in queue
order. -/
def HQ (q : List Item) : List Item := joinL (q.map hoistsOf)

theorem HQ_cons (x : Item) (q : List Item) : HQ (x :: q) = hoistsOf x ++ HQ q := rfl

theorem HQ_append (a b : List Item) : HQ (a ++ b) = HQ a ++ HQ b := by
  unfold HQ
  rw [List.map_append, joinL_append]

theorem hoistsOfF_eq_HQ : ∀ (F : List Item), hoistsOfF F = HQ F
  | [] => rfl
  | x :: xs => by rw [hoistsOfF_cons, HQ_cons, hoistsOfF_eq_HQ xs]

theorem mem_HQ {y : Item} {q : List Item} (hy : y ∈ q) :
    ∀ z ∈ hoistsOf y, z ∈ HQ q := by
  intro z hz
  exact mem_joinL.mpr ⟨hoistsOf y, List.mem_map_of_mem hoistsOf hy, hz⟩

theorem kidsF_cons (x : Item) (q : List Item) :
    kidsF (x :: q) = x.children ++ kidsF q := rfl

theorem perm_swap3 {α : Type} (a b c : List α) :
    List.Perm (a ++ (b ++ c)) (b ++ (a ++ c)) := by
  rw [← List.append_assoc, ← List.append_assoc]
  exact List.Perm.append_right c List.perm_append_comm

/-- The hoists of a queue's subtrees are the queue's own hoisted
elements followed (up to order) by the hoists one level down. -/
theorem HQ_perm : ∀ (q : List Item),
    List.Perm (HQ q) (q.filter Item.hoisted ++ HQ (kidsF q))
  | [] => List.Perm.refl _
  | x :: q => by
    obtain ⟨nm, u, cs, ho⟩ := x
    have hinner : List.Perm (HQ cs ++ HQ q)
        (q.filter Item.hoisted ++ (HQ cs ++ HQ (kidsF q))) := by
      refine ((HQ_perm q).append_left (HQ cs)).trans ?_
      exact perm_swap3 (HQ cs) (q.filter Item.hoisted) (HQ (kidsF q))
    cases ho with
    | false =>
      rw [HQ_cons, hoistsOf_false, hoistsOfF_eq_HQ,
        show (Item.mk nm u cs false :: q).filter Item.hoisted
          = q.filter Item.hoisted from rfl,
        kidsF_cons, HQ_append]
      exact hinner
    | true =>
      rw [HQ_cons, hoistsOf_true, hoistsOfF_eq_HQ,
        show (Item.mk nm u cs true :: q).filter Item.hoisted
          = Item.mk nm u cs true :: q.filter Item.hoisted from rfl,
        kidsF_cons, HQ_append]
      rw [show (Item.mk nm u cs true :: HQ cs) ++ HQ q
        = Item.mk nm u cs true :: (HQ cs ++ HQ q) from rfl,
        show (Item.mk nm u cs true).children = cs from rfl]
      exact hinner.cons (Item.mk nm u cs true)

theorem qMeasure_cons (x : Item) (q : List Item) :
    qMeasure (x :: q) = itemSize x + qMeasure q := by
  simp [qMeasure]

theorem qMeasure_kids : ∀ (q : List Item), qMeasure q = q.length + qMeasure (kidsF q)
  | [] => rfl
  | x :: q => by
    rw [qMeasure_cons, qMeasure_kids q, kidsF_cons]
    have h1 : qMeasure (x.children ++ kidsF q)
        = qMeasure x.children + qMeasure (kidsF q) := by
      simp [qMeasure]
    rw [h1]
    have hx : itemSize x = 1 + qMeasure x.children := by
      obtain ⟨nm, u, cs, ho⟩ := x
      rw [show itemSize (Item.mk nm u cs ho) = 1 + itemsSize cs from rfl,
        itemsSize_eq_sum]
      rfl
    rw [List.length_cons]
    omega

/-- Among the queue's own elements, no hoisted element lies below
another (names are globally distinct, and a below-hoist's name would
occur twice). -/
theorem filterQ_chainOK : ∀ (q : List Item), ((HQ q).map Item.name).Nodup →
    chainOK (q.filter Item.hoisted)
  | [], _ => trivial
  | x :: q, hnd => by
    rw [HQ_cons, List.map_append, List.nodup_append] at hnd
    obtain ⟨hn1, hn2, hdisj⟩ := hnd
    obtain ⟨nm, u, cs, ho⟩ := x
    cases ho with
    | false =>
      rw [show (Item.mk nm u cs false :: q).filter Item.hoisted
        = q.filter Item.hoisted from rfl]
      exact filterQ_chainOK q hn2
    | true =>
      rw [show (Item.mk nm u cs true :: q).filter Item.hoisted
        = Item.mk nm u cs true :: q.filter Item.hoisted from rfl, chainOK_cons]
      refine ⟨?_, filterQ_chainOK q hn2⟩
      intro y hy hmem
      have hyq : y ∈ q := List.mem_of_mem_filter hy
      have hx2 : Item.mk nm u cs true ∈ hoistsOf y := hoistsOfF_sub y hmem
      have hx3 : Item.mk nm u cs true ∈ HQ q := mem_HQ hyq _ hx2
      have hn4 : nm ∈ (HQ q).map Item.name := List.mem_map.mpr ⟨_, hx3, rfl⟩
      have hn5 : nm ∈ (hoistsOf (Item.mk nm u cs true)).map Item.name := by
        rw [hoistsOf_true]
        exact List.mem_map.mpr ⟨_, List.mem_cons_self _ _, rfl⟩
      exact hdisj hn5 hn4

theorem flattenGo_mem {y : Item} {q : List Item} (hy : y ∈ flattenGo false q) :
    ∃ k ∈ q, y ∈ allNodes k := by
  have h := (flattenGo_perm (qMeasure q) q (le_refl _)).mem_iff.mp hy
  obtain ⟨l, hl, hyl⟩ := mem_joinL.mp h
  obtain ⟨k, hk, rfl⟩ := List.mem_map.mp hl
  exact ⟨k, hk, hyl⟩

/-- The breadth-first order never lists a hoisted node before a hoisted
node above it, provided hoist names are globally distinct. -/
theorem bfs_chainOK : ∀ (n : Nat) (q : List Item), qMeasure q ≤ n →
    ((HQ q).map Item.name).Nodup →
    chainOK ((flattenGo false q).filter Item.hoisted) := by
  intro n
  induction n with
  | zero =>
    intro q hq _
    cases q with
    | nil => rw [flattenGo_nil]; trivial
    | cons e q' =>
      exfalso
      have h1 := itemSize_pos e
      have h2 := qMeasure_cons e q'
      omega
  | succ n ih =>
    intro q hq hnd
    cases q with
    | nil => rw [flattenGo_nil]; trivial
    | cons e q' =>
      have hsplit : flattenGo false (e :: q')
          = (e :: q') ++ flattenGo false (kidsF (e :: q')) := by
        have h := flattenGo_split (e :: q') []
        rw [List.append_nil] at h
        rw [h]
        rfl
      rw [hsplit, List.filter_append]
      have hperm := HQ_perm (e :: q')
      have hndR := (hperm.map Item.name).nodup hnd
      rw [List.map_append, List.nodup_append] at hndR
      obtain ⟨hnA, hnB, hdisj⟩ := hndR
      refine chainOK_append _ _ (filterQ_chainOK (e :: q') hnd) ?_ ?_
      · refine ih (kidsF (e :: q')) ?_ hnB
        have h1 := qMeasure_kids (e :: q')
        rw [List.length_cons] at h1
        omega
      · intro x hx y hy hmem
        obtain ⟨k, hkk, hyall⟩ := flattenGo_mem (List.mem_of_mem_filter hy)
        have hx1 : x ∈ hoistsOf y := hoistsOfF_sub y hmem
        have hx2 : x ∈ hoistsOf k := allNodes_hoistsOf k y hyall x hx1
        have hx3 : x ∈ HQ (kidsF (e :: q')) := mem_HQ hkk x hx2
        exact hdisj (List.mem_map_of_mem Item.name hx)
          (List.mem_map_of_mem Item.name hx3)

mutual

theorem filter_allNodes : ∀ (x : Item),
    (allNodes x).filter Item.hoisted = hoistsOf x
  | .mk nm u cs true => by
    rw [show allNodes (.mk nm u cs true) = Item.mk nm u cs true :: allNodesF cs from rfl,
      show (Item.mk nm u cs true :: allNodesF cs).filter Item.hoisted
        = Item.mk nm u cs true :: (allNodesF cs).filter Item.hoisted from rfl,
      filter_allNodesF cs, hoistsOf_true]
  | .mk nm u cs false => by
    rw [show allNodes (.mk nm u cs false) = Item.mk nm u cs false :: allNodesF cs from rfl,
      show (Item.mk nm u cs false :: allNodesF cs).filter Item.hoisted
        = (allNodesF cs).filter Item.hoisted from rfl,
      filter_allNodesF cs, hoistsOf_false]

theorem filter_allNodesF : ∀ (F : List Item),
    (allNodesF F).filter Item.hoisted = hoistsOfF F
  | [] => rfl
  | x :: xs => by
    rw [show allNodesF (x :: xs) = allNodes x ++ allNodesF xs from rfl,
      List.filter_append, filter_allNodes x, filter_allNodesF xs, hoistsOfF_cons]

end

theorem hoistList_perm (root : Item) :
    List.Perm (hoistList root) (hoistsOf root) := by
  unfold hoistList
  have h := (flatten_perm root).filter Item.hoisted
  rw [filter_allNodes root] at h
  exact h

/-- The rendered section schedule satisfies the ordering needed to
re-parse: no section's item lies below a later section's item. -/
theorem chainOK_hoistList (root : Item)
    (hnd : ((hoistList root).map Item.name).Nodup) : chainOK (hoistList root) := by
  have hperm : List.Perm ((hoistList root).map Item.name)
      ((HQ [root]).map Item.name) := by
    refine List.Perm.map _ ?_
    refine (hoistList_perm root).trans ?_
    rw [show HQ [root] = hoistsOf root ++ [] from rfl, List.append_nil]
  have hnd2 := hperm.nodup hnd
  exact bfs_chainOK (qMeasure [root]) [root] (le_refl _) hnd2

/-- Running the rendered hoist sections from any state in which every
pending hoist is registered childless, with the schedule a permutation
of the pendings and everything hoisted below them: the parse succeeds,
no other existing entry changes, and every pending hoist ends with its
children attached and fully realized. -/
theorem sections_run : ∀ (n : Nat) (P : List Item) (RP : List (Item × Nat))
    (fuel : Nat) (st : PState) (cur : Nat),
    P.length ≤ n →
    (∀ y ∈ P, itemsSize y.children < fuel ∧ cleanItems y.children = true) →
    (P.map Item.name).Nodup →
    chainOK P →
    List.Perm P (RP.map Prod.fst ++ joinL (RP.map (fun r => hoistsOfF r.1.children))) →
    (∀ r ∈ RP, r.2 < st.store.length ∧ hoistGet st.hoists r.1.name = some r.2 ∧
      ∃ p, getH st.store r.2 = some ⟨r.1.name, r.1.uuid, [], p, true⟩) →
    ∃ stF curF, parse_top fuel (secsDoc P) st cur = some (stF, curF) ∧
      st.store.length ≤ stF.store.length ∧
      (∀ j, j < st.store.length → (∀ r ∈ RP, j ≠ r.2) →
        getH stF.store j = getH st.store j) ∧
      (∀ r ∈ RP, ∃ ts p, getH stF.store r.2 =
        some ⟨r.1.name, r.1.uuid, ts.map ITree.id, p, true⟩ ∧
        fRealF stF.store r.1.children ts) := by
  intro n
  induction n with
  | zero =>
    intro P RP fuel st cur hlen _ _ _ hperm hreg
    have hP : P = [] := List.length_eq_zero.mp (Nat.le_zero.mp hlen)
    subst hP
    have hR : (RP.map Prod.fst
        ++ joinL (RP.map (fun r => hoistsOfF r.1.children))).length = 0 := by
      rw [← hperm.length_eq]
      rfl
    rw [List.length_append] at hR
    have hRP : RP = [] := by
      have h3 : (RP.map Prod.fst).length = RP.length := by simp
      exact List.length_eq_zero.mp (by omega)
    subst hRP
    exact ⟨st, cur, rfl, le_refl _, fun j _ _ => rfl,
      fun r hr => absurd hr (List.not_mem_nil r)⟩
  | succ n ih =>
    intro P RP fuel st cur hlen hfc hnd hchain hperm hreg
    cases P with
    | nil =>
      have hR : (RP.map Prod.fst
          ++ joinL (RP.map (fun r => hoistsOfF r.1.children))).length = 0 := by
        rw [← hperm.length_eq]
        rfl
      rw [List.length_append] at hR
      have hRP : RP = [] := by
        have h3 : (RP.map Prod.fst).length = RP.length := by simp
        exact List.length_eq_zero.mp (by omega)
      subst hRP
      exact ⟨st, cur, rfl, le_refl _, fun j _ _ => rfl,
        fun r hr => absurd hr (List.not_mem_nil r)⟩
    | cons x P' =>
      rw [chainOK_cons] at hchain
      rw [List.map_cons, List.nodup_cons] at hnd
      -- the head's section item is already registered
      have hxRP : x ∈ RP.map Prod.fst := by
        rcases List.mem_append.mp (hperm.mem_iff.mp (List.mem_cons_self x P')) with h1 | h1
        · exact h1
        · exfalso
          obtain ⟨l, hl, hxl⟩ := mem_joinL.mp h1
          obtain ⟨r, hrRP, rfl⟩ := List.mem_map.mp hl
          have hr1P : r.1 ∈ x :: P' := hperm.mem_iff.mpr
            (List.mem_append_left _ (List.mem_map_of_mem Prod.fst hrRP))
          rcases List.mem_cons.mp hr1P with he | hmem
          · rw [he] at hxl
            exact not_below_self x hxl
          · exact hchain.1 r.1 hmem hxl
      obtain ⟨r0, hr0RP, hr01⟩ := List.mem_map.mp hxRP
      obtain ⟨RP1, RP2, rfl⟩ := List.append_of_mem hr0RP
      have hregr0 := hreg r0 hr0RP
      rw [hr01] at hregr0
      have hsurvmem : ∀ r ∈ RP1 ++ RP2, r ∈ RP1 ++ r0 :: RP2 := by
        intro r hr
        rcases List.mem_append.mp hr with h | h
        · exact List.mem_append_left _ h
        · exact List.mem_append_right _ (List.mem_cons_of_mem r0 h)
      -- rewrite the permutation into the split shape
      rw [show (RP1 ++ r0 :: RP2).map Prod.fst
          = RP1.map Prod.fst ++ x :: RP2.map Prod.fst from by
        rw [List.map_append, List.map_cons, hr01]] at hperm
      rw [show (RP1 ++ r0 :: RP2).map (fun r => hoistsOfF r.1.children)
          = RP1.map (fun r => hoistsOfF r.1.children) ++ hoistsOfF x.children
            :: RP2.map (fun r => hoistsOfF r.1.children) from by
        rw [List.map_append, List.map_cons, hr01]] at hperm
      rw [show joinL (RP1.map (fun r => hoistsOfF r.1.children) ++ hoistsOfF x.children
            :: RP2.map (fun r => hoistsOfF r.1.children))
          = joinL (RP1.map (fun r => hoistsOfF r.1.children))
            ++ (hoistsOfF x.children
              ++ joinL (RP2.map (fun r => hoistsOfF r.1.children))) from by
        rw [joinL_append]
        rfl] at hperm
      -- name bookkeeping
      have hndR := (hperm.map Item.name).nodup (by
        rw [List.map_cons]
        exact List.nodup_cons.mpr hnd)
      rw [List.map_append, List.nodup_append] at hndR
      obtain ⟨hndL, hndJ, hdisjLJ⟩ := hndR
      rw [List.map_append, List.map_cons, List.nodup_append] at hndL
      obtain ⟨hndA1, hndxA2, hdisjA1x⟩ := hndL
      rw [List.nodup_cons] at hndxA2
      obtain ⟨hxnotinA2, hndA2⟩ := hndxA2
      have hsurvName : ∀ r ∈ RP1 ++ RP2, r.1.name ≠ x.name := by
        intro r hr heq
        rcases List.mem_append.mp hr with h | h
        · refine hdisjA1x ?_ (List.mem_cons_self x.name _)
          rw [← heq]
          exact List.mem_map_of_mem Item.name (List.mem_map_of_mem Prod.fst h)
        · refine hxnotinA2 ?_
          rw [← heq]
          exact List.mem_map_of_mem Item.name (List.mem_map_of_mem Prod.fst h)
      have hsurvId : ∀ r ∈ RP1 ++ RP2, r.2 ≠ r0.2 := by
        intro r hr heq
        obtain ⟨p1, hp1⟩ := (hreg r (hsurvmem r hr)).2.2
        obtain ⟨p2, hp2⟩ := hregr0.2.2
        rw [heq, hp2] at hp1
        have hv := Option.some.inj hp1
        have hn0 := congrArg HItem.name hv
        have hn1 : x.name = r.1.name := hn0
        exact hsurvName r hr hn1.symm
      have hsurvNameJ : ∀ r ∈ RP1 ++ RP2, r.1.name ∈ (RP1.map Prod.fst
          ++ x :: RP2.map Prod.fst).map Item.name := by
        intro r hr
        rw [List.map_append, List.map_cons]
        rcases List.mem_append.mp hr with h | h
        · exact List.mem_append_left _
            (List.mem_map_of_mem Item.name (List.mem_map_of_mem Prod.fst h))
        · exact List.mem_append_right _ (List.mem_cons_of_mem _
            (List.mem_map_of_mem Item.name (List.mem_map_of_mem Prod.fst h)))
      -- the case split on the head's children
      cases hE : x.children.isEmpty with
      | true =>
        have hF : x.children = [] := by
          cases hc : x.children with
          | nil => rfl
          | cons c cs' => rw [hc] at hE; exact absurd hE (by simp)
        have hsd : secsDoc (x :: P') = TopNode.h1 x.name :: secsDoc P' := by
          rw [show secsDoc (x :: P') = secDoc x ++ secsDoc P' from rfl]
          unfold secDoc
          rw [hF]
          rfl
        have hCnil : hoistsOfF x.children = [] := by rw [hF]; rfl
        rw [hCnil, List.nil_append] at hperm
        have hperm2 := hperm.trans
          (List.Perm.append_right _ (List.perm_middle))
        rw [List.cons_append] at hperm2
        have hperm' := hperm2.cons_inv
        obtain ⟨stF, curF, hpt, hle, hpres, hdone⟩ := ih P' (RP1 ++ RP2) fuel st r0.2
          (by rw [List.length_cons] at hlen; omega)
          (fun y hy => hfc y (List.mem_cons_of_mem x hy))
          hnd.2 hchain.2
          (by
            rw [List.map_append, List.map_append, joinL_append]
            exact hperm')
          (fun r hr => hreg r (hsurvmem r hr))
        refine ⟨stF, curF, ?_, hle, ?_, ?_⟩
        · rw [hsd, parse_top_h1 hregr0.2.1]
          exact hpt
        · intro j hj hnotr
          exact hpres j hj (fun r hr => hnotr r (hsurvmem r hr))
        · intro r hr
          rcases List.mem_append.mp hr with h | h
          · exact hdone r (List.mem_append_left _ h)
          · rcases List.mem_cons.mp h with rfl | h2
            · obtain ⟨p2, hp2⟩ := hregr0.2.2
              refine ⟨[], p2, ?_, ?_⟩
              · rw [hpres r.2 hregr0.1 (fun r' hr' => (hsurvId r' hr').symm), hp2, hr01]
                rfl
              · rw [hr01, hF]
                trivial
            · exact hdone r (List.mem_append_right _ h2)
      | false =>
        have hsd : secsDoc (x :: P') = TopNode.h1 x.name ::
            TopNode.ul (docNodes x.children) :: secsDoc P' := by
          rw [show secsDoc (x :: P') = secDoc x ++ secsDoc P' from rfl]
          unfold secDoc
          rw [hE]
          rfl
        -- names below the head are the C-part of the join
        rw [List.map_append, List.nodup_append] at hndJ
        obtain ⟨hndB1, hndCB2, hdisjB1⟩ := hndJ
        rw [List.map_append, List.nodup_append] at hndCB2
        obtain ⟨hndC, hndB2, hdisjCB2⟩ := hndCB2
        have hdecomp := hoistsF_decomp x.children
        have hndDE := (hdecomp.map Item.name).nodup hndC
        rw [List.map_append, List.nodup_append] at hndDE
        have hndD := hndDE.1
        have hCmemJ : ∀ a ∈ (hoistsOfF x.children).map Item.name,
            a ∈ (joinL (RP1.map (fun r => hoistsOfF r.1.children))
              ++ (hoistsOfF x.children
                ++ joinL (RP2.map (fun r => hoistsOfF r.1.children)))).map Item.name := by
          intro a ha
          rw [List.map_append, List.map_append]
          exact List.mem_append_right _ (List.mem_append_left _ ha)
        have hsurvD : ∀ r ∈ RP1 ++ RP2,
            r.1.name ∉ (dHoistsF x.children).map Item.name := by
          intro r hr hmem
          obtain ⟨d, hd, hdn⟩ := List.mem_map.mp hmem
          have hdC : d ∈ hoistsOfF x.children :=
            hdecomp.mem_iff.mpr (List.mem_append_left _ hd)
          refine hdisjLJ (hsurvNameJ r hr) ?_
          refine hCmemJ r.1.name ?_
          rw [← hdn]
          exact List.mem_map_of_mem Item.name hdC
        -- parse the children forest
        have hfcx := hfc x (List.mem_cons_self x P')
        obtain ⟨ts, stM, hparse, hlenM, hpresM, hhoistM, hsrealM, hfresh, hndIds⟩ :=
          parse_forest (itemsSize x.children) x.children fuel st (le_refl _)
            hfcx.1 hfcx.2 hndD
        obtain ⟨p0, hp0⟩ := hregr0.2.2
        have hentryM : getH stM.store r0.2 = some ⟨x.name, x.uuid, [], p0, true⟩ := by
          rw [hpresM r0.2 hregr0.1]
          exact hp0
        have hentryA : getH (modifyH stM.store r0.2
            (fun it => { it with children := it.children ++ ts.map ITree.id })) r0.2
            = some ⟨x.name, x.uuid, ts.map ITree.id, p0, true⟩ := by
          rw [getH_modifyH_self _ hentryM]
          rfl
        have hstAlen : (modifyH stM.store r0.2
            (fun it => { it with children := it.children ++ ts.map ITree.id })).length
            = stM.store.length := modifyH_length _ _ _
        have hsrealA : sRealF ⟨modifyH stM.store r0.2
            (fun it => { it with children := it.children ++ ts.map ITree.id }),
            stM.hoists⟩ x.children ts := by
          refine sRealF_stable x.children ts stM _ hsrealM ?_ ?_
          · intro j hj
            have hfr := (hfresh j hj).1
            exact getH_modifyH_other _ (by have := hregr0.1; omega)
          · intro pr hpr
            rfl
        have hpend := sRealF_pending x.children ts _ hsrealA
        have hNPids : ∀ pr ∈ hoistPairsF x.children ts,
            st.store.length ≤ pr.2 ∧ pr.2 < stM.store.length := by
          intro pr hpr
          exact hfresh pr.2 (hoistPairsF_id_mem x.children ts pr hpr)
        have hfstNP : (hoistPairsF x.children ts).map Prod.fst = dHoistsF x.children :=
          hoistPairsF_fst x.children ts stM hsrealM
        -- the new pending list and its invariants
        have hperm2 := hperm.trans
          (List.Perm.append_right _ (List.perm_middle))
        rw [List.cons_append] at hperm2
        have hperm' := hperm2.cons_inv
        have hpermD := hperm'.trans
          (List.Perm.append_left _ (List.Perm.append_left _
            (List.Perm.append_right _ hdecomp)))
        have hpermS := hpermD.trans (perm_shuffle _ _ _ _ _)
        obtain ⟨stF, curF, hpt, hle, hpres, hdone⟩ := ih P'
          ((RP1 ++ RP2) ++ hoistPairsF x.children ts) fuel
          ⟨modifyH stM.store r0.2
            (fun it => { it with children := it.children ++ ts.map ITree.id }),
            stM.hoists⟩ r0.2
          (by rw [List.length_cons] at hlen; omega)
          (fun y hy => hfc y (List.mem_cons_of_mem x hy))
          hnd.2 hchain.2
          (by
            rw [List.map_append, List.map_append, List.map_append, List.map_append,
              joinL_append, joinL_append]
            rw [show joinL ((hoistPairsF x.children ts).map (fun r => hoistsOfF r.1.children))
                = joinL ((dHoistsF x.children).map (fun d => hoistsOfF d.children)) from by
              rw [← hfstNP, List.map_map]
              rfl]
            rw [hfstNP]
            exact hpermS)
          (by
            intro r hr
            rcases List.mem_append.mp hr with hsv | hnp
            · refine ⟨?_, ?_, ?_⟩
              · have h1 := (hreg r (hsurvmem r hsv)).1
                show r.2 < (modifyH stM.store r0.2 _).length
                rw [hstAlen]
                omega
              · show hoistGet stM.hoists r.1.name = some r.2
                rw [hhoistM r.1.name (hsurvD r hsv)]
                exact (hreg r (hsurvmem r hsv)).2.1
              · obtain ⟨p1, hp1⟩ := (hreg r (hsurvmem r hsv)).2.2
                refine ⟨p1, ?_⟩
                show getH (modifyH stM.store r0.2 _) r.2 = _
                rw [getH_modifyH_other _ (hsurvId r hsv),
                  hpresM r.2 (hreg r (hsurvmem r hsv)).1]
                exact hp1
            · refine ⟨?_, (hpend r hnp).1, (hpend r hnp).2⟩
              have h1 := (hNPids r hnp).2
              show r.2 < (modifyH stM.store r0.2 _).length
              rw [hstAlen]
              omega)
        have hpresU : ∀ j, j < st.store.length →
            (∀ r ∈ RP1 ++ r0 :: RP2, j ≠ r.2) → getH stF.store j = getH st.store j := by
          intro j hj hnotr
          have h1 : getH stF.store j = getH (modifyH stM.store r0.2
              (fun it => { it with children := it.children ++ ts.map ITree.id })) j := by
            refine hpres j ?_ ?_
            · show j < (modifyH stM.store r0.2 _).length
              rw [hstAlen]
              omega
            · intro r hr
              rcases List.mem_append.mp hr with hsv | hnp
              · exact hnotr r (hsurvmem r hsv)
              · have h2 := (hNPids r hnp).1
                omega
          rw [h1, getH_modifyH_other _ (hnotr r0 hr0RP), hpresM j hj]
        refine ⟨stF, curF, ?_, ?_, hpresU, ?_⟩
        · rw [hsd, parse_top_h1 hregr0.2.1, parse_top_ul hparse]
          exact hpt
        · have h2 : st.store.length ≤ (modifyH stM.store r0.2
              (fun it => { it with children := it.children ++ ts.map ITree.id })).length := by
            rw [hstAlen]
            omega
          exact le_trans h2 hle
        · intro r hr
          rcases List.mem_append.mp hr with h | h
          · exact hdone r (List.mem_append_left _ (List.mem_append_left _ h))
          · rcases List.mem_cons.mp h with heq | h2
            · -- the head itself: upgrade its shallow realization
              rw [heq]
              obtain ⟨ts', hfr', hids'⟩ := upgradeF x.children ts
                ⟨modifyH stM.store r0.2
                  (fun it => { it with children := it.children ++ ts.map ITree.id }),
                  stM.hoists⟩ stF.store hsrealA
                (by
                  intro j e hje hhoist
                  have hjlt : j < (modifyH stM.store r0.2
                      (fun it => { it with children := it.children ++ ts.map ITree.id })).length :=
                    getH_some_lt hje
                  refine hpres j hjlt ?_
                  intro r' hr' heq
                  rcases List.mem_append.mp hr' with hsv | hnp
                  · obtain ⟨p1, hp1⟩ := (hreg r' (hsurvmem r' hsv)).2.2
                    have hp2 : getH (modifyH stM.store r0.2
                        (fun it => { it with children := it.children ++ ts.map ITree.id })) r'.2
                        = some ⟨r'.1.name, r'.1.uuid, [], p1, true⟩ := by
                      rw [getH_modifyH_other _ (hsurvId r' hsv),
                        hpresM r'.2 (hreg r' (hsurvmem r' hsv)).1]
                      exact hp1
                    rw [heq, hp2] at hje
                    have hv := Option.some.inj hje
                    have hh0 := congrArg HItem.hoisted hv
                    have hh1 : true = e.hoisted := hh0
                    rw [hhoist] at hh1
                    exact absurd hh1 (by decide)
                  · obtain ⟨p1, hp1⟩ := (hpend r' hnp).2
                    rw [heq, hp1] at hje
                    have hv := Option.some.inj hje
                    have hh0 := congrArg HItem.hoisted hv
                    have hh1 : true = e.hoisted := hh0
                    rw [hhoist] at hh1
                    exact absurd hh1 (by decide))
                (by
                  intro pr hpr
                  exact hdone pr (List.mem_append_right _ hpr))
              refine ⟨ts', p0, ?_, ?_⟩
              · have h1 : getH stF.store r0.2 = getH (modifyH stM.store r0.2
                    (fun it => { it with children := it.children ++ ts.map ITree.id })) r0.2 := by
                  refine hpres r0.2 ?_ ?_
                  · rw [hstAlen]
                    have := hregr0.1
                    omega
                  · intro r' hr'
                    rcases List.mem_append.mp hr' with hsv | hnp
                    · exact (hsurvId r' hsv).symm
                    · have h2 := (hNPids r' hnp).1
                      have h3 := hregr0.1
                      omega
                rw [h1, hentryA, hr01, ← hids']
              · rw [hr01]
                exact hfr'
            · exact hdone r (List.mem_append_left _ (List.mem_append_right _ h2))

/-- `update_parents` only ever writes `parent` fields, so it changes no
store entry up to `stripParent`. -/
theorem up_go_strips : ∀ (fuel : Nat) (s : Store) (i : Nat),
    stripEq (update_parents_go fuel s i) s
  | 0, s, _ => stripEq_refl s
  | fuel + 1, s, i => by
    show stripEq (match getH s i with
      | none => s
      | some it => it.children.foldl
          (fun acc c => update_parents_go fuel (setParentH acc c i) c) s) s
    cases hg : getH s i with
    | none => exact stripEq_refl s
    | some it =>
      have hfold : ∀ (cs : List Nat) (acc : Store), stripEq acc s →
          stripEq (cs.foldl
            (fun acc c => update_parents_go fuel (setParentH acc c i) c) acc) s := by
        intro cs
        induction cs with
        | nil => intro acc h; exact h
        | cons c cs ihc =>
          intro acc h
          rw [List.foldl_cons]
          refine ihc _ ?_
          refine stripEq_trans (up_go_strips fuel _ c) ?_
          exact stripEq_trans (stripEq_setParentH acc c i) h
      exact hfold it.children s (stripEq_refl s)

mutual

theorem size_mem_allNodes : ∀ (x : Item), ∀ y ∈ allNodes x, itemSize y ≤ itemSize x
  | .mk nm u cs ho, y, hy => by
    rw [show allNodes (.mk nm u cs ho) = Item.mk nm u cs ho :: allNodesF cs from rfl] at hy
    have h2 : itemSize (Item.mk nm u cs ho) = 1 + itemsSize cs := rfl
    rcases List.mem_cons.mp hy with rfl | hy2
    · exact le_refl _
    · have h1 := size_mem_allNodesF cs y hy2
      omega

theorem size_mem_allNodesF : ∀ (F : List Item), ∀ y ∈ allNodesF F,
    itemSize y ≤ itemsSize F
  | [], y, hy => by cases hy
  | x :: xs, y, hy => by
    rw [show allNodesF (x :: xs) = allNodes x ++ allNodesF xs from rfl] at hy
    have h2 : itemsSize (x :: xs) = itemSize x + itemsSize xs := rfl
    rcases List.mem_append.mp hy with hy2 | hy2
    · have h1 := size_mem_allNodes x y hy2
      omega
    · have h1 := size_mem_allNodesF xs y hy2
      omega

end

/-- **C1 (amended).**  Parse/render round trip, universally: for every
forest `cs` of clean items (names nonempty, fixed under `strip`, free
of newline, tab and the markup characters `[ ] # ( )`; identifiers
below 2^128) in which no name is used by more than one hoist-reference
item, rendering the tree `Item("root")`-with-children-`cs` through
`save_inventory_file`, re-tokenizing the text and re-parsing with
`parse_inventory_file` succeeds and reads back exactly the original
tree - equal in (name, identifier, hoisted, child order) at every
node.  Without the name proviso the round trip fails
(`parse_render_round_trip_counterexample`). -/
theorem parse_render_round_trip (cs : List Item) (fuel : Nat)
    (hclean : cleanItems cs = true)
    (hnd : ((hoistList (Item.mk "root".data none cs false)).map Item.name).Nodup)
    (hfuel : itemsSize cs
      + secsMeasure (hoistList (Item.mk "root".data none cs false)) + 3 ≤ fuel) :
    ∃ s : Store,
      parse_inventory_file fuel
        (markdownToDoc fuel
          (save_inventory_file (Item.mk "root".data none cs false))) = some s ∧
      readout s fuel 0 = some (Item.mk "root".data none cs false) := by
  have hcleanroot : cleanItem (Item.mk "root".data none cs false) = true := by
    rw [show cleanItem (Item.mk "root".data none cs false)
      = ((cleanName "root".data && true) && cleanItems cs) from rfl, hclean]
    decide
  have hcleanP0 : ∀ h ∈ hoistList (Item.mk "root".data none cs false),
      cleanItem h = true := by
    intro h hh
    exact cleanItem_allNodes _ hcleanroot h (hoistList_mem_allNodes hh).1
  have hmd : markdownToDoc fuel (save_inventory_file (Item.mk "root".data none cs false))
      = docTop cs (hoistList (Item.mk "root".data none cs false)) := by
    unfold markdownToDoc
    rw [splitLines_save hcleanroot]
    unfold allLines
    rw [List.append_assoc]
    exact groupTop_doc cs _ fuel hclean hcleanP0 hfuel
  have hPermP0 : List.Perm (hoistList (Item.mk "root".data none cs false))
      (hoistsOfF cs) := by
    refine (hoistList_perm _).trans ?_
    rw [hoistsOf_false]
  have hndHF : ((hoistsOfF cs).map Item.name).Nodup := (hPermP0.map Item.name).nodup hnd
  have hdecomp := hoistsF_decomp cs
  have hndDE := (hdecomp.map Item.name).nodup hndHF
  rw [List.map_append, List.nodup_append] at hndDE
  have hndD := hndDE.1
  cases cs with
  | nil =>
    have hP0 : hoistList (Item.mk "root".data none [] false) = [] := by
      unfold hoistList flatten
      rw [flattenGo_cons]
      rw [show ([] : List Item) ++ (Item.mk "root".data none [] false).children = []
        from rfl, flattenGo_nil]
      rfl
    rw [hmd, hP0]
    refine ⟨update_parents_go fuel [rootItemH] 0, ?_, ?_⟩
    · show (parse_top fuel (docTop [] []) initPState 0).map
        (fun r => update_parents_go fuel r.1.store 0) = _
      rw [show docTop [] [] = [] from rfl]
      rfl
    · obtain ⟨f, rfl⟩ : ∃ f, fuel = f + 1 := ⟨fuel - 1, by omega⟩
      have hre := readout_stripEq (f + 1) (up_go_strips (f + 1) [rootItemH] 0) 0
      rw [hre]
      rfl
  | cons c cs' =>
    obtain ⟨ts0, st1, hparse0, hlen1, hpres1, hhoist1, hsreal1, hfresh1, hndIds1⟩ :=
      parse_forest (itemsSize (c :: cs')) (c :: cs') fuel initPState (le_refl _)
        (by omega) hclean hndD
    have hdt : docTop (c :: cs') (hoistList (Item.mk "root".data none (c :: cs') false))
        = TopNode.ul (docNodes (c :: cs'))
          :: secsDoc (hoistList (Item.mk "root".data none (c :: cs') false)) := by
      unfold docTop
      rfl
    have hroot1 : getH st1.store 0 = some rootItemH := by
      rw [hpres1 0 (by decide)]
      rfl
    have hst2entry : getH (modifyH st1.store 0
        (fun it => { it with children := it.children ++ ts0.map ITree.id })) 0
        = some ⟨"root".data, none, ts0.map ITree.id, none, false⟩ := by
      rw [getH_modifyH_self _ hroot1]
      rfl
    have hst2len : (modifyH st1.store 0
        (fun it => { it with children := it.children ++ ts0.map ITree.id })).length
        = st1.store.length := modifyH_length _ _ _
    have hsreal2 : sRealF ⟨modifyH st1.store 0
        (fun it => { it with children := it.children ++ ts0.map ITree.id }),
        st1.hoists⟩ (c :: cs') ts0 := by
      refine sRealF_stable (c :: cs') ts0 st1 _ hsreal1 ?_ ?_
      · intro j hj
        have hfr := (hfresh1 j hj).1
        refine getH_modifyH_other _ ?_
        intro h0
        rw [h0] at hfr
        exact absurd hfr (by decide)
      · intro pr hpr
        rfl
    have hpend0 := sRealF_pending (c :: cs') ts0 _ hsreal2
    have hNPids0 : ∀ pr ∈ hoistPairsF (c :: cs') ts0,
        initPState.store.length ≤ pr.2 ∧ pr.2 < st1.store.length := by
      intro pr hpr
      exact hfresh1 pr.2 (hoistPairsF_id_mem _ ts0 pr hpr)
    have hfstNP0 : (hoistPairsF (c :: cs') ts0).map Prod.fst = dHoistsF (c :: cs') :=
      hoistPairsF_fst _ ts0 st1 hsreal1
    have hperm0 : List.Perm (hoistList (Item.mk "root".data none (c :: cs') false))
        ((hoistPairsF (c :: cs') ts0).map Prod.fst
          ++ joinL ((hoistPairsF (c :: cs') ts0).map (fun r => hoistsOfF r.1.children))) := by
      rw [hfstNP0]
      rw [show joinL ((hoistPairsF (c :: cs') ts0).map (fun r => hoistsOfF r.1.children))
          = joinL ((dHoistsF (c :: cs')).map (fun d => hoistsOfF d.children)) from by
        rw [← hfstNP0, List.map_map]
        rfl]
      exact hPermP0.trans hdecomp
    have hfc0 : ∀ y ∈ hoistList (Item.mk "root".data none (c :: cs') false),
        itemsSize y.children < fuel ∧ cleanItems y.children = true := by
      intro y hy
      have hmem := hoistList_mem_allNodes hy
      have hyc : cleanItem y = true := cleanItem_allNodes _ hcleanroot y hmem.1
      refine ⟨?_, (cleanItem_parts hyc).2.2⟩
      have hyF : y ∈ allNodesF (c :: cs') := by
        have h1 := hmem.1
        rw [show allNodes (Item.mk "root".data none (c :: cs') false)
          = Item.mk "root".data none (c :: cs') false :: allNodesF (c :: cs') from rfl] at h1
        rcases List.mem_cons.mp h1 with heq | h2
        · exfalso
          have h3 := hmem.2
          rw [heq] at h3
          have h3' : (false : Bool) = true := h3
          exact absurd h3' (by decide)
        · exact h2
      have hsz := size_mem_allNodesF (c :: cs') y hyF
      obtain ⟨nm, u, ycs, ho⟩ := y
      have h4 : itemSize (Item.mk nm u ycs ho) = 1 + itemsSize ycs := rfl
      have h5 : (Item.mk nm u ycs ho).children = ycs := rfl
      rw [h5]
      omega
    have hchain0 := chainOK_hoistList (Item.mk "root".data none (c :: cs') false) hnd
    obtain ⟨stF, curF, hpt, hleF, hpresF, hdoneF⟩ := sections_run
      (hoistList (Item.mk "root".data none (c :: cs') false)).length
      (hoistList (Item.mk "root".data none (c :: cs') false))
      (hoistPairsF (c :: cs') ts0) fuel
      ⟨modifyH st1.store 0
        (fun it => { it with children := it.children ++ ts0.map ITree.id }),
        st1.hoists⟩ 0
      (le_refl _) hfc0 hnd hchain0 hperm0
      (by
        intro r hr
        refine ⟨?_, (hpend0 r hr).1, (hpend0 r hr).2⟩
        show r.2 < (modifyH st1.store 0
          (fun it => { it with children := it.children ++ ts0.map ITree.id })).length
        rw [hst2len]
        exact (hNPids0 r hr).2)
    have hsrealRoot : sReal ⟨modifyH st1.store 0
        (fun it => { it with children := it.children ++ ts0.map ITree.id }),
        st1.hoists⟩ (Item.mk "root".data none (c :: cs') false) (ITree.mk 0 ts0) := by
      rw [sReal_plain_eq]
      exact ⟨⟨none, hst2entry⟩, hsreal2⟩
    obtain ⟨T', hfrT, hidT⟩ := upgrade (Item.mk "root".data none (c :: cs') false)
      (ITree.mk 0 ts0)
      ⟨modifyH st1.store 0
        (fun it => { it with children := it.children ++ ts0.map ITree.id }),
        st1.hoists⟩ stF.store hsrealRoot
      (by
        intro j e hje hhoist
        have hjlt := getH_some_lt hje
        refine hpresF j hjlt ?_
        intro r hr heq
        obtain ⟨p1, hp1⟩ := (hpend0 r hr).2
        rw [heq, hp1] at hje
        have hv := Option.some.inj hje
        have hh0 := congrArg HItem.hoisted hv
        have hh1 : true = e.hoisted := hh0
        rw [hhoist] at hh1
        exact absurd hh1 (by decide))
      (by
        intro pr hpr
        refine hdoneF pr ?_
        rw [show hoistPairs (Item.mk "root".data none (c :: cs') false) (ITree.mk 0 ts0)
          = hoistPairsF (c :: cs') ts0 from rfl] at hpr
        exact hpr)
    refine ⟨update_parents_go fuel stF.store 0, ?_, ?_⟩
    · rw [hmd]
      show (parse_top fuel (docTop (c :: cs')
          (hoistList (Item.mk "root".data none (c :: cs') false))) initPState 0).map
        (fun r => update_parents_go fuel r.1.store 0) = _
      rw [hdt, parse_top_ul hparse0, hpt]
      rfl
    · have hre := readout_stripEq fuel (up_go_strips fuel stF.store 0) 0
      rw [hre]
      have hid0 : ITree.id T' = 0 := hidT
      rw [← hid0]
      refine fReal_readout _ T' stF.store fuel hfrT ?_
      have h4 : itemSize (Item.mk "root".data none (c :: cs') false)
          = 1 + itemsSize (c :: cs') := rfl
      omega

/-- A concrete clean forest with one nested hoist reference, for the
round-trip witness. -/
def rtC1cs : List Item :=
  [Item.mk ['a'] none [Item.mk ['h'] none [] true] false]

theorem rtC1_hoistList :
    hoistList (Item.mk "root".data none rtC1cs false)
      = [Item.mk ['h'] none [] true] := by
  unfold hoistList flatten rtC1cs
  rw [flattenGo_cons]
  rw [show ([] : List Item) ++ (Item.mk "root".data none
      [Item.mk ['a'] none [Item.mk ['h'] none [] true] false] false).children
    = [Item.mk ['a'] none [Item.mk ['h'] none [] true] false] from rfl]
  rw [flattenGo_cons]
  rw [show ([] : List Item)
      ++ (Item.mk ['a'] none [Item.mk ['h'] none [] true] false).children
    = [Item.mk ['h'] none [] true] from rfl]
  rw [flattenGo_cons]
  rw [show ([] : List Item) ++ (Item.mk ['h'] none [] true).children = [] from rfl,
    flattenGo_nil]
  rfl

/-- The round trip at a concrete tree: a plain item holding a hoist
reference, rendered and re-parsed back to itself. -/
theorem parse_render_round_trip_witness :
    ∃ s : Store,
      parse_inventory_file 30
        (markdownToDoc 30
          (save_inventory_file (Item.mk "root".data none rtC1cs false))) = some s ∧
      readout s 30 0 = some (Item.mk "root".data none rtC1cs false) :=
  parse_render_round_trip rtC1cs 30 (by decide)
    (by
      rw [rtC1_hoistList]
      decide)
    (by
      rw [rtC1_hoistList]
      decide)

end Inventory

